import Mathlib

/-!
Verification of the N-puzzle solver in `solver.py` against its specification.

The development shallowly embeds the program: Python integers are `ℤ`
(with `//` and `%` as Euclidean division/modulus, which agree with Python
floor semantics for the positive divisors used here), Python lists are
Lean lists, the `State` class is a structure whose mutating methods are
modelled as functions returning the updated state, `heapq` (a standard
library collaborator external to the repository) is modelled by its
documented contract of popping a least element under tuple ordering, and
`dict` keyed by `State` objects is modelled as an association list whose
membership and lookup compare cached content hashes, exactly as the
hash-based `State.__eq__` of the source does.  The CPython object hash
for tuples of small non-negative integers (the deterministic
xxHash-based `tuplehash` of CPython 3.8+ on a 64-bit build) is
implemented bit-for-bit so that hash collisions remain representable.
-/

namespace NPuzzle

/-- Python floor division `//` for the positive divisors used by the code. -/
def pyDiv (a b : ℤ) : ℤ := Int.ediv a b

/-- Python modulus `%` for the positive divisors used by the code. -/
def pyMod (a b : ℤ) : ℤ := Int.emod a b

/-- The 64-bit wrap-around modulus of CPython tuple hashing. -/
def U64 : ℕ := 2 ^ 64

/-- The xxHash prime `_PyHASH_XXPRIME_1`. -/
def XXP1 : ℕ := 11400714785074694791

/-- The xxHash prime `_PyHASH_XXPRIME_2`. -/
def XXP2 : ℕ := 14029467366897019727

/-- The xxHash prime `_PyHASH_XXPRIME_5`. -/
def XXP5 : ℕ := 2870177450012600261

/-- CPython hash of a non-negative machine integer: reduction modulo the
Mersenne prime `2 ^ 61 - 1`.  Tile values are non-negative, so the
negative branch of CPython long hashing never arises. -/
def pyIntHash (v : ℤ) : ℕ := (v % (2305843009213693951 : ℤ)).toNat

/-- The rotation `_PyHASH_XXROTATE`: rotate a 64-bit value left by 31. -/
def pyRot (a : ℕ) : ℕ := a * 2 ^ 31 % U64 + a / 2 ^ 33

/-- CPython `tuplehash` (Objects/tupleobject.c, 3.8+, 64-bit build) on a
tuple of integers, kept as the unsigned 64-bit value: the signed cast at
the Python level is a bijection, so hash equality is unaffected. -/
def pyTupleHash (l : List ℤ) : ℕ :=
  let acc := l.foldl (fun acc v => pyRot ((acc + pyIntHash v * XXP2) % U64) * XXP1 % U64) XXP5
  let acc := (acc + Nat.xor l.length (Nat.xor XXP5 3527539)) % U64
  if acc = U64 - 1 then 1546275796 else acc

/-- CPython hash of `None` (the constant of CPython 3.12+). -/
def pyNoneHash : ℕ := 4238894112

/-- The `State` class: the flat row-major sequence, the move character
that produced the state (class default the empty string), the cached
hash (`_hash`, sentinel 0) and the cached score (`_score`, sentinel -1). -/
structure State where
  flat : List ℤ
  moveChar : String := ""
  hashCache : ℕ := 0
  scoreCache : ℤ := -1
  deriving DecidableEq, Repr

/-- The value produced by `State.__hash__`: the cached hash if set,
otherwise the content hash.  The write-back of the computed hash is
observationally transparent (the cache is 0 or already the content
hash on every constructible state), so it is not threaded. -/
def hashValue (s : State) : ℕ := if s.hashCache = 0 then pyTupleHash s.flat else s.hashCache

/-- `State.__eq__`: comparison of the two hash values only. -/
def stateEq (a b : State) : Bool := hashValue a == hashValue b

/-- One summand of the Manhattan score of the tile with value `v` at
flat index `i`: horizontal distance by `%`, vertical by `//`, exactly
the two increments of `State.score`. -/
def scoreTerm (v : ℤ) (i w : ℕ) : ℤ :=
  |pyMod (v - 1) w - pyMod i w| + |pyDiv (v - 1) w - pyDiv i w|

/-- The full recomputation loop of `State.score`: every index
contributes its `scoreTerm` unless it holds the blank. -/
def fullScore (l : List ℤ) (w : ℕ) : ℤ :=
  ∑ i ∈ Finset.range l.length, if l.getD i 0 = 0 then 0 else scoreTerm (l.getD i 0) i w

/-- `State.score`: return the cached score, computing and caching it
first when the cache holds the -1 sentinel. -/
def scoreAndCache (s : State) (w : ℕ) : ℤ × State :=
  if s.scoreCache = -1 then
    let v := fullScore s.flat w
    (v, { s with scoreCache := v })
  else (s.scoreCache, s)

/-- The source function `index`: flat index of coordinates. -/
def index (x y : ℤ) (w : ℕ) : ℤ := y * w + x

/-- The source function `from_index`: coordinates of a flat index. -/
def from_index (idx : ℤ) (w : ℕ) : ℤ × ℤ := (pyMod idx w, pyDiv idx w)

/-- Python list read at a possibly negative index (negative indices wrap,
as in Python; reads out of range default to 0 and are unreachable on the
in-bounds accesses the proofs cover). -/
def pyGetI (l : List ℤ) (i : ℤ) : ℤ :=
  if i < 0 then l.getD ((l.length : ℤ) + i).toNat 0 else l.getD i.toNat 0

/-- Python list write at a possibly negative index, same conventions. -/
def pySetI (l : List ℤ) (i : ℤ) (v : ℤ) : List ℤ :=
  if i < 0 then l.set ((l.length : ℤ) + i).toNat v else l.set i.toNat v

/-- `State.move`: record the move character, reset the hash cache,
update the score cache incrementally by the two-term delta of the moved
tile, then swap the blank at `(x, y)` with the tile at `(x+dx, y+dy)`. -/
def State.move (s : State) (char : String) (x y dx dy : ℤ) (w : ℕ) : State :=
  let blankIdx := index x y w
  let x := x + dx
  let y := y + dy
  let i := index x y w
  let item := pyGetI s.flat i
  let sc := s.scoreCache
    - |pyMod (item - 1) w - pyMod i w| - |pyDiv (item - 1) w - pyDiv i w|
    + |pyMod (item - 1) w - pyMod blankIdx w| + |pyDiv (item - 1) w - pyDiv blankIdx w|
  { s with moveChar := char, hashCache := 0, scoreCache := sc,
           flat := pySetI (pySetI s.flat blankIdx item) i 0 }

/-- `make_state`: flatten the 2D data; the caches keep their sentinels. -/
def make_state (pd : List (List ℤ)) : State := { flat := pd.flatten }

/-- `clone`: copy the flat list and both caches; the move character is
the fresh-object default, exactly as in the source. -/
def clone (start : State) : State :=
  { flat := start.flat, hashCache := start.hashCache, scoreCache := start.scoreCache }

/-- The width `len(puzzle_data[0])` used throughout the source. -/
def widthOf (pd : List (List ℤ)) : ℕ := pd.headI.length

/-- The nested inversion-counting loops of `is_solvable`: the inner loop
starts at `j = i`, whose summand is always zero. -/
def inversions (l : List ℤ) : ℕ :=
  ∑ i ∈ Finset.range l.length, ∑ j ∈ Finset.Ico i l.length,
    if l.getD j 0 < l.getD i 0 then 1 else 0

/-- The blank-row scan of `is_solvable`: first row containing a 0, with
the -1 initial value surviving when no row does. -/
def blankRow (pd : List (List ℤ)) : ℤ :=
  match pd.findIdx? (fun row => 0 < row.count 0) with
  | some i => (i : ℤ)
  | none => -1

/-- `is_solvable`: inversion parity of the blank-removed flattening,
adjusted by the blank row distance from the bottom when the width is even. -/
def is_solvable (pd : List (List ℤ)) : Bool :=
  let flat := pd.flatten.erase 0
  let inv := inversions flat
  if widthOf pd % 2 = 1 then inv % 2 == 0
  else ((inv : ℤ) + ((pd.length : ℤ) - blankRow pd - 1)) % 2 == 0

/-- An open-list tuple `(f, g, sequence number, state, predecessor)`. -/
structure Entry where
  f : ℤ
  g : ℤ
  ctr : ℤ
  st : State
  prev : Option State
  deriving DecidableEq

/-- Python tuple ordering on open-list entries.  The sequence numbers of
distinct entries differ in every run, so the comparison never reaches
the state components (which carry no ordering in the source). -/
def keyLt (a b : Entry) : Bool :=
  a.f < b.f || (a.f == b.f && (a.g < b.g || (a.g == b.g && a.ctr < b.ctr)))

/-- The `heapq` contract: `heappop` removes and returns a least element
under the tuple ordering.  When several elements are tied the leftmost
is chosen; ties never occur in a run because sequence numbers differ. -/
def popMin : List Entry → Option (Entry × List Entry)
  | [] => none
  | e :: rest =>
    match popMin rest with
    | none => some (e, [])
    | some (m, r) => if keyLt m e then some (m, e :: r) else some (e, rest)

/-- Hash of a dictionary-lookup key that may be `None`. -/
def optHash : Option State → ℕ
  | none => pyNoneHash
  | some s => hashValue s

/-- Membership in the closed dictionary: some stored key hash-matches
the query, which is exactly what `in` decides under `State.__eq__`. -/
def pyContains (closed : List (State × Option State)) (q : Option State) : Bool :=
  closed.any (fun kv => hashValue kv.1 == optHash q)

/-- Dictionary read: the value of the first (and in any run unique)
hash-matching key. -/
def pyLookup (closed : List (State × Option State)) (q : Option State) : Option (Option State) :=
  (closed.find? (fun kv => hashValue kv.1 == optHash q)).map Prod.snd

/-- The `while cur in closed_list` walk of `make_path`, collecting move
characters.  The source loop is unbounded; the model carries fuel, and
the verified runs never exhaust it (the walk strictly descends insertion
indices).  A successful lookup of `None` would fail in Python reading
`None.moveChar`; the model returns `none` there. -/
def makePathAux (closed : List (State × Option State)) :
    Option State → List String → ℕ → Option (List String)
  | _, _, 0 => none
  | cur, path, fuel + 1 =>
    match pyLookup closed cur with
    | none => some path
    | some nxt =>
      match cur with
      | none => none
      | some s => makePathAux closed nxt (path ++ [s.moveChar]) fuel

/-- `make_path`: walk the closed list from `prev`, reverse, append the
end state move character, and drop the placeholder of the start state. -/
def make_path (endSt : State) (prev : Option State)
    (closed : List (State × Option State)) (fuel : ℕ) : Option (List String) :=
  (makePathAux closed prev [] fuel).map (fun path => (path.reverse ++ [endSt.moveChar]).drop 1)

/-- `info_for`: the open-list tuple for a freshly generated state; the
score call caches the score in the stored state. -/
def info_for (active : State) (prev : Option State) (w : ℕ) (dist : ℤ) (i : ℤ) : Entry :=
  let p := scoreAndCache active w
  ⟨dist + 1 + p.1, dist + 1, i, p.2, prev⟩

/-- The search state of one `solve` call: open list, closed list in
insertion order, and the iteration counter. -/
structure SearchCfg where
  opn : List Entry
  closed : List (State × Option State)
  ctr : ℤ

/-- One guarded child generation of the search loop: clone, move, and
push unless the child is already closed, incrementing the counter. -/
def tryMove (closed : List (State × Option State)) (active : State) (char : String)
    (x y dx dy : ℤ) (w : ℕ) (dist : ℤ) (acc : List Entry × ℤ) : List Entry × ℤ :=
  let child := State.move (clone active) char x y dx dy w
  if pyContains closed (some child) then acc
  else (acc.1 ++ [info_for child (some active) w dist (acc.2 + 1)], acc.2 + 1)

/-- Outcome of one iteration of the search loop: continue with a new
search state, or finish with the result of `solve`. -/
inductive StepOut where
  | cont : SearchCfg → StepOut
  | done : Option (Option (List String)) → StepOut

/-- One iteration of the `while len(open_list) > 0` loop: pop the least
entry, skip it if closed, return a path if it scores zero, otherwise
generate the four guarded children and close the popped state. -/
def stepFn (w h : ℕ) (c : SearchCfg) : StepOut :=
  match popMin c.opn with
  | none => .done (some none)
  | some (e, rest) =>
    if pyContains c.closed (some e.st) then .cont ⟨rest, c.closed, c.ctr⟩
    else
      let p := scoreAndCache e.st w
      let active := p.2
      if p.1 = 0 then
        .done (match make_path active e.prev c.closed (c.closed.length + 2) with
          | some path => some (some path)
          | none => none)
      else
        let xy := from_index (active.flat.indexOf 0 : ℕ) w
        let x := xy.1
        let y := xy.2
        let a1 := if y < (h : ℤ) - 1 then tryMove c.closed active "U" x y 0 1 w e.g (rest, c.ctr)
                  else (rest, c.ctr)
        let a2 := if y > 0 then tryMove c.closed active "D" x y 0 (-1) w e.g a1 else a1
        let a3 := if x < (w : ℤ) - 1 then tryMove c.closed active "L" x y 1 0 w e.g a2 else a2
        let a4 := if x > 0 then tryMove c.closed active "R" x y (-1) 0 w e.g a3 else a3
        .cont ⟨a4.1, c.closed ++ [(active, e.prev)], a4.2⟩

/-- The configuration built by the expansion arm of `stepFn`, named so
the case analysis of one loop iteration can be stated compactly. -/
def expandCfg (w h : ℕ) (closed : List (State × Option State)) (ctr : ℤ)
    (e : Entry) (rest : List Entry) : SearchCfg :=
  let active := (scoreAndCache e.st w).2
  let xy := from_index (active.flat.indexOf 0 : ℕ) w
  let x := xy.1
  let y := xy.2
  let a1 := if y < (h : ℤ) - 1 then tryMove closed active "U" x y 0 1 w e.g (rest, ctr)
            else (rest, ctr)
  let a2 := if y > 0 then tryMove closed active "D" x y 0 (-1) w e.g a1 else a1
  let a3 := if x < (w : ℤ) - 1 then tryMove closed active "L" x y 1 0 w e.g a2 else a2
  let a4 := if x > 0 then tryMove closed active "R" x y (-1) 0 w e.g a3 else a3
  ⟨a4.1, closed ++ [(active, e.prev)], a4.2⟩

/-- The result returned by the goal arm of `stepFn`. -/
def goalResult (w : ℕ) (closed : List (State × Option State)) (e : Entry) :
    Option (Option (List String)) :=
  match make_path (scoreAndCache e.st w).2 e.prev closed (closed.length + 2) with
  | some path => some (some path)
  | none => none

/-- The search loop with fuel: `none` means the fuel ran out, which the
verified fuel bounds rule out. -/
def loopFuel (w h : ℕ) : ℕ → SearchCfg → Option (Option (List String))
  | 0, _ => none
  | fuel + 1, c =>
    match stepFn w h c with
    | .done r => r
    | .cont c' => loopFuel w h fuel c'

/-- The search state just before the loop: the seed tuple
`(0, 0, 0, initial_state, None)` with the scored initial state. -/
def initCfg (pd : List (List ℤ)) : SearchCfg :=
  ⟨[⟨0, 0, 0, (scoreAndCache (make_state pd) (widthOf pd)).2, none⟩], [], 0⟩

/-- `solve`: gate on solvability, return `[]` on an already solved
puzzle, otherwise run the search loop.  The inner `Option` is the Python
result: `none` is Python `None`, `some ws` a move list. -/
def solve (pd : List (List ℤ)) (fuel : ℕ) : Option (Option (List String)) :=
  if is_solvable pd = false then some none
  else
    let p := scoreAndCache (make_state pd) (widthOf pd)
    if p.1 = 0 then some (some [])
    else loopFuel (widthOf pd) pd.length fuel (initCfg pd)

/-- Iterated continuing steps of the loop, for stating properties of
every search state a run passes through. -/
def stepN (w h : ℕ) : ℕ → SearchCfg → Option SearchCfg
  | 0, c => some c
  | k + 1, c =>
    match stepFn w h c with
    | .cont c' => stepN w h k c'
    | .done _ => none

/-- A search state the loop of `solve pd` passes through. -/
def Reaches (pd : List (List ℤ)) (c : SearchCfg) : Prop :=
  ∃ k, stepN (widthOf pd) pd.length k (initCfg pd) = some c

/-- Fuel sufficient for any run: the loop closes at most one of the
`n !` configurations per expansion and pushes at most four entries. -/
def bigFuel (pd : List (List ℤ)) : ℕ := 5 * Nat.factorial pd.flatten.length + 7

/-- `solve` with fuel that provably never runs out. -/
def solveFull (pd : List (List ℤ)) : Option (Option (List String)) := solve pd (bigFuel pd)

/-! ### Specification-side definitions -/

/-- The tile multiset of a valid puzzle of `n` cells: `0, 1, ..., n-1`. -/
def intRange (n : ℕ) : List ℤ := (List.range n).map (fun k : ℕ => (k : ℤ))

/-- The goal configuration `1, 2, ..., n-1, 0` in row-major order. -/
def goalFlat (n : ℕ) : List ℤ := (List.range' 1 (n - 1)).map (fun k : ℕ => (k : ℤ)) ++ [0]

/-- A valid configuration: non-empty rectangle of positive width whose
flattening holds each of `0..n-1` exactly once. -/
def ValidPuzzle (pd : List (List ℤ)) : Prop :=
  pd ≠ [] ∧ 0 < widthOf pd ∧ (∀ row ∈ pd, row.length = widthOf pd) ∧
    pd.flatten.Perm (intRange (pd.length * widthOf pd))

instance (pd : List (List ℤ)) : Decidable (ValidPuzzle pd) := by
  unfold ValidPuzzle
  infer_instance

/-- The move semantics of the specification: each character swaps the
blank with the grid neighbour named by §4.3, gated by the grid bounds. -/
def applyMove (w h : ℕ) (l : List ℤ) (mc : String) : Option (List ℤ) :=
  let b := l.indexOf 0
  let swapTo := fun t : ℕ => some ((l.set b (l.getD t 0)).set t 0)
  match mc with
  | "U" => if b / w + 1 < h then swapTo (b + w) else none
  | "D" => if 0 < b / w then swapTo (b - w) else none
  | "L" => if b % w + 1 < w then swapTo (b + 1) else none
  | "R" => if 0 < b % w then swapTo (b - 1) else none
  | _ => none

/-- Apply a move word left to right. -/
def applyWord (w h : ℕ) (l : List ℤ) (ws : List String) : Option (List ℤ) :=
  ws.foldl (fun acc mc => acc.bind (fun l' => applyMove w h l' mc)) (some l)

/-- A configuration is solvable when some move word reaches the goal. -/
def Solvable (pd : List (List ℤ)) : Prop :=
  ∃ ws, applyWord (widthOf pd) pd.length pd.flatten ws =
    some (goalFlat (pd.length * widthOf pd))

/-- The number of entries of `l` smaller than `a`. -/
def cntLt (a : ℤ) (l : List ℤ) : ℕ := l.countP (fun v => decide (v < a))

/-- Head-recursive inversion count, used to reason about how moves
change the inversion parity. -/
def invCount : List ℤ → ℕ
  | [] => 0
  | a :: t => cntLt a t + invCount t

/-- Inversion count worded as in the claim: pairs `i < j` of the
blank-removed flattening with `value[j] < value[i]`. -/
def inversionPairs (l : List ℤ) : ℕ :=
  ∑ i ∈ Finset.range l.length, ∑ j ∈ Finset.Ico (i + 1) l.length,
    if l.getD j 0 < l.getD i 0 then 1 else 0

/-- The parity decision rule exactly as the claim words it. -/
def specSolvableRule (pd : List (List ℤ)) : Bool :=
  let fl := pd.flatten.filter (fun v => v != 0)
  let inv := inversionPairs fl
  if widthOf pd % 2 = 1 then inv % 2 == 0
  else (inv + (pd.length - 1 - pd.flatten.indexOf 0 / widthOf pd)) % 2 == 0

/-- All valid flat sequences of an `n`-cell puzzle. -/
def permsOf (n : ℕ) : List (List ℤ) := (intRange n).permutations'

/-- The tuple hash separates all valid flat sequences of the given cell
count: the collision-freedom the hash-based `State.__eq__` relies on. -/
def HashInjective (n : ℕ) : Prop :=
  List.Pairwise (fun a b => pyTupleHash a ≠ pyTupleHash b) (permsOf n)

/-- No valid flat sequence of the given cell count hash-collides with
`None`, so the `make_path` walk terminates at the start state. -/
def NoNoneHash (n : ℕ) : Prop := ∀ l ∈ permsOf n, pyTupleHash l ≠ pyNoneHash

instance (n : ℕ) : Decidable (HashInjective n) := by
  unfold HashInjective
  infer_instance

instance (n : ℕ) : Decidable (NoNoneHash n) := by
  unfold NoNoneHash
  infer_instance

/-- A hash cache is the sentinel or the content hash; every state the
program builds satisfies this. -/
def CacheOK (s : State) : Prop := s.hashCache = 0 ∨ s.hashCache = pyTupleHash s.flat

instance (s : State) : Decidable (CacheOK s) := by
  unfold CacheOK
  infer_instance

/-- Well-formedness of a state arising in a run: tile multiset of the
initial flattening, exact cached score, plausible hash cache. -/
def WFState (w : ℕ) (init : List ℤ) (s : State) : Prop :=
  s.flat.Perm init ∧ s.scoreCache = fullScore s.flat w ∧ CacheOK s

/-- The move word recorded by the closed-list chain ending at insertion
index `i`: the predecessor entry is recovered by the same hash lookup
the dictionary performs; the fuel argument tracks that insertion indices
strictly descend along a chain. -/
def cwAux (closed : List (State × Option State)) : ℕ → ℕ → List String
  | 0, _ => []
  | fuel + 1, i =>
    match closed.get? i with
    | none => []
    | some (_, none) => []
    | some (k, some p) =>
      cwAux closed fuel (closed.findIdx (fun kv => hashValue kv.1 == hashValue p)) ++ [k.moveChar]

/-- The move word leading from the start to closed entry `i`. -/
def chainWord (closed : List (State × Option State)) (i : ℕ) : List String :=
  cwAux closed (i + 1) i

/-- A word reaching `tgt` from `init` in the fewest possible moves. -/
def MinWord (w h : ℕ) (init tgt : List ℤ) (ms : List String) : Prop :=
  applyWord w h init ms = some tgt ∧
    ∀ ws, applyWord w h init ws = some tgt → ms.length ≤ ws.length

/-- Chain structure of closed entry `i`: the recorded predecessor is an
earlier closed key whose configuration reaches this one by the recorded
move character (the start entry records no predecessor). -/
def ChainLink (w h : ℕ) (closed : List (State × Option State)) (i : ℕ)
    (hi : i < closed.length) : Prop :=
  ((closed.get ⟨i, hi⟩).2 = none ∧ i = 0) ∨
  (∃ j, ∃ hj : j < i, (closed.get ⟨i, hi⟩).2 = some (closed.get ⟨j, hj.trans hi⟩).1 ∧
    applyMove w h (closed.get ⟨j, hj.trans hi⟩).1.flat (closed.get ⟨i, hi⟩).1.moveChar =
      some (closed.get ⟨i, hi⟩).1.flat)

/-- Link of an open entry (after the first expansion): its predecessor
is a closed key, its state is the predecessor after the recorded move,
its distance extends the predecessor chain by one, and its priority is
distance plus heuristic. -/
def OpenLink (w h : ℕ) (closed : List (State × Option State)) (e : Entry) : Prop :=
  ∃ j, ∃ hj : j < closed.length, e.prev = some (closed.get ⟨j, hj⟩).1 ∧
    applyMove w h (closed.get ⟨j, hj⟩).1.flat e.st.moveChar = some e.st.flat ∧
    e.g = (chainWord closed j).length + 1 ∧
    e.f = e.g + fullScore e.st.flat w

/-- The search invariant carrying everything the optimality and path
reconstruction arguments need, from the first expansion onward. -/
structure AInv (w h : ℕ) (init : List ℤ) (c : SearchCfg) : Prop where
  closedWF : ∀ kv ∈ c.closed, WFState w init kv.1
  openWF : ∀ e ∈ c.opn, WFState w init e.st
  closedInit : ∃ k, c.closed.head? = some (k, none) ∧ k.flat = init
  hashNodup : (c.closed.map (fun kv => hashValue kv.1)).Nodup
  notGoal : ∀ kv ∈ c.closed, kv.1.flat ≠ goalFlat init.length
  chain : ∀ i, (hi : i < c.closed.length) → ChainLink w h c.closed i hi
  minWord : ∀ i, (hi : i < c.closed.length) →
    MinWord w h init (c.closed.get ⟨i, hi⟩).1.flat (chainWord c.closed i) ∧
      (chainWord c.closed i).length ≤ i
  openLink : ∀ e ∈ c.opn, OpenLink w h c.closed e
  succ : ∀ i, (hi : i < c.closed.length) → ∀ mc t,
    applyMove w h (c.closed.get ⟨i, hi⟩).1.flat mc = some t →
    (∃ j, ∃ hj : j < c.closed.length, (c.closed.get ⟨j, hj⟩).1.flat = t) ∨
    (∃ e ∈ c.opn, e.st.flat = t ∧ e.g ≤ (chainWord c.closed i).length + 1)

/-- The unconditional invariant of every search state of a run,
including the seed state before the first expansion: well-formed states
everywhere and the priority law on every non-seed entry. -/
def BasicInv (w : ℕ) (init : List ℤ) (c : SearchCfg) : Prop :=
  (∀ e ∈ c.opn, WFState w init e.st ∧ ∀ s, e.prev = some s → WFState w init s) ∧
  (∀ kv ∈ c.closed, WFState w init kv.1 ∧ ∀ s, kv.2 = some s → WFState w init s) ∧
  (∀ e ∈ c.opn, e.f = e.g + fullScore e.st.flat w ∨
    (e.prev = none ∧ e.f = 0 ∧ e.g = 0 ∧ e.st.flat = init))

/-- A state held anywhere in a search state: as an open entry state or
predecessor, or as a closed key or value. -/
def AppearsIn (s : State) (c : SearchCfg) : Prop :=
  (∃ e ∈ c.opn, e.st = s ∨ e.prev = some s) ∨ (∃ kv ∈ c.closed, kv.1 = s ∨ kv.2 = some s)

/-- Claim C7 as stated: every open-list entry of every search state of
the run on `pd` has priority equal to distance plus heuristic. -/
def ClaimC7 (pd : List (List ℤ)) : Prop :=
  ∀ c, Reaches pd c → ∀ e ∈ c.opn, e.f = e.g + fullScore e.st.flat (widthOf pd)

/-- The frontier-exhaustion outcome: the gate and the already-solved
test pass, and within the given fuel the loop reaches an empty open list. -/
def ExhaustsWithin (pd : List (List ℤ)) (fuel : ℕ) : Prop :=
  is_solvable pd = true ∧ (scoreAndCache (make_state pd) (widthOf pd)).1 ≠ 0 ∧
    ∃ k, k < fuel ∧ ∃ c', stepN (widthOf pd) pd.length k (initCfg pd) = some c' ∧ c'.opn = []

/-- The hash lookup of a recorded predecessor resolves to a strictly
earlier insertion index, so the chain walks of `chainWord` and
`make_path` descend. -/
def Desc (closed : List (State × Option State)) : Prop :=
  ∀ i, (hi : i < closed.length) → ∀ p, (closed.get ⟨i, hi⟩).2 = some p →
    closed.findIdx (fun kv => hashValue kv.1 == hashValue p) < i

/-- Termination measure of the search loop on an `n`-cell puzzle: each
iteration pops one entry and pushes at most four, and at most `n !`
distinct configurations are ever closed. -/
def measCfg (n : ℕ) (c : SearchCfg) : ℕ :=
  c.opn.length + 5 * (Nat.factorial n + 1 - c.closed.length)

/-- Inversions between two blocks: pairs of a left element and a smaller
right element. -/
def crossInv (p q : List ℤ) : ℕ := (p.map (fun a => cntLt a q)).sum

/-- The solvability rule of `is_solvable` phrased on a flat sequence,
the form invariant under the specification moves. -/
def flatSolvable (w hgt : ℕ) (l : List ℤ) : Bool :=
  let inv := invCount (l.erase 0)
  if w % 2 = 1 then inv % 2 == 0
  else ((inv : ℤ) + ((hgt : ℤ) - ((l.indexOf 0 / w : ℕ) : ℤ) - 1)) % 2 == 0

/-! ### Basic arithmetic and list facts -/

theorem pyMod_index (w : ℕ) (x y : ℤ) (hx0 : 0 ≤ x) (hxw : x < w) :
    pyMod (index x y w) w = x := by
  show (y * (w : ℤ) + x) % (w : ℤ) = x
  rw [add_comm, Int.add_mul_emod_self, Int.emod_eq_of_lt hx0 hxw]

theorem pyDiv_index (w : ℕ) (x y : ℤ) (hx0 : 0 ≤ x) (hxw : x < w) :
    pyDiv (index x y w) w = y := by
  have hw : (w : ℤ) ≠ 0 := by omega
  show (y * (w : ℤ) + x) / (w : ℤ) = y
  rw [add_comm, Int.add_mul_ediv_right _ _ hw, Int.ediv_eq_zero_of_lt hx0 hxw, zero_add]

theorem index_nonneg (w : ℕ) (x y : ℤ) (hx : 0 ≤ x) (hy : 0 ≤ y) : 0 ≤ index x y w := by
  unfold index
  have h1 : 0 ≤ y * w := mul_nonneg hy (by positivity)
  omega

theorem index_lt (w h : ℕ) (x y : ℤ) (hx : 0 ≤ x) (hxw : x < w) (hy : 0 ≤ y) (hyh : y < h) :
    index x y w < (w * h : ℕ) := by
  unfold index
  have h1 : y * w ≤ (h - 1 : ℤ) * w := by
    apply mul_le_mul_of_nonneg_right (by omega) (by omega)
  push_cast
  nlinarith

theorem index_inj (w : ℕ) (x y x2 y2 : ℤ) (hx : 0 ≤ x) (hxw : x < w) (hx2 : 0 ≤ x2)
    (hx2w : x2 < w) (heq : index x y w = index x2 y2 w) : x = x2 ∧ y = y2 := by
  have h1 := pyMod_index w x y hx hxw
  have h2 := pyMod_index w x2 y2 hx2 hx2w
  have h3 := pyDiv_index w x y hx hxw
  have h4 := pyDiv_index w x2 y2 hx2 hx2w
  rw [heq] at h1 h3
  exact ⟨h1.symm.trans h2, h3.symm.trans h4⟩

theorem count_beq_le_count (l : List ℤ) (a : ℕ) (ha : a < l.length) (x : ℤ) :
    (if (l[a] == x) = true then 1 else 0) ≤ l.count x := by
  split
  · next hx =>
    have : x ∈ l := by
      have := List.getElem_mem ha
      rwa [eq_of_beq hx] at this
    simpa [List.count_pos_iff] using this
  · omega

/-- Swapping two entries of a list is a permutation. -/
theorem swap_perm (l : List ℤ) (a b : ℕ) (ha : a < l.length) (hb : b < l.length)
    (hab : a ≠ b) : ((l.set a (l.getD b 0)).set b (l.getD a 0)).Perm l := by
  have h4 : l.getD b 0 = l[b] := List.getD_eq_getElem l 0 hb
  have h5 : l.getD a 0 = l[a] := List.getD_eq_getElem l 0 ha
  rw [h4, h5, List.perm_iff_count]
  intro x
  have hb1 : b < (l.set a l[b]).length := by simpa using hb
  have h1 := List.count_set l[b] x l a ha
  have h2 := List.count_set l[a] x (l.set a l[b]) b hb1
  have h3 : (l.set a l[b])[b] = l[b] := List.getElem_set_ne hab _
  rw [h3, h1] at h2
  have h6 := count_beq_le_count l a ha x
  have h7 := count_beq_le_count l b hb x
  rw [h2]
  by_cases hax : (l[a] == x) = true <;> by_cases hbx : (l[b] == x) = true <;>
    simp only [hax, hbx, if_true, if_false] at * <;> omega

theorem scoreTerm_nonneg (v : ℤ) (i w : ℕ) : 0 ≤ scoreTerm v i w := by
  unfold scoreTerm
  positivity

theorem fullScore_nonneg (l : List ℤ) (w : ℕ) : 0 ≤ fullScore l w := by
  unfold fullScore
  apply Finset.sum_nonneg
  intro i _
  split
  · exact le_rfl
  · exact scoreTerm_nonneg _ _ _

/-- The incremental score delta of `State.move` agrees with the full
recomputation: swapping the blank at `b` with the tile at `i` changes
the Manhattan sum by exactly the two delta terms of the moved tile. -/
theorem fullScore_swap (l : List ℤ) (w : ℕ) (b i : ℕ) (hb : b < l.length) (hi : i < l.length)
    (hne : b ≠ i) (hblank : l.getD b 0 = 0) (hitem : l.getD i 0 ≠ 0) :
    fullScore ((l.set b (l.getD i 0)).set i 0) w
      = fullScore l w - scoreTerm (l.getD i 0) i w + scoreTerm (l.getD i 0) b w := by
  set item := l.getD i 0 with hitemdef
  have hlen : ((l.set b item).set i 0).length = l.length := by simp
  have hbl : b < ((l.set b item).set i 0).length := by simp [hb]
  have hil : i < ((l.set b item).set i 0).length := by simp [hi]
  have hbr : b ∈ Finset.range l.length := Finset.mem_range.mpr hb
  have hir : i ∈ (Finset.range l.length).erase b :=
    Finset.mem_erase.mpr ⟨fun h => hne h.symm, Finset.mem_range.mpr hi⟩
  have hgb : ((l.set b item).set i 0).getD b 0 = item := by
    rw [List.getD_eq_getElem _ 0 hbl, List.getElem_set_ne (Ne.symm hne), List.getElem_set_self]
  have hgi : ((l.set b item).set i 0).getD i 0 = 0 := by
    rw [List.getD_eq_getElem _ 0 hil, List.getElem_set_self]
  have hgk : ∀ k, k ≠ b → k ≠ i → k < l.length →
      ((l.set b item).set i 0).getD k 0 = l.getD k 0 := by
    intro k hkb hki hk
    rw [List.getD_eq_getElem _ 0 (by simp [hk]), List.getD_eq_getElem _ 0 hk,
      List.getElem_set_ne (Ne.symm hki), List.getElem_set_ne (Ne.symm hkb)]
  have key : ∀ f : ℕ → ℤ, ∑ k ∈ Finset.range l.length, f k
      = f b + (f i + ∑ k ∈ ((Finset.range l.length).erase b).erase i, f k) := by
    intro f
    rw [← Finset.add_sum_erase _ f hbr, ← Finset.add_sum_erase _ f hir]
  have tail : ∑ k ∈ ((Finset.range l.length).erase b).erase i,
        (if ((l.set b item).set i 0).getD k 0 = 0 then 0
          else scoreTerm (((l.set b item).set i 0).getD k 0) k w)
      = ∑ k ∈ ((Finset.range l.length).erase b).erase i,
        (if l.getD k 0 = 0 then 0 else scoreTerm (l.getD k 0) k w) := by
    apply Finset.sum_congr rfl
    intro k hk
    obtain ⟨hki, hk2⟩ := Finset.mem_erase.mp hk
    obtain ⟨hkb, hk3⟩ := Finset.mem_erase.mp hk2
    rw [hgk k hkb hki (Finset.mem_range.mp hk3)]
  unfold fullScore
  rw [hlen, key, key, hgb, hgi, hblank, tail, if_neg hitem, if_pos rfl, if_pos rfl,
    if_neg hitem]
  ring

/-! ### Well-formedness helpers -/

theorem hashValue_of_cacheOK {s : State} (h : CacheOK s) :
    hashValue s = pyTupleHash s.flat := by
  unfold hashValue
  rcases h with h | h
  · rw [if_pos h]
  · by_cases h0 : s.hashCache = 0
    · rw [if_pos h0]
    · rw [if_neg h0, h]

theorem scoreAndCache_of_cached {s : State} (w : ℕ) (h : s.scoreCache = fullScore s.flat w) :
    scoreAndCache s w = (fullScore s.flat w, s) := by
  have hnn := fullScore_nonneg s.flat w
  have hne : ¬ s.scoreCache = -1 := by omega
  unfold scoreAndCache
  rw [if_neg hne, h]

theorem length_intRange (n : ℕ) : (intRange n).length = n := by
  unfold intRange
  rw [List.length_map, List.length_range]

theorem nodup_intRange (n : ℕ) : (intRange n).Nodup := by
  unfold intRange
  exact List.Nodup.map (fun a b hab => by exact_mod_cast hab) (List.nodup_range n)

theorem mem_intRange {n : ℕ} {v : ℤ} : v ∈ intRange n ↔ 0 ≤ v ∧ v < n := by
  unfold intRange
  rw [List.mem_map]
  constructor
  · rintro ⟨a, ha, rfl⟩
    rw [List.mem_range] at ha
    exact ⟨by omega, by omega⟩
  · rintro ⟨h0, hn⟩
    exact ⟨v.toNat, List.mem_range.mpr (by omega), by omega⟩

theorem perm_intRange_facts {l : List ℤ} {n : ℕ} (h : l.Perm (intRange n)) :
    l.length = n ∧ l.Nodup ∧ ∀ v ∈ l, 0 ≤ v ∧ v < n :=
  ⟨by rw [h.length_eq, length_intRange],
   h.nodup_iff.mpr (nodup_intRange n),
   fun v hv => mem_intRange.mp (h.subset hv)⟩

theorem zero_mem_of_perm {l : List ℤ} {n : ℕ} (h : l.Perm (intRange n)) (hn : 0 < n) :
    (0 : ℤ) ∈ l :=
  h.mem_iff.mpr (mem_intRange.mpr ⟨le_rfl, by omega⟩)

theorem blank_getD {l : List ℤ} (hmem : (0 : ℤ) ∈ l) :
    l.getD (l.indexOf 0) 0 = 0 := by
  have hlt : l.indexOf 0 < l.length := List.indexOf_lt_length.mpr hmem
  rw [List.getD_eq_getElem _ 0 hlt]
  exact List.getElem_indexOf hlt

/-- Everything `State.move` guarantees on an in-bounds move from a
well-formed state: the cached score stays the exact Manhattan sum, the
flat sequence is permuted, and it is exactly the blank-tile swap. -/
theorem move_spec (s : State) (char : String) (w h : ℕ) (x y dx dy : ℤ)
    (hx : 0 ≤ x) (hxw : x < w) (hy : 0 ≤ y) (hyh : y < h)
    (hx2 : 0 ≤ x + dx) (hx2w : x + dx < w) (hy2 : 0 ≤ y + dy) (hy2h : y + dy < h)
    (hmove : ¬(dx = 0 ∧ dy = 0))
    (hlen : s.flat.length = w * h)
    (hnd : s.flat.Nodup)
    (hblank : s.flat.getD (index x y w).toNat 0 = 0)
    (hcache : s.scoreCache = fullScore s.flat w) :
    (s.move char x y dx dy w).flat =
      (s.flat.set (index x y w).toNat (s.flat.getD (index (x + dx) (y + dy) w).toNat 0)).set
        (index (x + dx) (y + dy) w).toNat 0 ∧
    (s.move char x y dx dy w).flat.Perm s.flat ∧
    (s.move char x y dx dy w).scoreCache = fullScore (s.move char x y dx dy w).flat w ∧
    (s.move char x y dx dy w).moveChar = char ∧
    (s.move char x y dx dy w).hashCache = 0 := by
  have hb0 : 0 ≤ index x y w := index_nonneg w x y hx hy
  have hi0 : 0 ≤ index (x + dx) (y + dy) w := index_nonneg w _ _ hx2 hy2
  have hblt : index x y w < (w * h : ℕ) := index_lt w h x y hx hxw hy hyh
  have hilt : index (x + dx) (y + dy) w < (w * h : ℕ) := index_lt w h _ _ hx2 hx2w hy2 hy2h
  set bN := (index x y w).toNat with hbN
  set iN := (index (x + dx) (y + dy) w).toNat with hiN
  have hbNl : bN < s.flat.length := by omega
  have hiNl : iN < s.flat.length := by omega
  have hbne : bN ≠ iN := by
    intro hcon
    have hzz : index x y w = index (x + dx) (y + dy) w := by omega
    have := index_inj w x y (x + dx) (y + dy) hx hxw hx2 hx2w hzz
    exact hmove ⟨by omega, by omega⟩
  set item := s.flat.getD iN 0 with hitemdef
  have hitem : item ≠ 0 := by
    intro hcon
    have e1 : s.flat[bN] = (0 : ℤ) := by
      rw [← List.getD_eq_getElem s.flat 0 hbNl]; exact hblank
    have e2 : s.flat[iN] = (0 : ℤ) := by
      rw [← List.getD_eq_getElem s.flat 0 hiNl]; rw [← hitemdef]; exact hcon
    have i1 := List.indexOf_getElem hnd bN hbNl
    have i2 := List.indexOf_getElem hnd iN hiNl
    rw [e1] at i1
    rw [e2] at i2
    exact hbne (i1.symm.trans i2)
  have hgetI : pyGetI s.flat (index (x + dx) (y + dy) w) = item := by
    unfold pyGetI
    rw [if_neg (by omega)]
  have hsetB : ∀ v : ℤ, pySetI s.flat (index x y w) v = s.flat.set bN v := by
    intro v
    unfold pySetI
    rw [if_neg (by omega)]
  have hsetI : ∀ (l2 : List ℤ) (v : ℤ), pySetI l2 (index (x + dx) (y + dy) w) v = l2.set iN v := by
    intro l2 v
    unfold pySetI
    rw [if_neg (by omega)]
  have hflat : (s.move char x y dx dy w).flat = (s.flat.set bN item).set iN 0 := by
    simp only [State.move, hgetI, hsetB, hsetI]
  have hperm : ((s.flat.set bN item).set iN 0).Perm s.flat := by
    have hp := swap_perm s.flat bN iN hbNl hiNl hbne
    rwa [hblank] at hp
  have hfull : fullScore ((s.flat.set bN item).set iN 0) w
      = fullScore s.flat w - scoreTerm item iN w + scoreTerm item bN w :=
    fullScore_swap s.flat w bN iN hbNl hiNl hbne hblank hitem
  have hcast_b : ((bN : ℕ) : ℤ) = index x y w := by omega
  have hcast_i : ((iN : ℕ) : ℤ) = index (x + dx) (y + dy) w := by omega
  have hsc : (s.move char x y dx dy w).scoreCache
      = s.scoreCache - scoreTerm item iN w + scoreTerm item bN w := by
    simp only [State.move, hgetI]
    unfold scoreTerm
    rw [hcast_b, hcast_i]
    ring
  refine ⟨hflat, by rw [hflat]; exact hperm, ?_, by simp only [State.move], by simp only [State.move]⟩
  rw [hflat, hsc, hcache, hfull]

/-! ### The goal configuration -/

theorem length_goalFlat (n : ℕ) (hn : 0 < n) : (goalFlat n).length = n := by
  unfold goalFlat
  rw [List.length_append, List.length_map, List.length_range']
  simp only [List.length_singleton]
  omega

theorem getD_goalFlat_lt {n i : ℕ} (hi : i < n - 1) : (goalFlat n).getD i 0 = (i : ℤ) + 1 := by
  unfold goalFlat
  have hlen : ((List.range' 1 (n - 1)).map (fun k : ℕ => (k : ℤ))).length = n - 1 := by
    rw [List.length_map, List.length_range']
  rw [List.getD_eq_getElem _ 0 (by rw [List.length_append, hlen]; simp only [List.length_singleton]; omega),
    List.getElem_append_left (by omega), List.getElem_map, List.getElem_range']
  push_cast
  ring

theorem getD_goalFlat_last {n : ℕ} (hn : 0 < n) : (goalFlat n).getD (n - 1) 0 = 0 := by
  unfold goalFlat
  have hlen : ((List.range' 1 (n - 1)).map (fun k : ℕ => (k : ℤ))).length = n - 1 := by
    rw [List.length_map, List.length_range']
  rw [List.getD_eq_getElem _ 0 (by rw [List.length_append, hlen]; simp only [List.length_singleton]; omega),
    List.getElem_append_right (by omega)]
  simp [hlen]

/-- A configuration has Manhattan score zero exactly when it is the
goal configuration. -/
theorem fullScore_eq_zero_iff {l : List ℤ} {w n : ℕ} (hw : 0 < w) (hn : 0 < n)
    (hperm : l.Perm (intRange n)) : fullScore l w = 0 ↔ l = goalFlat n := by
  obtain ⟨hlen, hnd, hvals⟩ := perm_intRange_facts hperm
  constructor
  · intro h0
    have hterm : ∀ i ∈ Finset.range l.length,
        (if l.getD i 0 = 0 then 0 else scoreTerm (l.getD i 0) i w) = 0 := by
      rw [← Finset.sum_eq_zero_iff_of_nonneg]
      · exact h0
      · intro i _
        split
        · exact le_rfl
        · exact scoreTerm_nonneg _ _ _
    have hval : ∀ i, (hi : i < l.length) → l.get ⟨i, hi⟩ ≠ 0 → l.get ⟨i, hi⟩ = (i : ℤ) + 1 := by
      intro i hi hne
      have hgd : l.getD i 0 = l.get ⟨i, hi⟩ := by
        rw [List.getD_eq_getElem _ 0 hi]
        rfl
      have ht := hterm i (Finset.mem_range.mpr hi)
      rw [hgd, if_neg hne] at ht
      unfold scoreTerm at ht
      set v := l.get ⟨i, hi⟩ with hv
      have hA := abs_nonneg (pyMod (v - 1) ↑w - pyMod (↑i) ↑w)
      have hB := abs_nonneg (pyDiv (v - 1) ↑w - pyDiv (↑i) ↑w)
      have hA0 : |pyMod (v - 1) ↑w - pyMod (↑i) ↑w| = 0 := by omega
      have hB0 : |pyDiv (v - 1) ↑w - pyDiv (↑i) ↑w| = 0 := by omega
      rw [abs_eq_zero, sub_eq_zero] at hA0 hB0
      have hd1 : (w : ℤ) * pyDiv (v - 1) ↑w + pyMod (v - 1) ↑w = v - 1 :=
        Int.ediv_add_emod (v - 1) w
      have hd2 : (w : ℤ) * pyDiv (↑i) ↑w + pyMod (↑i) ↑w = (i : ℤ) :=
        Int.ediv_add_emod (↑i) w
      rw [hA0, hB0] at hd1
      omega
    have hblt : l.indexOf 0 < l.length :=
      List.indexOf_lt_length.mpr (zero_mem_of_perm hperm hn)
    have hbval : l.get ⟨l.indexOf 0, hblt⟩ = 0 := List.getElem_indexOf hblt
    have hblast : l.indexOf 0 = n - 1 := by
      by_contra hcon
      have hlast : n - 1 < l.length := by omega
      have hlne : l.get ⟨n - 1, hlast⟩ ≠ 0 := by
        intro h
        have := List.indexOf_getElem hnd (n - 1) hlast
        rw [show l[n-1] = l.get ⟨n - 1, hlast⟩ from rfl, h] at this
        omega
      have hvv : l[n - 1] = ((n - 1 : ℕ) : ℤ) + 1 := hval (n - 1) hlast hlne
      have hmem := List.getElem_mem hlast
      have := (hvals _ hmem).2
      omega
    apply List.ext_getElem (by rw [hlen, length_goalFlat n hn])
    intro i h1 h2
    have hin : i < n := by omega
    by_cases hi : i = n - 1
    · subst hi
      have hg := getD_goalFlat_last hn
      rw [List.getD_eq_getElem _ 0 h2] at hg
      rw [hg]
      have h := hbval
      simp only [hblast] at h
      exact h
    · have hlt : i < n - 1 := by omega
      have hne : l.get ⟨i, h1⟩ ≠ 0 := by
        intro h
        have := List.indexOf_getElem hnd i h1
        rw [show l[i] = l.get ⟨i, h1⟩ from rfl, h] at this
        omega
      have hv := hval i h1 hne
      have hg := getD_goalFlat_lt (n := n) hlt
      rw [List.getD_eq_getElem _ 0 h2] at hg
      rw [hg]
      exact hv
  · intro h
    subst h
    unfold fullScore
    apply Finset.sum_eq_zero
    intro i hi
    rw [Finset.mem_range] at hi
    have hglen : (goalFlat n).length = n := length_goalFlat n hn
    by_cases hil : i = n - 1
    · subst hil
      rw [getD_goalFlat_last hn]
      simp
    · have hlt : i < n - 1 := by omega
      rw [getD_goalFlat_lt hlt, if_neg (by omega)]
      unfold scoreTerm
      have : ((i : ℤ) + 1 - 1) = (i : ℤ) := by ring
      rw [this]
      simp

theorem getD_range'_map (m i : ℕ) (hi : i < m) :
    ((List.range' 1 m).map (fun k : ℕ => (k : ℤ))).getD i 0 = (i : ℤ) + 1 := by
  rw [List.getD_eq_getElem _ 0 (by rw [List.length_map, List.length_range']; omega),
    List.getElem_map, List.getElem_range']
  push_cast
  ring

theorem goalFlat_erase (n : ℕ) :
    (goalFlat n).erase 0 = (List.range' 1 (n - 1)).map (fun k : ℕ => (k : ℤ)) := by
  unfold goalFlat
  have h0 : (0 : ℤ) ∉ (List.range' 1 (n - 1)).map (fun k : ℕ => (k : ℤ)) := by
    intro hmem
    obtain ⟨k, hk, hcast⟩ := List.mem_map.mp hmem
    have := List.mem_range'.mp hk
    omega
  rw [List.erase_append_right _ h0, List.erase_cons_head, List.append_nil]

theorem inversions_sorted_zero (m : ℕ) :
    inversions ((List.range' 1 m).map (fun k : ℕ => (k : ℤ))) = 0 := by
  unfold inversions
  apply Finset.sum_eq_zero
  intro i hi
  apply Finset.sum_eq_zero
  intro j hj
  rw [Finset.mem_range] at hi
  obtain ⟨hij, hjl⟩ := Finset.mem_Ico.mp hj
  have hlen : ((List.range' 1 m).map (fun k : ℕ => (k : ℤ))).length = m := by
    rw [List.length_map, List.length_range']
  rw [getD_range'_map m i (by omega), getD_range'_map m j (by omega), if_neg (by omega)]

theorem blankRow_eq (w : ℕ) (pd : List (List ℤ)) (hrows : ∀ row ∈ pd, row.length = w)
    (hmem : (0 : ℤ) ∈ pd.flatten) :
    blankRow pd = ((pd.flatten.indexOf 0 / w : ℕ) : ℤ) := by
  induction pd with
  | nil => simp at hmem
  | cons row rest ih =>
    rw [List.flatten_cons] at hmem ⊢
    by_cases h0 : (0 : ℤ) ∈ row
    · have hdec : decide (0 < row.count (0 : ℤ)) = true := by
        simp [List.count_pos_iff, h0]
      unfold blankRow
      rw [List.findIdx?_cons, hdec, if_pos rfl]
      rw [List.indexOf_append_of_mem h0]
      have hlt : row.indexOf 0 < w := by
        rw [← hrows row (List.mem_cons_self _ _)]
        exact List.indexOf_lt_length.mpr h0
      rw [Nat.div_eq_of_lt hlt]
    · have hrest : (0 : ℤ) ∈ rest.flatten := by
        rcases List.mem_append.mp hmem with h | h
        · exact absurd h h0
        · exact h
      have hrw : row.length = w := hrows row (List.mem_cons_self _ _)
      have ihr := ih (fun r hr => hrows r (List.mem_cons_of_mem _ hr)) hrest
      have hdec : decide (0 < row.count (0 : ℤ)) = false := by
        rw [List.count_eq_zero.mpr h0]
        rfl
      have hwpos : 0 < w := by
        rcases List.mem_flatten.mp hrest with ⟨rr, hrr, hmemr⟩
        have := hrows rr (List.mem_cons_of_mem _ hrr)
        have hpos := List.length_pos_of_mem hmemr
        omega
      unfold blankRow at ihr ⊢
      rw [List.findIdx?_cons, hdec, if_neg (by decide), List.findIdx?_succ,
        List.indexOf_append_of_not_mem h0, hrw]
      cases hfind : List.findIdx? (fun row => decide (0 < row.count 0)) rest with
      | none =>
        rw [hfind] at ihr
        have hbad : (-1 : ℤ) = ((rest.flatten.indexOf 0 / w : ℕ) : ℤ) := ihr
        exact absurd hbad (by
          have h9 := Int.natCast_nonneg (rest.flatten.indexOf 0 / w)
          omega)
      | some r =>
        rw [hfind] at ihr
        have ihr2 : ((r : ℕ) : ℤ) = ((rest.flatten.indexOf 0 / w : ℕ) : ℤ) := ihr
        have hgoal2 : ((r + 1 : ℕ) : ℤ)
            = (((w + rest.flatten.indexOf 0) / w : ℕ) : ℤ) := by
          rw [Nat.add_div_left _ hwpos]
          push_cast at ihr2 ⊢
          omega
        exact hgoal2

theorem indexOf_goalFlat (n : ℕ) (hn : 0 < n) : (goalFlat n).indexOf 0 = n - 1 := by
  unfold goalFlat
  have h0 : (0 : ℤ) ∉ (List.range' 1 (n - 1)).map (fun k : ℕ => (k : ℤ)) := by
    intro hmem
    obtain ⟨k, hk, hcast⟩ := List.mem_map.mp hmem
    have := List.mem_range'.mp hk
    omega
  rw [List.indexOf_append_of_not_mem h0, List.length_map, List.length_range']
  simp

/-- The goal configuration passes the solvability gate. -/
theorem goal_is_solvable (pd : List (List ℤ)) (hval : ValidPuzzle pd)
    (hgoal : pd.flatten = goalFlat (pd.length * widthOf pd)) : is_solvable pd = true := by
  obtain ⟨hne, hw, hrows, hperm⟩ := hval
  have hh : 0 < pd.length := List.length_pos_of_ne_nil hne
  have hn : 0 < pd.length * widthOf pd := Nat.mul_pos hh hw
  have hmem0 : (0 : ℤ) ∈ pd.flatten := by
    rw [hgoal]
    have hb : pd.length * widthOf pd - 1 < (goalFlat (pd.length * widthOf pd)).length := by
      rw [length_goalFlat _ hn]
      omega
    have hlast := getD_goalFlat_last hn
    rw [List.getD_eq_getElem _ 0 hb] at hlast
    rw [← hlast]
    exact List.getElem_mem hb
  have hbrval : blankRow pd = ((pd.length - 1 : ℕ) : ℤ) := by
    rw [blankRow_eq (widthOf pd) pd hrows hmem0, hgoal, indexOf_goalFlat _ hn]
    obtain ⟨h2, hph⟩ : ∃ h2, pd.length = h2 + 1 := ⟨pd.length - 1, by omega⟩
    rw [hph]
    have hsplit : (h2 + 1) * widthOf pd - 1 = (widthOf pd - 1) + h2 * widthOf pd := by
      have hgem : (h2 + 1) * widthOf pd = h2 * widthOf pd + widthOf pd := by ring
      omega
    rw [hsplit, Nat.add_mul_div_right _ _ hw, Nat.div_eq_of_lt (by omega)]
    omega
  simp only [is_solvable, hgoal, goalFlat_erase, inversions_sorted_zero]
  by_cases hpar : widthOf pd % 2 = 1
  · rw [if_pos hpar]
    rfl
  · rw [if_neg hpar, hbrval]
    simp only [beq_iff_eq]
    push_cast
    omega

theorem scoreAndCache_make_state (pd : List (List ℤ)) (w : ℕ) :
    scoreAndCache (make_state pd) w
      = (fullScore pd.flatten w,
          { flat := pd.flatten, moveChar := "", hashCache := 0,
            scoreCache := fullScore pd.flatten w }) := by
  unfold scoreAndCache make_state
  rw [if_pos rfl]

/-- C9: a valid configuration whose initial heuristic score is zero is
solved by `solve` with the empty move sequence, using no search fuel. -/
theorem c9_solved_returns_empty (pd : List (List ℤ)) (hval : ValidPuzzle pd)
    (h0 : fullScore pd.flatten (widthOf pd) = 0) :
    solve pd 0 = some (some []) := by
  have hgoal : pd.flatten = goalFlat (pd.length * widthOf pd) := by
    obtain ⟨hne, hw, hrows, hperm⟩ := hval
    have hh : 0 < pd.length := List.length_pos_of_ne_nil hne
    exact (fullScore_eq_zero_iff hw (Nat.mul_pos hh hw) hperm).mp h0
  have hsolv := goal_is_solvable pd hval hgoal
  simp only [solve, hsolv, scoreAndCache_make_state, h0]
  simp

/-- Witness for C9 at the solved 4-by-4 configuration. -/
theorem c9_solved_returns_empty_witness :
    (ValidPuzzle [[1, 2, 3, 4], [5, 6, 7, 8], [9, 10, 11, 12], [13, 14, 15, 0]] ∧
      fullScore [[1, 2, 3, 4], [5, 6, 7, 8], [9, 10, 11, 12], [13, 14, 15, 0]].flatten
        (widthOf [[1, 2, 3, 4], [5, 6, 7, 8], [9, 10, 11, 12], [13, 14, 15, 0]]) = 0) ∧
    solve [[1, 2, 3, 4], [5, 6, 7, 8], [9, 10, 11, 12], [13, 14, 15, 0]] 0 = some (some []) :=
  ⟨⟨by decide, by decide⟩,
    c9_solved_returns_empty [[1, 2, 3, 4], [5, 6, 7, 8], [9, 10, 11, 12], [13, 14, 15, 0]]
      (by decide) (by decide)⟩

/-! ### The open list: ordering and popping -/

theorem keyLt_iff (a b : Entry) : keyLt a b = true ↔
    (a.f < b.f ∨ (a.f = b.f ∧ (a.g < b.g ∨ (a.g = b.g ∧ a.ctr < b.ctr)))) := by
  unfold keyLt
  simp only [Bool.or_eq_true, Bool.and_eq_true, decide_eq_true_eq, beq_iff_eq]

theorem keyLt_false_iff (a b : Entry) : keyLt a b = false ↔
    ¬(a.f < b.f ∨ (a.f = b.f ∧ (a.g < b.g ∨ (a.g = b.g ∧ a.ctr < b.ctr)))) := by
  rw [← keyLt_iff]
  cases h : keyLt a b <;> simp

theorem keyLt_irrefl (a : Entry) : keyLt a a = false := by
  rw [keyLt_false_iff]
  omega

theorem keyLt_false_trans {x m a : Entry} (h1 : keyLt m a = false) (h2 : keyLt x m = false) :
    keyLt x a = false := by
  rw [keyLt_false_iff] at h1 h2 ⊢
  omega

theorem keyLt_asymm {m a : Entry} (h : keyLt m a = true) : keyLt a m = false := by
  rw [keyLt_iff] at h
  rw [keyLt_false_iff]
  omega

theorem popMin_eq_none_iff (l : List Entry) : popMin l = none ↔ l = [] := by
  cases l with
  | nil => simp [popMin]
  | cons e rest =>
    simp only [popMin]
    cases hp : popMin rest with
    | none => simp
    | some pr =>
      obtain ⟨m, r⟩ := pr
      dsimp only
      by_cases hlt : keyLt m e = true
      · rw [if_pos hlt]
        simp
      · rw [if_neg hlt]
        simp

/-- What `heappop` guarantees: the returned element is a member, the
rest is the list minus that element, and no element is strictly below
the returned one. -/
theorem popMin_spec : ∀ (l : List Entry) (e : Entry) (rest : List Entry),
    popMin l = some (e, rest) →
    e ∈ l ∧ l.Perm (e :: rest) ∧ ∀ x ∈ l, keyLt x e = false := by
  intro l
  induction l with
  | nil => intro e rest h; simp [popMin] at h
  | cons a t ih =>
    intro e rest h
    simp only [popMin] at h
    cases hp : popMin t with
    | none =>
      rw [hp] at h
      dsimp only at h
      have ht : t = [] := (popMin_eq_none_iff t).mp hp
      subst ht
      injection h with h2
      injection h2 with h3 h4
      subst h3
      subst h4
      refine ⟨by simp, by simp, ?_⟩
      intro x hx
      simp only [List.mem_singleton] at hx
      subst hx
      exact keyLt_irrefl x
    | some pr =>
      obtain ⟨m, r⟩ := pr
      rw [hp] at h
      dsimp only at h
      obtain ⟨hm, hperm, hmin⟩ := ih m r hp
      by_cases hlt : keyLt m a = true
      · rw [if_pos hlt] at h
        injection h with h2
        injection h2 with h3 h4
        subst h3
        subst h4
        refine ⟨List.mem_cons_of_mem _ hm, ?_, ?_⟩
        · exact (hperm.cons a).trans (List.Perm.swap m a r)
        · intro x hx
          rcases List.mem_cons.mp hx with hxa | hxt
          · subst hxa
            exact keyLt_asymm hlt
          · exact hmin x hxt
      · rw [if_neg hlt] at h
        injection h with h2
        injection h2 with h3 h4
        subst h3
        subst h4
        refine ⟨by simp, by simp, ?_⟩
        intro x hx
        rcases List.mem_cons.mp hx with hxa | hxt
        · subst hxa
          exact keyLt_irrefl x
        · have hxm := hmin x hxt
          have hma : keyLt m a = false := by
            cases hk : keyLt m a
            · rfl
            · exact absurd hk hlt
          exact keyLt_false_trans hma hxm

/-! ### One iteration of the search loop -/

/-- Case analysis of one loop iteration: empty frontier, stale-skip,
goal found, or expansion. -/
theorem stepFn_char (w h : ℕ) (c : SearchCfg) :
    (c.opn = [] ∧ stepFn w h c = .done (some none)) ∨
    (∃ e rest, popMin c.opn = some (e, rest) ∧ pyContains c.closed (some e.st) = true ∧
      stepFn w h c = .cont ⟨rest, c.closed, c.ctr⟩) ∨
    (∃ e rest, popMin c.opn = some (e, rest) ∧ pyContains c.closed (some e.st) = false ∧
      (scoreAndCache e.st w).1 = 0 ∧ stepFn w h c = .done (goalResult w c.closed e)) ∨
    (∃ e rest, popMin c.opn = some (e, rest) ∧ pyContains c.closed (some e.st) = false ∧
      (scoreAndCache e.st w).1 ≠ 0 ∧
      stepFn w h c = .cont (expandCfg w h c.closed c.ctr e rest)) := by
  cases hpop : popMin c.opn with
  | none =>
    left
    exact ⟨(popMin_eq_none_iff c.opn).mp hpop, by unfold stepFn; rw [hpop]⟩
  | some pr =>
    obtain ⟨e, rest⟩ := pr
    by_cases hcont : pyContains c.closed (some e.st) = true
    · right; left
      refine ⟨e, rest, rfl, hcont, ?_⟩
      unfold stepFn
      rw [hpop]
      dsimp only
      rw [if_pos hcont]
    · have hcf : pyContains c.closed (some e.st) = false := by
        cases hk : pyContains c.closed (some e.st)
        · rfl
        · exact absurd hk hcont
      by_cases hsc : (scoreAndCache e.st w).1 = 0
      · right; right; left
        refine ⟨e, rest, rfl, hcf, hsc, ?_⟩
        unfold stepFn
        rw [hpop]
        dsimp only
        rw [if_neg hcont, if_pos hsc]
        rfl
      · right; right; right
        refine ⟨e, rest, rfl, hcf, hsc, ?_⟩
        unfold stepFn
        rw [hpop]
        dsimp only
        rw [if_neg hcont, if_neg hsc]
        rfl

theorem stepN_cont {w h : ℕ} {c c2 : SearchCfg} (k : ℕ) (hst : stepFn w h c = .cont c2) :
    stepN w h (k + 1) c = stepN w h k c2 := by
  show (match stepFn w h c with | .cont c' => stepN w h k c' | .done _ => none) = stepN w h k c2
  rw [hst]

theorem stepN_done {w h : ℕ} {c : SearchCfg} {r : Option (Option (List String))} (k : ℕ)
    (hst : stepFn w h c = .done r) : stepN w h (k + 1) c = none := by
  show (match stepFn w h c with | .cont c' => stepN w h k c' | .done _ => none) = none
  rw [hst]

theorem loopFuel_succ_cont {w h : ℕ} {c c2 : SearchCfg} (f : ℕ)
    (hst : stepFn w h c = .cont c2) : loopFuel w h (f + 1) c = loopFuel w h f c2 := by
  show (match stepFn w h c with | .done r => r | .cont c' => loopFuel w h f c') = loopFuel w h f c2
  rw [hst]

theorem loopFuel_succ_done {w h : ℕ} {c : SearchCfg} {r : Option (Option (List String))} (f : ℕ)
    (hst : stepFn w h c = .done r) : loopFuel w h (f + 1) c = r := by
  show (match stepFn w h c with | .done r => r | .cont c' => loopFuel w h f c') = r
  rw [hst]

theorem stepFn_cont_opn_ne {w h : ℕ} {c c2 : SearchCfg} (hst : stepFn w h c = .cont c2) :
    c.opn ≠ [] := by
  intro hemp
  have hpop : popMin c.opn = none := (popMin_eq_none_iff c.opn).mpr hemp
  have := stepFn_char w h c
  rcases this with ⟨_, hst2⟩ | ⟨e, rest, hpop2, _, _⟩ | ⟨e, rest, hpop2, _, _, _⟩ |
    ⟨e, rest, hpop2, _, _, _⟩
  · rw [hst] at hst2
    cases hst2
  all_goals rw [hpop] at hpop2; cases hpop2

theorem goalResult_ne_some_none (w : ℕ) (closed : List (State × Option State)) (e : Entry) :
    goalResult w closed e ≠ some none := by
  unfold goalResult
  cases make_path (scoreAndCache e.st w).2 e.prev closed (closed.length + 2) <;> simp

theorem stepFn_done_none_iff {w h : ℕ} {c : SearchCfg} {r : Option (Option (List String))}
    (hst : stepFn w h c = .done r) : r = some none ↔ c.opn = [] := by
  rcases stepFn_char w h c with ⟨hemp, hst2⟩ | ⟨e, rest, hpop2, _, hst2⟩ |
    ⟨e, rest, hpop2, _, _, hst2⟩ | ⟨e, rest, hpop2, _, _, hst2⟩
  · rw [hst] at hst2
    injection hst2 with hr
    subst hr
    simp [hemp]
  · rw [hst] at hst2
    cases hst2
  · rw [hst] at hst2
    injection hst2 with hr
    subst hr
    have hne : c.opn ≠ [] := by
      intro hemp
      rw [(popMin_eq_none_iff c.opn).mpr hemp] at hpop2
      cases hpop2
    simp [goalResult_ne_some_none, hne]
  · rw [hst] at hst2
    cases hst2

/-- The loop returns Python `None` within its fuel exactly when it
reaches an empty frontier within that fuel. -/
theorem loopFuel_none_iff (w h : ℕ) : ∀ (fuel : ℕ) (c : SearchCfg),
    loopFuel w h fuel c = some none ↔
      ∃ k, k < fuel ∧ ∃ c2, stepN w h k c = some c2 ∧ c2.opn = [] := by
  intro fuel
  induction fuel with
  | zero =>
    intro c
    simp [loopFuel]
  | succ f ih =>
    intro c
    cases hst : stepFn w h c with
    | done r =>
      rw [loopFuel_succ_done f hst]
      rw [stepFn_done_none_iff hst]
      constructor
      · intro hemp
        exact ⟨0, Nat.succ_pos f, c, rfl, hemp⟩
      · rintro ⟨k, hk, c2, hsn, hop⟩
        cases k with
        | zero =>
          injection hsn with hc
          subst hc
          exact hop
        | succ k2 =>
          rw [stepN_done k2 hst] at hsn
          cases hsn
    | cont c2 =>
      rw [loopFuel_succ_cont f hst, ih c2]
      constructor
      · rintro ⟨k, hk, c3, hsn, hop⟩
        exact ⟨k + 1, by omega, c3, by rw [stepN_cont k hst]; exact hsn, hop⟩
      · rintro ⟨k, hk, c3, hsn, hop⟩
        cases k with
        | zero =>
          injection hsn with hc
          subst hc
          exact absurd hop (stepFn_cont_opn_ne hst)
        | succ k2 =>
          rw [stepN_cont k2 hst] at hsn
          exact ⟨k2, by omega, c3, hsn, hop⟩

/-- C6: `solve` reports Python `None` exactly when the parity gate
rejects the configuration or the frontier empties without reaching a
goal; the gate case uses no search fuel at all, and `None` is a value
distinct from the empty move sequence. -/
theorem c6_none_iff (pd : List (List ℤ)) (fuel : ℕ) :
    (solve pd fuel = some none ↔ (is_solvable pd = false ∨ ExhaustsWithin pd fuel)) ∧
    (is_solvable pd = false → solve pd 0 = some none) ∧
    (some (none : Option (List String)) ≠ some (some [])) := by
  refine ⟨?_, ?_, by simp⟩
  · by_cases hg : is_solvable pd = false
    · unfold solve
      rw [if_pos hg]
      simp [hg]
    · have hgt : is_solvable pd = true := by
        cases hk : is_solvable pd
        · exact absurd hk hg
        · rfl
      unfold solve
      rw [if_neg hg]
      by_cases hsc : (scoreAndCache (make_state pd) (widthOf pd)).1 = 0
      · rw [if_pos hsc]
        unfold ExhaustsWithin
        simp [hg, hsc]
      · rw [if_neg hsc]
        rw [loopFuel_none_iff]
        unfold ExhaustsWithin
        simp [hg, hgt, hsc]
  · intro hg
    unfold solve
    rw [if_pos hg]

/-- Witness for C6 at the classic unsolvable 4-by-4 configuration with
the last two tiles swapped, and fuel 0. -/
theorem c6_none_iff_witness :
    (solve [[1, 2, 3, 4], [5, 6, 7, 8], [9, 10, 11, 12], [13, 15, 14, 0]] 0 = some none ↔
      (is_solvable [[1, 2, 3, 4], [5, 6, 7, 8], [9, 10, 11, 12], [13, 15, 14, 0]] = false ∨
        ExhaustsWithin [[1, 2, 3, 4], [5, 6, 7, 8], [9, 10, 11, 12], [13, 15, 14, 0]] 0)) ∧
    (is_solvable [[1, 2, 3, 4], [5, 6, 7, 8], [9, 10, 11, 12], [13, 15, 14, 0]] = false →
      solve [[1, 2, 3, 4], [5, 6, 7, 8], [9, 10, 11, 12], [13, 15, 14, 0]] 0 = some none) ∧
    (some (none : Option (List String)) ≠ some (some [])) :=
  c6_none_iff [[1, 2, 3, 4], [5, 6, 7, 8], [9, 10, 11, 12], [13, 15, 14, 0]] 0

/-! ### Blank coordinates and expansion membership -/

theorem blank_coords {w h : ℕ} (hw : 0 < w) (hh : 0 < h) {l : List ℤ}
    (hperm : l.Perm (intRange (h * w))) :
    l.indexOf 0 < l.length ∧ l.getD (l.indexOf 0) 0 = 0 ∧
    from_index ((l.indexOf 0 : ℕ) : ℤ) w
      = (((l.indexOf 0 % w : ℕ) : ℤ), ((l.indexOf 0 / w : ℕ) : ℤ)) ∧
    l.indexOf 0 % w < w ∧ l.indexOf 0 / w < h ∧
    index ((l.indexOf 0 % w : ℕ) : ℤ) ((l.indexOf 0 / w : ℕ) : ℤ) w = ((l.indexOf 0 : ℕ) : ℤ) := by
  have hmem : (0 : ℤ) ∈ l := zero_mem_of_perm hperm (Nat.mul_pos hh hw)
  have hlt : l.indexOf 0 < l.length := List.indexOf_lt_length.mpr hmem
  have hlen : l.length = h * w := (perm_intRange_facts hperm).1
  refine ⟨hlt, blank_getD hmem, ?_, Nat.mod_lt _ hw, ?_, ?_⟩
  · unfold from_index pyMod pyDiv
    rw [Prod.mk.injEq]
    refine ⟨by exact_mod_cast rfl, ?_⟩
    show ((l.indexOf 0 : ℕ) : ℤ) / ((w : ℕ) : ℤ) = ((l.indexOf 0 / w : ℕ) : ℤ)
    exact (Int.ofNat_ediv _ _).symm
  · rw [Nat.div_lt_iff_lt_mul hw]
    omega
  · unfold index
    have hdm := Nat.div_add_mod (l.indexOf 0) w
    push_cast
    nlinarith [hdm]

theorem tryMove_mem {closed : List (State × Option State)} {active : State} {char : String}
    {x y dx dy : ℤ} {w : ℕ} {dist : ℤ} {acc : List Entry × ℤ} {en : Entry}
    (h : en ∈ (tryMove closed active char x y dx dy w dist acc).1) :
    en ∈ acc.1 ∨ (pyContains closed (some (State.move (clone active) char x y dx dy w)) = false ∧
      ∃ i2, en = info_for (State.move (clone active) char x y dx dy w) (some active) w dist i2) := by
  unfold tryMove at h
  by_cases hc : pyContains closed (some (State.move (clone active) char x y dx dy w)) = true
  · rw [if_pos hc] at h
    exact Or.inl h
  · have hcf : pyContains closed (some (State.move (clone active) char x y dx dy w)) = false := by
      cases hk : pyContains closed (some (State.move (clone active) char x y dx dy w))
      · rfl
      · exact absurd hk hc
    rw [if_neg hc] at h
    rcases List.mem_append.mp h with h1 | h2
    · exact Or.inl h1
    · rw [List.mem_singleton] at h2
      exact Or.inr ⟨hcf, _, h2⟩

theorem guardMove_mem {g : Prop} [Decidable g] {closed : List (State × Option State)}
    {active : State} {char : String} {x y dx dy : ℤ} {w : ℕ} {dist : ℤ}
    {acc : List Entry × ℤ} {en : Entry}
    (h : en ∈ ((if g then tryMove closed active char x y dx dy w dist acc else acc)).1) :
    en ∈ acc.1 ∨ (g ∧ pyContains closed
        (some (State.move (clone active) char x y dx dy w)) = false ∧
      ∃ i2, en = info_for (State.move (clone active) char x y dx dy w) (some active) w dist i2) := by
  by_cases hg : g
  · rw [if_pos hg] at h
    rcases tryMove_mem h with h1 | ⟨h2, h3⟩
    · exact Or.inl h1
    · exact Or.inr ⟨hg, h2, h3⟩
  · rw [if_neg hg] at h
    exact Or.inl h

/-- Every entry of the frontier after an expansion is an untouched
entry of the popped remainder, or one of the four guarded children. -/
theorem expand_members {w h : ℕ} {closed : List (State × Option State)} {ctr : ℤ}
    {e : Entry} {rest : List Entry} {en : Entry}
    (hmem : en ∈ (expandCfg w h closed ctr e rest).opn) :
    en ∈ rest ∨
    ∃ (char : String) (dx dy : ℤ) (i2 : ℤ),
      ((char = "U" ∧ dx = 0 ∧ dy = 1 ∧
          (from_index (((scoreAndCache e.st w).2.flat.indexOf 0 : ℕ) : ℤ) w).2 < (h : ℤ) - 1) ∨
       (char = "D" ∧ dx = 0 ∧ dy = -1 ∧
          (from_index (((scoreAndCache e.st w).2.flat.indexOf 0 : ℕ) : ℤ) w).2 > 0) ∨
       (char = "L" ∧ dx = 1 ∧ dy = 0 ∧
          (from_index (((scoreAndCache e.st w).2.flat.indexOf 0 : ℕ) : ℤ) w).1 < (w : ℤ) - 1) ∨
       (char = "R" ∧ dx = -1 ∧ dy = 0 ∧
          (from_index (((scoreAndCache e.st w).2.flat.indexOf 0 : ℕ) : ℤ) w).1 > 0)) ∧
      pyContains closed (some (State.move (clone (scoreAndCache e.st w).2) char
        (from_index (((scoreAndCache e.st w).2.flat.indexOf 0 : ℕ) : ℤ) w).1
        (from_index (((scoreAndCache e.st w).2.flat.indexOf 0 : ℕ) : ℤ) w).2 dx dy w)) = false ∧
      en = info_for (State.move (clone (scoreAndCache e.st w).2) char
        (from_index (((scoreAndCache e.st w).2.flat.indexOf 0 : ℕ) : ℤ) w).1
        (from_index (((scoreAndCache e.st w).2.flat.indexOf 0 : ℕ) : ℤ) w).2 dx dy w)
        (some (scoreAndCache e.st w).2) w e.g i2 := by
  unfold expandCfg at hmem
  dsimp only at hmem
  rcases guardMove_mem hmem with h3 | ⟨hg, hcf, i2, hen⟩
  · rcases guardMove_mem h3 with h2 | ⟨hg, hcf, i2, hen⟩
    · rcases guardMove_mem h2 with h1 | ⟨hg, hcf, i2, hen⟩
      · rcases guardMove_mem h1 with h0 | ⟨hg, hcf, i2, hen⟩
        · exact Or.inl h0
        · exact Or.inr ⟨"U", 0, 1, i2, Or.inl ⟨rfl, rfl, rfl, hg⟩, hcf, hen⟩
      · exact Or.inr ⟨"D", 0, -1, i2, Or.inr (Or.inl ⟨rfl, rfl, rfl, hg⟩), hcf, hen⟩
    · exact Or.inr ⟨"L", 1, 0, i2, Or.inr (Or.inr (Or.inl ⟨rfl, rfl, rfl, hg⟩)), hcf, hen⟩
  · exact Or.inr ⟨"R", -1, 0, i2, Or.inr (Or.inr (Or.inr ⟨rfl, rfl, rfl, hg⟩)), hcf, hen⟩

theorem info_for_of_wf {w : ℕ} {init : List ℤ} {child : State} (hwf : WFState w init child)
    (prev : Option State) (dist i2 : ℤ) :
    info_for child prev w dist i2
      = ⟨dist + 1 + fullScore child.flat w, dist + 1, i2, child, prev⟩ := by
  unfold info_for
  rw [scoreAndCache_of_cached w hwf.2.1]

/-- A guarded child of a well-formed state is well formed. -/
theorem child_wf {w h : ℕ} (hw : 0 < w) (hh : 0 < h) {init : List ℤ}
    (hinit : init.Perm (intRange (h * w))) {A : State} (hA : WFState w init A)
    (char : String) (dx dy : ℤ)
    (harm :
      (dx = 0 ∧ dy = 1 ∧ (from_index ((A.flat.indexOf 0 : ℕ) : ℤ) w).2 < (h : ℤ) - 1) ∨
      (dx = 0 ∧ dy = -1 ∧ (from_index ((A.flat.indexOf 0 : ℕ) : ℤ) w).2 > 0) ∨
      (dx = 1 ∧ dy = 0 ∧ (from_index ((A.flat.indexOf 0 : ℕ) : ℤ) w).1 < (w : ℤ) - 1) ∨
      (dx = -1 ∧ dy = 0 ∧ (from_index ((A.flat.indexOf 0 : ℕ) : ℤ) w).1 > 0)) :
    WFState w init (State.move (clone A) char
      (from_index ((A.flat.indexOf 0 : ℕ) : ℤ) w).1
      (from_index ((A.flat.indexOf 0 : ℕ) : ℤ) w).2 dx dy w) := by
  have hAperm : A.flat.Perm (intRange (h * w)) := hA.1.trans hinit
  obtain ⟨hblt, hbget, hfi, hxw, hyh, hidx⟩ := blank_coords hw hh hAperm
  obtain ⟨hlenA, hndA, _⟩ := perm_intRange_facts hAperm
  set b := A.flat.indexOf 0 with hbdef
  have hx1 : (from_index ((b : ℕ) : ℤ) w).1 = ((b % w : ℕ) : ℤ) := by rw [hfi]
  have hy1 : (from_index ((b : ℕ) : ℤ) w).2 = ((b / w : ℕ) : ℤ) := by rw [hfi]
  rw [hx1, hy1]
  rw [hx1, hy1] at harm
  have hbnd : (0 : ℤ) ≤ ((b % w : ℕ) : ℤ) ∧ ((b % w : ℕ) : ℤ) < w ∧
      (0 : ℤ) ≤ ((b / w : ℕ) : ℤ) ∧ ((b / w : ℕ) : ℤ) < h := by
    refine ⟨by positivity, by exact_mod_cast hxw, by positivity, by exact_mod_cast hyh⟩
  have hclone : (clone A).flat = A.flat := rfl
  have hcwf : (clone A).scoreCache = fullScore (clone A).flat w := hA.2.1
  have hblank2 : (clone A).flat.getD (index ((b % w : ℕ) : ℤ) ((b / w : ℕ) : ℤ) w).toNat 0 = 0 := by
    rw [hclone, hidx]
    simpa using hbget
  have hmove : ¬(dx = 0 ∧ dy = 0) := by
    rcases harm with ⟨h1, h2, _⟩ | ⟨h1, h2, _⟩ | ⟨h1, h2, _⟩ | ⟨h1, h2, _⟩ <;> omega
  have hlen2 : (clone A).flat.length = w * h := by rw [hclone, hlenA]; ring
  have hbounds : (0 : ℤ) ≤ ((b % w : ℕ) : ℤ) + dx ∧ ((b % w : ℕ) : ℤ) + dx < w ∧
      (0 : ℤ) ≤ ((b / w : ℕ) : ℤ) + dy ∧ ((b / w : ℕ) : ℤ) + dy < h := by
    rcases harm with ⟨h1, h2, h3⟩ | ⟨h1, h2, h3⟩ | ⟨h1, h2, h3⟩ | ⟨h1, h2, h3⟩ <;>
      (subst h1; subst h2) <;> omega
  obtain ⟨hflat, hperm2, hsc2, hmc2, hhc2⟩ :=
    move_spec (clone A) char w h ((b % w : ℕ) : ℤ) ((b / w : ℕ) : ℤ) dx dy
      hbnd.1 hbnd.2.1 hbnd.2.2.1 hbnd.2.2.2 hbounds.1 hbounds.2.1 hbounds.2.2.1 hbounds.2.2.2
      hmove hlen2 (by rw [hclone]; exact hndA) hblank2 hcwf
  refine ⟨?_, hsc2, Or.inl hhc2⟩
  rw [hclone] at hperm2
  exact hperm2.trans hA.1

/-- The invariant of every reachable search state holds at the seed. -/
theorem basic_init (pd : List (List ℤ)) : BasicInv (widthOf pd) pd.flatten (initCfg pd) := by
  unfold BasicInv initCfg
  rw [scoreAndCache_make_state]
  refine ⟨?_, by simp, ?_⟩
  · intro e he
    rw [List.mem_singleton] at he
    subst he
    exact ⟨⟨List.Perm.refl _, rfl, Or.inl rfl⟩, by intro s hs; cases hs⟩
  · intro e he
    rw [List.mem_singleton] at he
    subst he
    exact Or.inr ⟨rfl, rfl, rfl, rfl⟩

/-- One continuing loop iteration preserves the basic invariant. -/
theorem basic_step {w h : ℕ} {init : List ℤ} (hw : 0 < w) (hh : 0 < h)
    (hinit : init.Perm (intRange (h * w))) {c c2 : SearchCfg}
    (hb : BasicInv w init c) (hst : stepFn w h c = .cont c2) : BasicInv w init c2 := by
  obtain ⟨hbo, hbc, hbf⟩ := hb
  rcases stepFn_char w h c with ⟨_, hst2⟩ | ⟨e, rest, hpop, hcont, hst2⟩ |
    ⟨e, rest, hpop, hcf, hsc, hst2⟩ | ⟨e, rest, hpop, hcf, hsc, hst2⟩
  · rw [hst] at hst2
    cases hst2
  · rw [hst] at hst2
    injection hst2 with hc2
    subst hc2
    obtain ⟨hmemE, hpermO, hmin⟩ := popMin_spec _ _ _ hpop
    have hsub : ∀ x ∈ rest, x ∈ c.opn := fun x hx =>
      hpermO.mem_iff.mpr (List.mem_cons_of_mem _ hx)
    exact ⟨fun en hen => hbo en (hsub en hen), hbc, fun en hen => hbf en (hsub en hen)⟩
  · rw [hst] at hst2
    cases hst2
  · rw [hst] at hst2
    injection hst2 with hc2
    subst hc2
    obtain ⟨hmemE, hpermO, hmin⟩ := popMin_spec _ _ _ hpop
    have hsub : ∀ x ∈ rest, x ∈ c.opn := fun x hx =>
      hpermO.mem_iff.mpr (List.mem_cons_of_mem _ hx)
    obtain ⟨hWFe, hWFprev⟩ := hbo e hmemE
    have hAeq : scoreAndCache e.st w = (fullScore e.st.flat w, e.st) :=
      scoreAndCache_of_cached w hWFe.2.1
    have hchild : ∀ (char : String) (dx dy : ℤ),
        ((dx = 0 ∧ dy = 1 ∧
            (from_index (((scoreAndCache e.st w).2.flat.indexOf 0 : ℕ) : ℤ) w).2 < (h : ℤ) - 1) ∨
         (dx = 0 ∧ dy = -1 ∧
            (from_index (((scoreAndCache e.st w).2.flat.indexOf 0 : ℕ) : ℤ) w).2 > 0) ∨
         (dx = 1 ∧ dy = 0 ∧
            (from_index (((scoreAndCache e.st w).2.flat.indexOf 0 : ℕ) : ℤ) w).1 < (w : ℤ) - 1) ∨
         (dx = -1 ∧ dy = 0 ∧
            (from_index (((scoreAndCache e.st w).2.flat.indexOf 0 : ℕ) : ℤ) w).1 > 0)) →
        WFState w init (State.move (clone (scoreAndCache e.st w).2) char
          (from_index (((scoreAndCache e.st w).2.flat.indexOf 0 : ℕ) : ℤ) w).1
          (from_index (((scoreAndCache e.st w).2.flat.indexOf 0 : ℕ) : ℤ) w).2 dx dy w) := by
      intro char dx dy harm
      rw [hAeq] at harm ⊢
      exact child_wf hw hh hinit hWFe char dx dy harm
    constructor
    · intro en hen
      rcases expand_members hen with h1 | ⟨char, dx, dy, i2, harm, hcf2, hen2⟩
      · exact hbo en (hsub en h1)
      · have harm2 :
            ((dx = 0 ∧ dy = 1 ∧
                (from_index (((scoreAndCache e.st w).2.flat.indexOf 0 : ℕ) : ℤ) w).2
                  < (h : ℤ) - 1) ∨
             (dx = 0 ∧ dy = -1 ∧
                (from_index (((scoreAndCache e.st w).2.flat.indexOf 0 : ℕ) : ℤ) w).2 > 0) ∨
             (dx = 1 ∧ dy = 0 ∧
                (from_index (((scoreAndCache e.st w).2.flat.indexOf 0 : ℕ) : ℤ) w).1
                  < (w : ℤ) - 1) ∨
             (dx = -1 ∧ dy = 0 ∧
                (from_index (((scoreAndCache e.st w).2.flat.indexOf 0 : ℕ) : ℤ) w).1 > 0)) := by
          rcases harm with ⟨_, hd1, hd2, hg⟩ | ⟨_, hd1, hd2, hg⟩ | ⟨_, hd1, hd2, hg⟩ |
            ⟨_, hd1, hd2, hg⟩
          · exact Or.inl ⟨hd1, hd2, hg⟩
          · exact Or.inr (Or.inl ⟨hd1, hd2, hg⟩)
          · exact Or.inr (Or.inr (Or.inl ⟨hd1, hd2, hg⟩))
          · exact Or.inr (Or.inr (Or.inr ⟨hd1, hd2, hg⟩))
        have hwfc := hchild char dx dy harm2
        rw [info_for_of_wf hwfc _ _ _] at hen2
        subst hen2
        constructor
        · exact hwfc
        · intro s hs
          injection hs with hs2
          subst hs2
          rw [hAeq]
          exact hWFe
    constructor
    · intro kv hkv
      rcases List.mem_append.mp hkv with h1 | h2
      · exact hbc kv h1
      · rw [List.mem_singleton] at h2
        subst h2
        rw [hAeq]
        exact ⟨hWFe, hWFprev⟩
    · intro en hen
      rcases expand_members hen with h1 | ⟨char, dx, dy, i2, harm, hcf2, hen2⟩
      · exact hbf en (hsub en h1)
      · have harm2 :
            ((dx = 0 ∧ dy = 1 ∧
                (from_index (((scoreAndCache e.st w).2.flat.indexOf 0 : ℕ) : ℤ) w).2
                  < (h : ℤ) - 1) ∨
             (dx = 0 ∧ dy = -1 ∧
                (from_index (((scoreAndCache e.st w).2.flat.indexOf 0 : ℕ) : ℤ) w).2 > 0) ∨
             (dx = 1 ∧ dy = 0 ∧
                (from_index (((scoreAndCache e.st w).2.flat.indexOf 0 : ℕ) : ℤ) w).1
                  < (w : ℤ) - 1) ∨
             (dx = -1 ∧ dy = 0 ∧
                (from_index (((scoreAndCache e.st w).2.flat.indexOf 0 : ℕ) : ℤ) w).1 > 0)) := by
          rcases harm with ⟨_, hd1, hd2, hg⟩ | ⟨_, hd1, hd2, hg⟩ | ⟨_, hd1, hd2, hg⟩ |
            ⟨_, hd1, hd2, hg⟩
          · exact Or.inl ⟨hd1, hd2, hg⟩
          · exact Or.inr (Or.inl ⟨hd1, hd2, hg⟩)
          · exact Or.inr (Or.inr (Or.inl ⟨hd1, hd2, hg⟩))
          · exact Or.inr (Or.inr (Or.inr ⟨hd1, hd2, hg⟩))
        have hwfc := hchild char dx dy harm2
        rw [info_for_of_wf hwfc _ _ _] at hen2
        subst hen2
        exact Or.inl rfl

/-- The invariant transports along any number of loop iterations. -/
theorem basic_stepN {w h : ℕ} {init : List ℤ} (hw : 0 < w) (hh : 0 < h)
    (hinit : init.Perm (intRange (h * w))) :
    ∀ (k : ℕ) (c0 c : SearchCfg), BasicInv w init c0 → stepN w h k c0 = some c →
      BasicInv w init c := by
  intro k
  induction k with
  | zero =>
    intro c0 c hb hs
    injection hs with hs2
    subst hs2
    exact hb
  | succ k2 ih =>
    intro c0 c hb hs
    cases hst : stepFn w h c0 with
    | done r =>
      rw [stepN_done k2 hst] at hs
      cases hs
    | cont c1 =>
      rw [stepN_cont k2 hst] at hs
      exact ih c1 c (basic_step hw hh hinit hb hst) hs

/-- Every search state of a run on a valid puzzle satisfies the basic
invariant. -/
theorem basic_reach (pd : List (List ℤ)) (hval : ValidPuzzle pd) {c : SearchCfg}
    (hre : Reaches pd c) : BasicInv (widthOf pd) pd.flatten c := by
  obtain ⟨hne, hw, hrows, hperm⟩ := hval
  obtain ⟨k, hk⟩ := hre
  exact basic_stepN hw (List.length_pos_of_ne_nil hne) hperm k _ _ (basic_init pd) hk

theorem count_zero_intRange (n : ℕ) (hn : 0 < n) : (intRange n).count 0 = 1 := by
  have hnd := nodup_intRange n
  have hm : (0 : ℤ) ∈ intRange n := mem_intRange.mpr ⟨le_rfl, by omega⟩
  exact List.count_eq_one_of_mem hnd hm

/-- C7 (as stated): every frontier entry of a run satisfies
`f = g + h`.  Refuted: the seed entry is `(0, 0, 0, initial, None)`
although the initial heuristic is positive whenever the loop runs. -/
theorem c7_counterexample : ¬ ClaimC7 [[1, 2], [0, 3]] := by
  intro hcl
  have hre : Reaches [[1, 2], [0, 3]] (initCfg [[1, 2], [0, 3]]) := ⟨0, rfl⟩
  have hmem : (⟨0, 0, 0,
      (scoreAndCache (make_state [[1, 2], [0, 3]]) (widthOf [[1, 2], [0, 3]])).2, none⟩ : Entry)
      ∈ (initCfg [[1, 2], [0, 3]]).opn := by
    unfold initCfg
    exact List.mem_singleton.mpr rfl
  have heq := hcl _ hre _ hmem
  revert heq
  decide

/-- C7 (amended): every frontier entry of a run either satisfies
`f = g + h`, or is the seed entry, whose priority and distance are both
zero regardless of the initial heuristic. -/
theorem c7_amended_priority_law (pd : List (List ℤ)) (hval : ValidPuzzle pd) (c : SearchCfg)
    (hre : Reaches pd c) :
    ∀ e ∈ c.opn, e.f = e.g + fullScore e.st.flat (widthOf pd) ∨
      (e.prev = none ∧ e.f = 0 ∧ e.g = 0 ∧ e.st.flat = pd.flatten) :=
  (basic_reach pd hval hre).2.2

/-- Witness for the amended C7 at a concrete 2-by-2 puzzle and the seed
search state. -/
theorem c7_amended_priority_law_witness :
    ValidPuzzle [[1, 2], [0, 3]] ∧
    (∀ e ∈ (initCfg [[1, 2], [0, 3]]).opn,
      e.f = e.g + fullScore e.st.flat (widthOf [[1, 2], [0, 3]]) ∨
      (e.prev = none ∧ e.f = 0 ∧ e.g = 0 ∧ e.st.flat = [[1, 2], [0, 3]].flatten)) :=
  ⟨by decide, c7_amended_priority_law [[1, 2], [0, 3]] (by decide) (initCfg [[1, 2], [0, 3]])
    ⟨0, rfl⟩⟩

/-- C8: every state held anywhere in a reachable search state carries a
permutation of the initial tile multiset with exactly one blank. -/
theorem c8_reachable_states_perm (pd : List (List ℤ)) (hval : ValidPuzzle pd) (c : SearchCfg)
    (hre : Reaches pd c) :
    ∀ s, AppearsIn s c → s.flat.Perm pd.flatten ∧ s.flat.count 0 = 1 := by
  have hb := basic_reach pd hval hre
  have hn : 0 < pd.length * widthOf pd :=
    Nat.mul_pos (List.length_pos_of_ne_nil hval.1) hval.2.1
  have hcnt : ∀ s : State, s.flat.Perm pd.flatten → s.flat.count 0 = 1 := by
    intro s hp
    have hperm2 : s.flat.Perm (intRange (pd.length * widthOf pd)) := hp.trans hval.2.2.2
    rw [hperm2.count_eq]
    exact count_zero_intRange _ hn
  intro s hap
  rcases hap with ⟨e, he, hor⟩ | ⟨kv, hkv, hor⟩
  · rcases hor with h1 | h1
    · subst h1
      exact ⟨(hb.1 e he).1.1, hcnt _ (hb.1 e he).1.1⟩
    · have hws := (hb.1 e he).2 s h1
      exact ⟨hws.1, hcnt _ hws.1⟩
  · rcases hor with h1 | h1
    · subst h1
      exact ⟨(hb.2.1 kv hkv).1.1, hcnt _ (hb.2.1 kv hkv).1.1⟩
    · have hws := (hb.2.1 kv hkv).2 s h1
      exact ⟨hws.1, hcnt _ hws.1⟩

/-- Witness for C8 at a concrete 2-by-2 puzzle and the seed search
state, applied to the seed state itself. -/
theorem c8_reachable_states_perm_witness :
    ValidPuzzle [[1, 2], [0, 3]] ∧
    (∀ s, AppearsIn s (initCfg [[1, 2], [0, 3]]) →
      s.flat.Perm [[1, 2], [0, 3]].flatten ∧ s.flat.count 0 = 1) :=
  ⟨by decide, c8_reachable_states_perm [[1, 2], [0, 3]] (by decide) (initCfg [[1, 2], [0, 3]])
    ⟨0, rfl⟩⟩

/-- C10: in every reachable search state, all frontier states carry a
cached score (never the -1 sentinel), and the state actually passed to
`State.move` during an expansion, the clone of the scored popped state,
carries a cached score as well. -/
theorem c10_no_sentinel_move (pd : List (List ℤ)) (hval : ValidPuzzle pd) (c : SearchCfg)
    (hre : Reaches pd c) (e : Entry) (rest : List Entry)
    (hpop : popMin c.opn = some (e, rest)) :
    (clone (scoreAndCache e.st (widthOf pd)).2).scoreCache ≠ -1 ∧
    ∀ en ∈ c.opn, en.st.scoreCache ≠ -1 := by
  have hb := basic_reach pd hval hre
  have hWF : ∀ en ∈ c.opn, en.st.scoreCache = fullScore en.st.flat (widthOf pd) :=
    fun en hen => (hb.1 en hen).1.2.1
  have hnn : ∀ en ∈ c.opn, en.st.scoreCache ≠ -1 := by
    intro en hen
    rw [hWF en hen]
    have := fullScore_nonneg en.st.flat (widthOf pd)
    omega
  have he := (popMin_spec _ _ _ hpop).1
  have hA : scoreAndCache e.st (widthOf pd) = (fullScore e.st.flat (widthOf pd), e.st) :=
    scoreAndCache_of_cached _ (hWF e he)
  rw [hA]
  exact ⟨hnn e he, hnn⟩

/-- Witness for C10 at a concrete 2-by-2 puzzle and the seed search
state, whose frontier pop is the seed entry. -/
theorem c10_no_sentinel_move_witness :
    (ValidPuzzle [[1, 2], [0, 3]] ∧
      popMin (initCfg [[1, 2], [0, 3]]).opn
        = some (⟨0, 0, 0,
            (scoreAndCache (make_state [[1, 2], [0, 3]]) (widthOf [[1, 2], [0, 3]])).2, none⟩,
          [])) ∧
    ((clone (scoreAndCache (⟨0, 0, 0,
        (scoreAndCache (make_state [[1, 2], [0, 3]]) (widthOf [[1, 2], [0, 3]])).2,
        none⟩ : Entry).st (widthOf [[1, 2], [0, 3]])).2).scoreCache ≠ -1 ∧
      ∀ en ∈ (initCfg [[1, 2], [0, 3]]).opn, en.st.scoreCache ≠ -1) :=
  ⟨⟨by decide, rfl⟩,
    c10_no_sentinel_move [[1, 2], [0, 3]] (by decide) (initCfg [[1, 2], [0, 3]]) ⟨0, rfl⟩
      _ [] rfl⟩

/-! ### C3: the solvability rule -/

theorem inversions_eq_inversionPairs (l : List ℤ) : inversions l = inversionPairs l := by
  unfold inversions inversionPairs
  apply Finset.sum_congr rfl
  intro i hi
  rw [Finset.mem_range] at hi
  rw [Finset.sum_eq_sum_Ico_succ_bot hi, if_neg (lt_irrefl _), zero_add]

theorem erase_zero_eq_filter (l : List ℤ) (hcnt : l.count 0 = 1) :
    l.erase 0 = l.filter (fun v => v != 0) := by
  induction l with
  | nil => rfl
  | cons a t ih =>
    by_cases ha : a = 0
    · subst ha
      rw [List.erase_cons_head]
      have ht : t.count (0 : ℤ) = 0 := by
        rw [List.count_cons_self] at hcnt
        omega
      have ht2 : t.filter (fun v => v != 0) = t :=
        List.filter_eq_self.mpr (fun x hx => by
          have : x ≠ 0 := by
            intro hc
            subst hc
            rw [List.count_eq_zero] at ht
            exact ht hx
          simpa using this)
      simp [ht2]
    · rw [List.erase_cons_tail (by simpa using ha)]
      have hcnt2 : t.count (0 : ℤ) = 1 := by
        rw [List.count_cons_of_ne (by simpa using Ne.symm ha)] at hcnt
        exact hcnt
      rw [ih hcnt2]
      simp [ha]

/-- C3: on valid configurations `is_solvable` decides exactly the
parity rule of the specification. -/
theorem c3_solvable_matches_rule (pd : List (List ℤ)) (hval : ValidPuzzle pd) :
    is_solvable pd = specSolvableRule pd := by
  obtain ⟨hne, hw, hrows, hperm⟩ := hval
  have hh : 0 < pd.length := List.length_pos_of_ne_nil hne
  have hn : 0 < pd.length * widthOf pd := Nat.mul_pos hh hw
  have hcnt : pd.flatten.count 0 = 1 := by
    rw [hperm.count_eq]
    exact count_zero_intRange _ hn
  have hmem0 : (0 : ℤ) ∈ pd.flatten := by
    rw [← List.count_pos_iff, hcnt]
    omega
  have herase := erase_zero_eq_filter pd.flatten hcnt
  have hbr := blankRow_eq (widthOf pd) pd hrows hmem0
  have hblt : pd.flatten.indexOf 0 < pd.length * widthOf pd := by
    have := List.indexOf_lt_length.mpr hmem0
    rwa [(perm_intRange_facts hperm).1] at this
  have hrow_lt : pd.flatten.indexOf 0 / widthOf pd < pd.length := by
    rw [Nat.div_lt_iff_lt_mul hw]
    omega
  simp only [is_solvable, specSolvableRule, herase, inversions_eq_inversionPairs, hbr]
  by_cases hpar : widthOf pd % 2 = 1
  · rw [if_pos hpar, if_pos hpar]
  · rw [if_neg hpar, if_neg hpar]
    rw [Bool.eq_iff_iff, beq_iff_eq, beq_iff_eq]
    set iv := inversionPairs (pd.flatten.filter (fun v => v != 0))
    set br := pd.flatten.indexOf 0 / widthOf pd
    constructor
    · intro hz
      omega
    · intro hz
      omega

/-- Witness for C3 at a concrete 2-by-3 configuration. -/
theorem c3_solvable_matches_rule_witness :
    ValidPuzzle [[3, 1, 2], [0, 4, 5]] ∧
    is_solvable [[3, 1, 2], [0, 4, 5]] = specSolvableRule [[3, 1, 2], [0, 4, 5]] :=
  ⟨by decide, c3_solvable_matches_rule [[3, 1, 2], [0, 4, 5]] (by decide)⟩

/-! ### C5: equality is hash equality, and the hash cannot be injective -/

theorem pyTupleHash_lt (l : List ℤ) : pyTupleHash l < U64 := by
  simp only [pyTupleHash]
  split
  · decide
  · have h0 : 0 < U64 := by decide
    exact Nat.mod_lt _ h0

theorem ofFn_perm_intRange {n : ℕ} (σ : Equiv.Perm (Fin n)) :
    (List.ofFn (fun i => ((σ i : ℕ) : ℤ))).Perm (intRange n) := by
  have h1 : (List.ofFn (fun i => ((σ i : ℕ) : ℤ)))
      = ((List.finRange n).map σ).map (fun j : Fin n => ((j : ℕ) : ℤ)) := by
    rw [List.ofFn_eq_map, List.map_map]
    rfl
  have h2 : ((List.finRange n).map σ).Perm (List.finRange n) := by
    rw [List.perm_iff_count]
    intro x
    have hx : x = σ (σ.symm x) := (Equiv.apply_symm_apply σ x).symm
    have hcx : (List.finRange n).count x = 1 :=
      List.count_eq_one_of_mem (List.nodup_finRange n) (List.mem_finRange _)
    have hc1 : (List.finRange n).count (σ.symm x) = 1 :=
      List.count_eq_one_of_mem (List.nodup_finRange n) (List.mem_finRange _)
    conv_lhs => rw [hx]
    rw [List.count_map_of_injective _ _ σ.injective, hc1, hcx]
  have h3 : intRange n = (List.finRange n).map (fun j : Fin n => ((j : ℕ) : ℤ)) := by
    unfold intRange
    rw [← List.map_coe_finRange n, List.map_map]
    rfl
  rw [h1, h3]
  exact h2.map _

/-- C5 (as stated, refuted): `State.__eq__` cannot coincide with flat
sequence equality, because the 64-bit tuple hash takes fewer than `25!`
values: two distinct 5-by-5 configurations must compare equal. -/
theorem c5_counterexample :
    ∃ s1 s2 : State, s1.flat.Perm (intRange 25) ∧ s2.flat.Perm (intRange 25) ∧
      s1.flat ≠ s2.flat ∧ stateEq s1 s2 = true := by
  have hcard : Fintype.card (Fin U64) < Fintype.card (Equiv.Perm (Fin 25)) := by
    rw [Fintype.card_fin, Fintype.card_perm, Fintype.card_fin]
    decide
  have hmaps : ∀ σ : Equiv.Perm (Fin 25), σ ∈ (Finset.univ : Finset (Equiv.Perm (Fin 25))) →
      (⟨pyTupleHash (List.ofFn (fun i => ((σ i : ℕ) : ℤ))), pyTupleHash_lt _⟩ : Fin U64)
        ∈ (Finset.univ : Finset (Fin U64)) :=
    fun _ _ => Finset.mem_univ _
  have hlt : (Finset.univ : Finset (Fin U64)).card
      < (Finset.univ : Finset (Equiv.Perm (Fin 25))).card := by
    rw [Finset.card_univ, Finset.card_univ]
    exact hcard
  obtain ⟨σ, _, τ, _, hne, heq⟩ :=
    Finset.exists_ne_map_eq_of_card_lt_of_maps_to hlt hmaps
  have hhash : pyTupleHash (List.ofFn (fun i => ((σ i : ℕ) : ℤ)))
      = pyTupleHash (List.ofFn (fun i => ((τ i : ℕ) : ℤ))) :=
    congrArg Fin.val heq
  refine ⟨⟨List.ofFn (fun i => ((σ i : ℕ) : ℤ)), "", 0, -1⟩,
    ⟨List.ofFn (fun i => ((τ i : ℕ) : ℤ)), "", 0, -1⟩,
    ofFn_perm_intRange σ, ofFn_perm_intRange τ, ?_, ?_⟩
  · intro hc
    apply hne
    rw [List.ofFn_inj] at hc
    apply Equiv.ext
    intro i
    have := congrFun hc i
    have h2 : ((σ i : ℕ) : ℤ) = ((τ i : ℕ) : ℤ) := this
    exact Fin.ext (by exact_mod_cast h2)
  · unfold stateEq hashValue
    simp only [if_pos rfl]
    rw [hhash]
    exact beq_self_eq_true _

/-- C5 (amended): flat-sequence equality implies `State.__eq__`, and
`State.__eq__` holds exactly when the content hashes agree; the
converse direction to flat equality is what the counterexample rules
out. -/
theorem c5_amended_eq_is_hash_eq (a b : State) (hca : CacheOK a) (hcb : CacheOK b) :
    (a.flat = b.flat → stateEq a b = true) ∧
    (stateEq a b = true ↔ pyTupleHash a.flat = pyTupleHash b.flat) := by
  have ha := hashValue_of_cacheOK hca
  have hb := hashValue_of_cacheOK hcb
  unfold stateEq
  rw [ha, hb]
  constructor
  · intro h
    rw [h]
    exact beq_self_eq_true _
  · exact beq_iff_eq

/-- Witness for the amended C5 at two concrete states. -/
theorem c5_amended_eq_is_hash_eq_witness :
    (CacheOK (State.mk [1, 2, 0, 3] "" 0 1) ∧ CacheOK (State.mk [1, 2, 0, 3] "L" 0 1)) ∧
    ((State.mk [1, 2, 0, 3] "" 0 1).flat = (State.mk [1, 2, 0, 3] "L" 0 1).flat →
      stateEq (State.mk [1, 2, 0, 3] "" 0 1) (State.mk [1, 2, 0, 3] "L" 0 1) = true) ∧
    (stateEq (State.mk [1, 2, 0, 3] "" 0 1) (State.mk [1, 2, 0, 3] "L" 0 1) = true ↔
      pyTupleHash (State.mk [1, 2, 0, 3] "" 0 1).flat
        = pyTupleHash (State.mk [1, 2, 0, 3] "L" 0 1).flat) := by
  refine ⟨⟨by decide, by decide⟩, ?_⟩
  exact c5_amended_eq_is_hash_eq (State.mk [1, 2, 0, 3] "" 0 1)
    (State.mk [1, 2, 0, 3] "L" 0 1) (by decide) (by decide)

/-- C4: on every well-formed state with a correct cached score, a legal
(in-bounds) move leaves the cached score equal to a full Manhattan
recomputation over the mutated flat sequence. -/
theorem c4_move_score_incremental (s : State) (char : String) (w h : ℕ) (x y dx dy : ℤ)
    (hx : 0 ≤ x) (hxw : x < w) (hy : 0 ≤ y) (hyh : y < h)
    (hx2 : 0 ≤ x + dx) (hx2w : x + dx < w) (hy2 : 0 ≤ y + dy) (hy2h : y + dy < h)
    (hmove : ¬(dx = 0 ∧ dy = 0))
    (hperm : s.flat.Perm (intRange (w * h)))
    (hblank : s.flat.getD (index x y w).toNat 0 = 0)
    (hcache : s.scoreCache = fullScore s.flat w) :
    (s.move char x y dx dy w).scoreCache = fullScore (s.move char x y dx dy w).flat w := by
  obtain ⟨hlen, hnd, _⟩ := perm_intRange_facts hperm
  exact (move_spec s char w h x y dx dy hx hxw hy hyh hx2 hx2w hy2 hy2h hmove hlen hnd
    hblank hcache).2.2.1

/-- Witness for C4 at a concrete 2-by-2 state and an L move. -/
theorem c4_move_score_incremental_witness :
    ((State.mk [1, 2, 0, 3] "" 0 1).flat.Perm (intRange (2 * 2)) ∧
      (State.mk [1, 2, 0, 3] "" 0 1).scoreCache = fullScore (State.mk [1, 2, 0, 3] "" 0 1).flat 2) ∧
    ((State.mk [1, 2, 0, 3] "" 0 1).move "L" 0 1 1 0 2).scoreCache =
      fullScore (((State.mk [1, 2, 0, 3] "" 0 1).move "L" 0 1 1 0 2)).flat 2 :=
  ⟨⟨by decide, by decide⟩,
    c4_move_score_incremental (State.mk [1, 2, 0, 3] "" 0 1) "L" 2 2 0 1 1 0
      (by decide) (by decide) (by decide) (by decide) (by decide) (by decide) (by decide)
      (by decide) (by decide) (by decide) (by decide) (by decide)⟩

/-! ### The specification move relation: reduction and basic facts -/

theorem applyMove_U (w h : ℕ) (l : List ℤ) :
    applyMove w h l "U" = (if l.indexOf 0 / w + 1 < h then
      some ((l.set (l.indexOf 0) (l.getD (l.indexOf 0 + w) 0)).set (l.indexOf 0 + w) 0)
      else none) := rfl

theorem applyMove_D (w h : ℕ) (l : List ℤ) :
    applyMove w h l "D" = (if 0 < l.indexOf 0 / w then
      some ((l.set (l.indexOf 0) (l.getD (l.indexOf 0 - w) 0)).set (l.indexOf 0 - w) 0)
      else none) := rfl

theorem applyMove_L (w h : ℕ) (l : List ℤ) :
    applyMove w h l "L" = (if l.indexOf 0 % w + 1 < w then
      some ((l.set (l.indexOf 0) (l.getD (l.indexOf 0 + 1) 0)).set (l.indexOf 0 + 1) 0)
      else none) := rfl

theorem applyMove_R (w h : ℕ) (l : List ℤ) :
    applyMove w h l "R" = (if 0 < l.indexOf 0 % w then
      some ((l.set (l.indexOf 0) (l.getD (l.indexOf 0 - 1) 0)).set (l.indexOf 0 - 1) 0)
      else none) := rfl

theorem applyMove_some_char {w h : ℕ} {l : List ℤ} {mc : String} {v : List ℤ}
    (hv : applyMove w h l mc = some v) :
    mc = "U" ∨ mc = "D" ∨ mc = "L" ∨ mc = "R" := by
  unfold applyMove at hv
  dsimp only at hv
  split at hv
  · exact Or.inl rfl
  · exact Or.inr (Or.inl rfl)
  · exact Or.inr (Or.inr (Or.inl rfl))
  · exact Or.inr (Or.inr (Or.inr rfl))
  · cases hv

theorem div_mod_succ (p w : ℕ) (hpm : p % w + 1 < w) :
    (p + 1) / w = p / w ∧ (p + 1) % w = p % w + 1 := by
  have hw : 0 < w := by omega
  have hdm := Nat.div_add_mod p w
  have hcomm : p / w * w = w * (p / w) := Nat.mul_comm _ _
  have he : p + 1 = (p % w + 1) + (p / w) * w := by omega
  constructor
  · rw [he, Nat.add_mul_div_right _ _ hw, Nat.div_eq_of_lt hpm]
    omega
  · rw [he, Nat.add_mul_mod_self_right, Nat.mod_eq_of_lt hpm]

theorem scoreTerm_eq (v : ℤ) (i w : ℕ) :
    scoreTerm v i w
      = |pyMod (v - 1) w - ((i % w : ℕ) : ℤ)| + |pyDiv (v - 1) w - ((i / w : ℕ) : ℤ)| := by
  unfold scoreTerm pyMod pyDiv
  have h1 : ((i : ℤ) % (w : ℤ)) = ((i % w : ℕ) : ℤ) := by push_cast; rfl
  have h2 : ((i : ℤ)).ediv ((w : ℤ)) = ((i / w : ℕ) : ℤ) := (Int.ofNat_ediv _ _).symm
  rw [show ((i : ℤ)).emod ((w : ℤ)) = (i : ℤ) % (w : ℤ) from rfl, h1, h2]

/-- Moving the blank one row changes the Manhattan term of the moved
tile by at most one. -/
theorem scoreTerm_vert (v : ℤ) (p w : ℕ) (hw : 0 < w) :
    |scoreTerm v (p + w) w - scoreTerm v p w| ≤ 1 := by
  have hdiv : (p + w) / w = p / w + 1 := Nat.add_div_right p hw
  rw [scoreTerm_eq v (p + w) w, scoreTerm_eq v p w, Nat.add_mod_right, hdiv]
  set c := pyMod (v - 1) w
  set r := pyDiv (v - 1) w
  have hre : |c - ((p % w : ℕ) : ℤ)| + |r - ((p / w + 1 : ℕ) : ℤ)|
      - (|c - ((p % w : ℕ) : ℤ)| + |r - ((p / w : ℕ) : ℤ)|)
      = |r - (((p / w : ℕ) : ℤ) + 1)| - |r - ((p / w : ℕ) : ℤ)| := by
    push_cast
    ring
  rw [hre]
  have h1 := abs_abs_sub_abs_le_abs_sub (r - (((p / w : ℕ) : ℤ) + 1)) (r - ((p / w : ℕ) : ℤ))
  have h2 : (r - (((p / w : ℕ) : ℤ) + 1)) - (r - ((p / w : ℕ) : ℤ)) = -1 := by ring
  rw [h2] at h1
  simpa using h1

/-- Moving the blank one column changes the Manhattan term of the moved
tile by at most one. -/
theorem scoreTerm_horiz (v : ℤ) (p w : ℕ) (hpm : p % w + 1 < w) :
    |scoreTerm v (p + 1) w - scoreTerm v p w| ≤ 1 := by
  obtain ⟨hd, hm⟩ := div_mod_succ p w hpm
  rw [scoreTerm_eq v (p + 1) w, scoreTerm_eq v p w, hd, hm]
  set c := pyMod (v - 1) w
  set r := pyDiv (v - 1) w
  have hre : |c - ((p % w + 1 : ℕ) : ℤ)| + |r - ((p / w : ℕ) : ℤ)|
      - (|c - ((p % w : ℕ) : ℤ)| + |r - ((p / w : ℕ) : ℤ)|)
      = |c - (((p % w : ℕ) : ℤ) + 1)| - |c - ((p % w : ℕ) : ℤ)| := by
    push_cast
    ring
  rw [hre]
  have h1 := abs_abs_sub_abs_le_abs_sub (c - (((p % w : ℕ) : ℤ) + 1)) (c - ((p % w : ℕ) : ℤ))
  have h2 : (c - (((p % w : ℕ) : ℤ) + 1)) - (c - ((p % w : ℕ) : ℤ)) = -1 := by ring
  rw [h2] at h1
  simpa using h1

/-- A legal specification move permutes the configuration and lowers the
heuristic by at most one (consistency of the Manhattan heuristic). -/
theorem applyMove_facts {w h : ℕ} (hw : 0 < w) (hh : 0 < h) {l : List ℤ}
    (hperm : l.Perm (intRange (h * w))) {mc : String} {v : List ℤ}
    (hv : applyMove w h l mc = some v) :
    v.Perm l ∧ fullScore l w ≤ 1 + fullScore v w := by
  obtain ⟨hlen, hnd, _⟩ := perm_intRange_facts hperm
  have hmem : (0 : ℤ) ∈ l := zero_mem_of_perm hperm (Nat.mul_pos hh hw)
  have hblt : l.indexOf 0 < l.length := List.indexOf_lt_length.mpr hmem
  have hbget : l.getD (l.indexOf 0) 0 = 0 := blank_getD hmem
  set b := l.indexOf 0 with hbdef
  clear_value b
  have hdm := Nat.div_add_mod b w
  have hmw : b % w < w := Nat.mod_lt _ hw
  have hdh : b / w < h := by
    rw [Nat.div_lt_iff_lt_mul hw]
    omega
  have main : ∀ t : ℕ, t < l.length → b ≠ t →
      v = (l.set b (l.getD t 0)).set t 0 →
      |scoreTerm (l.getD t 0) t w - scoreTerm (l.getD t 0) b w| ≤ 1 →
      v.Perm l ∧ fullScore l w ≤ 1 + fullScore v w := by
    intro t htl hbne hveq habs
    have hitem : l.getD t 0 ≠ 0 := by
      intro hcon
      have e1 : l[b] = (0 : ℤ) := by
        rw [← List.getD_eq_getElem l 0 hblt]; exact hbget
      have e2 : l[t] = (0 : ℤ) := by
        rw [← List.getD_eq_getElem l 0 htl]; exact hcon
      have i1 := List.indexOf_getElem hnd b hblt
      have i2 := List.indexOf_getElem hnd t htl
      rw [e1] at i1
      rw [e2] at i2
      exact hbne (i1.symm.trans i2)
    have hperm2 : v.Perm l := by
      have hp := swap_perm l b t hblt htl hbne
      rw [hbget] at hp
      rw [hveq]
      exact hp
    have hfs : fullScore v w
        = fullScore l w - scoreTerm (l.getD t 0) t w + scoreTerm (l.getD t 0) b w := by
      rw [hveq]
      exact fullScore_swap l w b t hblt htl hbne hbget hitem
    have hb2 := abs_le.mp habs
    constructor
    · exact hperm2
    · omega
  rcases applyMove_some_char hv with hc | hc | hc | hc <;> subst hc
  · rw [applyMove_U, ← hbdef] at hv
    split at hv
    · next hcond =>
      injection hv with hveq
      have hmul : w * (b / w + 2) = w * (b / w) + 2 * w := by ring
      have hmul2 : w * (b / w + 2) ≤ w * h := Nat.mul_le_mul_left w (by omega)
      have hc1 : w * h = h * w := Nat.mul_comm w h
      have htl : b + w < l.length := by omega
      refine main (b + w) htl (by omega) hveq.symm ?_
      exact scoreTerm_vert _ b w hw
    · cases hv
  · rw [applyMove_D, ← hbdef] at hv
    split at hv
    · next hcond =>
      injection hv with hveq
      have hwb : w ≤ b := by
        by_contra hlt
        rw [Nat.div_eq_of_lt (by omega)] at hcond
        omega
      have htl : b - w < l.length := by omega
      refine main (b - w) htl (by omega) hveq.symm ?_
      have hbe : b = (b - w) + w := by omega
      have := scoreTerm_vert (l.getD (b - w) 0) (b - w) w hw
      rw [← hbe] at this
      rw [abs_sub_comm]
      exact this
    · cases hv
  · rw [applyMove_L, ← hbdef] at hv
    split at hv
    · next hcond =>
      injection hv with hveq
      have hmul : w * (b / w) ≤ w * (h - 1) := Nat.mul_le_mul_left w (by omega)
      have hmul2 : w * (h - 1) + w = w * h := by
        rw [← Nat.mul_succ]
        congr 1
        omega
      have hc1 : w * h = h * w := Nat.mul_comm w h
      have htl : b + 1 < l.length := by omega
      refine main (b + 1) htl (by omega) hveq.symm ?_
      exact scoreTerm_horiz _ b w hcond
    · cases hv
  · rw [applyMove_R, ← hbdef] at hv
    split at hv
    · next hcond =>
      injection hv with hveq
      have htl : b - 1 < l.length := by omega
      have hmod : (b - 1) % w = b % w - 1 := by
        have hcomm : (b / w) * w = w * (b / w) := Nat.mul_comm _ _
        have he : b - 1 = (b % w - 1) + (b / w) * w := by omega
        rw [he, Nat.add_mul_mod_self_right, Nat.mod_eq_of_lt (by omega)]
      refine main (b - 1) htl (by omega) hveq.symm ?_
      have hpm : (b - 1) % w + 1 < w := by omega
      have := scoreTerm_horiz (l.getD (b - 1) 0) (b - 1) w hpm
      rw [show b - 1 + 1 = b by omega] at this
      rw [abs_sub_comm]
      exact this
    · cases hv

theorem applyWord_start_none (w h : ℕ) (ws : List String) :
    List.foldl (fun acc mc => acc.bind (fun l2 => applyMove w h l2 mc)) none ws = none := by
  induction ws with
  | nil => rfl
  | cons mc t ih => exact ih

theorem applyWord_cons (w h : ℕ) (l : List ℤ) (mc : String) (ws : List String) :
    applyWord w h l (mc :: ws)
      = (applyMove w h l mc).bind (fun l2 => applyWord w h l2 ws) := by
  show List.foldl _ ((some l).bind (fun l2 => applyMove w h l2 mc)) ws = _
  cases hm : applyMove w h l mc with
  | none =>
    show List.foldl _ (applyMove w h l mc) ws = _
    rw [hm]
    exact applyWord_start_none w h ws
  | some l2 =>
    show List.foldl _ (applyMove w h l mc) ws = _
    rw [hm]
    rfl

theorem applyWord_append (w h : ℕ) (l : List ℤ) (ws1 ws2 : List String) :
    applyWord w h l (ws1 ++ ws2)
      = (applyWord w h l ws1).bind (fun l2 => applyWord w h l2 ws2) := by
  unfold applyWord
  rw [List.foldl_append]
  cases hacc : List.foldl (fun acc mc => acc.bind (fun l2 => applyMove w h l2 mc)) (some l) ws1 with
  | none => exact applyWord_start_none w h ws2
  | some l2 => rfl

theorem applyWord_singleton (w h : ℕ) (l : List ℤ) (mc : String) :
    applyWord w h l [mc] = applyMove w h l mc := by
  show (some l).bind (fun l2 => applyMove w h l2 mc) = _
  rfl

theorem applyWord_perm {w h : ℕ} (hw : 0 < w) (hh : 0 < h) :
    ∀ (ws : List String) (l v : List ℤ), l.Perm (intRange (h * w)) →
    applyWord w h l ws = some v → v.Perm l := by
  intro ws
  induction ws with
  | nil =>
    intro l v _ hv
    injection hv with hv2
    rw [← hv2]
  | cons mc t ih =>
    intro l v hp hv
    rw [applyWord_cons] at hv
    cases hm : applyMove w h l mc with
    | none => rw [hm] at hv; cases hv
    | some l2 =>
      rw [hm] at hv
      have h2 := (applyMove_facts hw hh hp hm).1
      exact (ih l2 v (h2.trans hp) hv).trans h2

/-- Admissibility of the Manhattan heuristic along any word: the score
of the start is at most the word length plus the score of the end. -/
theorem score_le_word {w h : ℕ} (hw : 0 < w) (hh : 0 < h) :
    ∀ (ws : List String) (l v : List ℤ), l.Perm (intRange (h * w)) →
    applyWord w h l ws = some v →
    fullScore l w ≤ (ws.length : ℤ) + fullScore v w := by
  intro ws
  induction ws with
  | nil =>
    intro l v _ hv
    injection hv with hv2
    rw [hv2]
    simp
  | cons mc t ih =>
    intro l v hp hv
    rw [applyWord_cons] at hv
    cases hm : applyMove w h l mc with
    | none => rw [hm] at hv; cases hv
    | some l2 =>
      rw [hm] at hv
      obtain ⟨hperm2, hsc⟩ := applyMove_facts hw hh hp hm
      have h2 := ih l2 v (hperm2.trans hp) hv
      have hlen : ((mc :: t).length : ℤ) = (t.length : ℤ) + 1 := by
        simp
      omega

theorem goalFlat_perm (n : ℕ) (hn : 0 < n) : (goalFlat n).Perm (intRange n) := by
  unfold goalFlat intRange
  have hr : List.range n = 0 :: List.range' 1 (n - 1) := by
    rw [List.range_eq_range']
    cases n with
    | zero => omega
    | succ m =>
      rw [List.range'_succ]
      simp
  rw [hr]
  simp only [List.map_cons, Nat.cast_zero]
  exact List.perm_append_singleton _ _

theorem fullScore_goalFlat (n w : ℕ) (hw : 0 < w) (hn : 0 < n) :
    fullScore (goalFlat n) w = 0 :=
  (fullScore_eq_zero_iff hw hn (goalFlat_perm n hn)).mpr rfl

/-! ### The closed dictionary: hash lookups under collision-freedom -/

theorem hashInj_eq {n : ℕ} (hinj : HashInjective n) {l1 l2 : List ℤ}
    (h1 : l1.Perm (intRange n)) (h2 : l2.Perm (intRange n))
    (hh : pyTupleHash l1 = pyTupleHash l2) : l1 = l2 := by
  by_contra hne
  have hm1 : l1 ∈ permsOf n := List.mem_permutations'.mpr h1
  have hm2 : l2 ∈ permsOf n := List.mem_permutations'.mpr h2
  have hsymm : Symmetric (fun a b : List ℤ => pyTupleHash a ≠ pyTupleHash b) :=
    fun a b hab hc => hab hc.symm
  exact List.Pairwise.forall hsymm hinj hm1 hm2 hne hh

theorem contains_iff_flat {n w : ℕ} (hinj : HashInjective n) {init : List ℤ}
    (hinit : init.Perm (intRange n)) {closed : List (State × Option State)}
    (hwf : ∀ kv ∈ closed, WFState w init kv.1) {s : State}
    (hs : s.flat.Perm init) (hcs : CacheOK s) :
    pyContains closed (some s) = true ↔ ∃ kv ∈ closed, kv.1.flat = s.flat := by
  unfold pyContains
  rw [List.any_eq_true]
  constructor
  · rintro ⟨kv, hkv, hbeq⟩
    have h1 := hashValue_of_cacheOK (hwf kv hkv).2.2
    have h2 := hashValue_of_cacheOK hcs
    have hbeq2 : hashValue kv.1 = hashValue s := by
      have hb : (hashValue kv.1 == optHash (some s)) = true := hbeq
      rw [show optHash (some s) = hashValue s from rfl] at hb
      exact beq_iff_eq.mp hb
    exact ⟨kv, hkv, hashInj_eq hinj ((hwf kv hkv).1.trans hinit) (hs.trans hinit)
      (by rw [← h1, ← h2, hbeq2])⟩
  · rintro ⟨kv, hkv, hfe⟩
    refine ⟨kv, hkv, ?_⟩
    show (hashValue kv.1 == optHash (some s)) = true
    rw [show optHash (some s) = hashValue s from rfl,
      hashValue_of_cacheOK (hwf kv hkv).2.2, hashValue_of_cacheOK hcs, hfe]
    exact beq_self_eq_true _

theorem contains_false_flat {n w : ℕ} (hinj : HashInjective n) {init : List ℤ}
    (hinit : init.Perm (intRange n)) {closed : List (State × Option State)}
    (hwf : ∀ kv ∈ closed, WFState w init kv.1) {s : State}
    (hs : s.flat.Perm init) (hcs : CacheOK s) :
    pyContains closed (some s) = false ↔ ∀ kv ∈ closed, kv.1.flat ≠ s.flat := by
  constructor
  · intro hf kv hkv he
    have ht := (contains_iff_flat hinj hinit hwf hs hcs).mpr ⟨kv, hkv, he⟩
    rw [hf] at ht
    cases ht
  · intro hall
    cases hb : pyContains closed (some s)
    · rfl
    · obtain ⟨kv, hkv, he⟩ := (contains_iff_flat hinj hinit hwf hs hcs).mp hb
      exact absurd he (hall kv hkv)

theorem contains_none {n w : ℕ} (hnone : NoNoneHash n) {init : List ℤ}
    (hinit : init.Perm (intRange n)) {closed : List (State × Option State)}
    (hwf : ∀ kv ∈ closed, WFState w init kv.1) :
    pyContains closed none = false := by
  unfold pyContains
  rw [List.any_eq_false]
  intro kv hkv
  show ¬(hashValue kv.1 == optHash none) = true
  rw [show optHash none = pyNoneHash from rfl, hashValue_of_cacheOK (hwf kv hkv).2.2]
  intro hbeq
  exact hnone kv.1.flat (List.mem_permutations'.mpr ((hwf kv hkv).1.trans hinit))
    (beq_iff_eq.mp hbeq)

theorem lookup_none {n w : ℕ} (hnone : NoNoneHash n) {init : List ℤ}
    (hinit : init.Perm (intRange n)) {closed : List (State × Option State)}
    (hwf : ∀ kv ∈ closed, WFState w init kv.1) :
    pyLookup closed none = none := by
  have hc := contains_none hnone hinit hwf
  unfold pyContains at hc
  rw [List.any_eq_false] at hc
  unfold pyLookup
  have hfind : closed.find? (fun kv => hashValue kv.1 == optHash none) = none := by
    rw [List.find?_eq_none]
    exact hc
  rw [hfind]
  rfl

theorem find?_at {α : Type} (p : α → Bool) : ∀ (l : List α) (n : ℕ) (hn : n < l.length),
    p (l.get ⟨n, hn⟩) = true → (∀ i, (hi : i < n) → p (l.get ⟨i, hi.trans hn⟩) = false) →
    l.find? p = some (l.get ⟨n, hn⟩) := by
  intro l
  induction l with
  | nil =>
    intro n hn
    exact absurd hn (by simp)
  | cons a t ih =>
    intro n hn hp hbefore
    cases n with
    | zero =>
      exact List.find?_cons_of_pos _ hp
    | succ m =>
      have ha : p a = false := hbefore 0 (Nat.succ_pos m)
      rw [List.find?_cons_of_neg _ (by simp [ha])]
      exact ih m (by simpa using hn) hp (fun i hi => hbefore (i + 1) (by omega))

theorem hash_ne_of_nodup {closed : List (State × Option State)}
    (hnd : (closed.map (fun kv => hashValue kv.1)).Nodup) {i j : ℕ}
    (hi : i < closed.length) (hj : j < closed.length) (hne : i ≠ j) :
    hashValue (closed.get ⟨i, hi⟩).1 ≠ hashValue (closed.get ⟨j, hj⟩).1 := by
  intro heq
  have hilen : i < (closed.map (fun kv => hashValue kv.1)).length := by
    rw [List.length_map]
    omega
  have hjlen : j < (closed.map (fun kv => hashValue kv.1)).length := by
    rw [List.length_map]
    omega
  have hmeq : (closed.map (fun kv => hashValue kv.1))[i]
      = (closed.map (fun kv => hashValue kv.1))[j] := by
    rw [List.getElem_map, List.getElem_map]
    exact heq
  exact hne ((List.Nodup.getElem_inj_iff hnd).mp hmeq)

theorem findIdx_hash {closed : List (State × Option State)}
    (hnd : (closed.map (fun kv => hashValue kv.1)).Nodup) {j : ℕ} (hj : j < closed.length) :
    closed.findIdx (fun kv => hashValue kv.1 == hashValue (closed.get ⟨j, hj⟩).1) = j := by
  rw [List.findIdx_eq hj]
  constructor
  · exact beq_self_eq_true _
  · intro i hij
    rw [beq_eq_false_iff_ne]
    exact hash_ne_of_nodup hnd (hij.trans hj) hj (by omega)

theorem lookup_at {closed : List (State × Option State)}
    (hnd : (closed.map (fun kv => hashValue kv.1)).Nodup) {i : ℕ} (hi : i < closed.length) :
    pyLookup closed (some (closed.get ⟨i, hi⟩).1) = some (closed.get ⟨i, hi⟩).2 := by
  unfold pyLookup
  have hbefore : ∀ i2, (hi2 : i2 < i) →
      (fun kv => hashValue kv.1 == optHash (some (closed.get ⟨i, hi⟩).1))
        (closed.get ⟨i2, hi2.trans hi⟩) = false := by
    intro i2 hi2
    show (hashValue (closed.get ⟨i2, hi2.trans hi⟩).1 == hashValue (closed.get ⟨i, hi⟩).1) = false
    rw [beq_eq_false_iff_ne]
    exact hash_ne_of_nodup hnd (hi2.trans hi) hi (by omega)
  have hself : (fun kv => hashValue kv.1 == optHash (some (closed.get ⟨i, hi⟩).1))
      (closed.get ⟨i, hi⟩) = true := beq_self_eq_true _
  rw [find?_at _ closed i hi hself hbefore]
  rfl

/-! ### The recorded chain of moves -/

theorem cwAux_succ (closed : List (State × Option State)) (f i : ℕ) :
    cwAux closed (f + 1) i = match closed.get? i with
      | none => []
      | some (_, none) => []
      | some (k, some p) =>
        cwAux closed f (closed.findIdx (fun kv => hashValue kv.1 == hashValue p))
          ++ [k.moveChar] := rfl

theorem cwAux_fuel {closed : List (State × Option State)} (hdesc : Desc closed) :
    ∀ i f, i + 1 ≤ f → cwAux closed f i = chainWord closed i := by
  intro i
  induction i using Nat.strong_induction_on with
  | _ i ih =>
    intro f hf
    obtain ⟨f2, rfl⟩ : ∃ f2, f = f2 + 1 := ⟨f - 1, by omega⟩
    unfold chainWord
    rw [cwAux_succ, cwAux_succ]
    cases hget : closed.get? i with
    | none => rfl
    | some kv =>
      obtain ⟨k, op⟩ := kv
      cases op with
      | none => rfl
      | some p =>
        dsimp only
        obtain ⟨hi, hgeteq⟩ := List.get?_eq_some.mp hget
        have hlink : (closed.get ⟨i, hi⟩).2 = some p := by
          rw [hgeteq]
        have hj := hdesc i hi p hlink
        congr 1
        rw [ih _ hj f2 (by omega), ih _ hj i (by omega)]

theorem cwAux_append {closed ext : List (State × Option State)} (hdesc : Desc closed) :
    ∀ i f, i + 1 ≤ f → i < closed.length →
    cwAux (closed ++ ext) f i = cwAux closed f i := by
  intro i
  induction i using Nat.strong_induction_on with
  | _ i ih =>
    intro f hf hi
    obtain ⟨f2, rfl⟩ : ∃ f2, f = f2 + 1 := ⟨f - 1, by omega⟩
    rw [cwAux_succ, cwAux_succ]
    have hgs : (closed ++ ext).get? i = closed.get? i := List.get?_append hi
    rw [hgs]
    cases hget : closed.get? i with
    | none => rfl
    | some kv =>
      obtain ⟨k, op⟩ := kv
      cases op with
      | none => rfl
      | some p =>
        dsimp only
        obtain ⟨hi2, hgeteq⟩ := List.get?_eq_some.mp hget
        have hlink : (closed.get ⟨i, hi2⟩).2 = some p := by
          rw [hgeteq]
        have hj := hdesc i hi2 p hlink
        have happ : (closed ++ ext).findIdx (fun kv => hashValue kv.1 == hashValue p)
            = closed.findIdx (fun kv => hashValue kv.1 == hashValue p) := by
          rw [List.findIdx_append]
          rw [if_pos (by omega)]
        rw [happ]
        congr 1
        exact ih _ hj f2 (by omega) (by omega)

theorem chainWord_append {closed ext : List (State × Option State)} (hdesc : Desc closed)
    {i : ℕ} (hi : i < closed.length) :
    chainWord (closed ++ ext) i = chainWord closed i := by
  unfold chainWord
  exact cwAux_append hdesc i (i + 1) le_rfl hi

theorem chainWord_none {closed : List (State × Option State)} {i : ℕ} (hi : i < closed.length)
    (hget2 : (closed.get ⟨i, hi⟩).2 = none) : chainWord closed i = [] := by
  unfold chainWord
  rw [cwAux_succ]
  have hgs : closed.get? i = some ((closed.get ⟨i, hi⟩).1, (closed.get ⟨i, hi⟩).2) := by
    rw [List.get?_eq_some]
    exact ⟨hi, rfl⟩
  rw [hgs, hget2]

theorem chainWord_link {closed : List (State × Option State)}
    (hnd : (closed.map (fun kv => hashValue kv.1)).Nodup) (hdesc : Desc closed) {i j : ℕ}
    (hi : i < closed.length) (hj : j < i)
    (hget2 : (closed.get ⟨i, hi⟩).2 = some (closed.get ⟨j, hj.trans hi⟩).1) :
    chainWord closed i = chainWord closed j ++ [(closed.get ⟨i, hi⟩).1.moveChar] := by
  unfold chainWord
  rw [cwAux_succ]
  have hgs : closed.get? i = some ((closed.get ⟨i, hi⟩).1, (closed.get ⟨i, hi⟩).2) := by
    rw [List.get?_eq_some]
    exact ⟨hi, rfl⟩
  rw [hgs, hget2]
  dsimp only
  congr 1
  rw [findIdx_hash hnd (hj.trans hi)]
  exact cwAux_fuel hdesc j i (by omega)

/-! ### Path reconstruction -/

theorem makePathAux_succ (closed : List (State × Option State)) (cur : Option State)
    (path : List String) (f : ℕ) :
    makePathAux closed cur path (f + 1) = match pyLookup closed cur with
      | none => some path
      | some nxt =>
        match cur with
        | none => none
        | some s => makePathAux closed nxt (path ++ [s.moveChar]) f := rfl

/-- The closed-list walk of `make_path` from closed key `i` produces the
recorded chain word reversed, then one move character of the start entry
(dropped by `make_path`). -/
theorem walk_eq {closed : List (State × Option State)}
    (hnd : (closed.map (fun kv => hashValue kv.1)).Nodup)
    (hdesc : Desc closed)
    (hchainEq : ∀ i, (hi : i < closed.length) → ∀ p, (closed.get ⟨i, hi⟩).2 = some p →
      ∃ j, ∃ hj : j < i, p = (closed.get ⟨j, hj.trans hi⟩).1)
    (hchainNone : ∀ i, (hi : i < closed.length) → (closed.get ⟨i, hi⟩).2 = none → i = 0)
    (hlooknone : pyLookup closed none = none) :
    ∀ i (hi : i < closed.length) (acc : List String) (fuel : ℕ), i + 2 ≤ fuel →
    makePathAux closed (some (closed.get ⟨i, hi⟩).1) acc fuel
      = some (acc ++ (chainWord closed i).reverse
          ++ [(closed.get ⟨0, Nat.lt_of_le_of_lt (Nat.zero_le i) hi⟩).1.moveChar]) := by
  intro i
  induction i using Nat.strong_induction_on with
  | _ i ih =>
    intro hi acc fuel hfuel
    obtain ⟨f2, rfl⟩ : ∃ f2, fuel = f2 + 1 := ⟨fuel - 1, by omega⟩
    rw [makePathAux_succ, lookup_at hnd hi]
    dsimp only
    cases hsnd : (closed.get ⟨i, hi⟩).2 with
    | none =>
      have hi0 : i = 0 := hchainNone i hi hsnd
      subst hi0
      obtain ⟨f3, rfl⟩ : ∃ f3, f2 = f3 + 1 := ⟨f2 - 1, by omega⟩
      rw [makePathAux_succ, hlooknone]
      rw [chainWord_none hi hsnd]
      simp
    | some p =>
      obtain ⟨j, hj, hpe⟩ := hchainEq i hi p hsnd
      subst hpe
      rw [ih j hj (hj.trans hi) (acc ++ [(closed.get ⟨i, hi⟩).1.moveChar]) f2 (by omega)]
      rw [chainWord_link hnd hdesc hi hj hsnd]
      simp

/-- `make_path` from a closed predecessor at index `j` returns the chain
word to `j` extended by the end state move character. -/
theorem make_path_eq {closed : List (State × Option State)}
    (hnd : (closed.map (fun kv => hashValue kv.1)).Nodup)
    (hdesc : Desc closed)
    (hchainEq : ∀ i, (hi : i < closed.length) → ∀ p, (closed.get ⟨i, hi⟩).2 = some p →
      ∃ j, ∃ hj : j < i, p = (closed.get ⟨j, hj.trans hi⟩).1)
    (hchainNone : ∀ i, (hi : i < closed.length) → (closed.get ⟨i, hi⟩).2 = none → i = 0)
    (hlooknone : pyLookup closed none = none)
    (endSt : State) {j : ℕ} (hj : j < closed.length) {fuel : ℕ} (hfuel : j + 2 ≤ fuel) :
    make_path endSt (some (closed.get ⟨j, hj⟩).1) closed fuel
      = some (chainWord closed j ++ [endSt.moveChar]) := by
  unfold make_path
  rw [walk_eq hnd hdesc hchainEq hchainNone hlooknone j hj [] fuel hfuel]
  simp

/-! ### Consequences of the chain structure -/

theorem desc_of_chain {w h : ℕ} {closed : List (State × Option State)}
    (hnd : (closed.map (fun kv => hashValue kv.1)).Nodup)
    (hchain : ∀ i, (hi : i < closed.length) → ChainLink w h closed i hi) :
    Desc closed := by
  intro i hi p hp
  rcases hchain i hi with ⟨hpn, _⟩ | ⟨j, hj, hprev, _⟩
  · rw [hpn] at hp
    cases hp
  · rw [hprev] at hp
    injection hp with hpe
    rw [← hpe, findIdx_hash hnd (hj.trans hi)]
    exact hj

theorem chainEq_of_chain {w h : ℕ} {closed : List (State × Option State)}
    (hchain : ∀ i, (hi : i < closed.length) → ChainLink w h closed i hi) :
    ∀ i, (hi : i < closed.length) → ∀ p, (closed.get ⟨i, hi⟩).2 = some p →
      ∃ j, ∃ hj : j < i, p = (closed.get ⟨j, hj.trans hi⟩).1 := by
  intro i hi p hp
  rcases hchain i hi with ⟨hpn, _⟩ | ⟨j, hj, hprev, _⟩
  · rw [hpn] at hp
    cases hp
  · rw [hprev] at hp
    injection hp with hpe
    exact ⟨j, hj, hpe.symm⟩

theorem chainNone_of_chain {w h : ℕ} {closed : List (State × Option State)}
    (hchain : ∀ i, (hi : i < closed.length) → ChainLink w h closed i hi) :
    ∀ i, (hi : i < closed.length) → (closed.get ⟨i, hi⟩).2 = none → i = 0 := by
  intro i hi hp
  rcases hchain i hi with ⟨_, h0⟩ | ⟨j, hj, hprev, _⟩
  · exact h0
  · rw [hprev] at hp
    cases hp

theorem head_get_zero {α : Type} {l : List α} (h0 : 0 < l.length) :
    l.head? = some (l.get ⟨0, h0⟩) := by
  cases l with
  | nil => exact absurd h0 (by simp)
  | cons a t => rfl

/-- The frontier covers every configuration reachable by a word and not
yet closed: some open entry has priority at most the word length plus
the heuristic of the reached configuration. -/
theorem ainv_cover {w h : ℕ} (hw : 0 < w) (hh : 0 < h) {init : List ℤ}
    (hinit : init.Perm (intRange (h * w))) {c : SearchCfg} (ha : AInv w h init c) :
    ∀ (ws : List String) (u : List ℤ), applyWord w h init ws = some u →
    (∀ i, (hi : i < c.closed.length) → (c.closed.get ⟨i, hi⟩).1.flat ≠ u) →
    ∃ e ∈ c.opn, e.f ≤ (ws.length : ℤ) + fullScore u w := by
  intro ws
  induction ws using List.reverseRecOn with
  | nil =>
    intro u hu hnc
    injection hu with hu2
    obtain ⟨k, hhead, hkflat⟩ := ha.closedInit
    have h0 : 0 < c.closed.length := by
      cases hc : c.closed with
      | nil => rw [hc] at hhead; cases hhead
      | cons a t => simp [hc]
    have hget0 : c.closed.get ⟨0, h0⟩ = (k, none) := by
      have := head_get_zero h0
      rw [hhead] at this
      injection this with h2
      exact h2.symm
    exact absurd (by rw [hget0, hkflat, hu2] : (c.closed.get ⟨0, h0⟩).1.flat = u) (hnc 0 h0)
  | append_singleton l mc ih =>
    intro u hu hnc
    rw [applyWord_append] at hu
    cases hv : applyWord w h init l with
    | none =>
      rw [hv] at hu
      cases hu
    | some v =>
      rw [hv] at hu
      have happ : applyMove w h v mc = some u := hu
      have hvinit : v.Perm init := applyWord_perm hw hh l init v hinit hv
      have hvperm : v.Perm (intRange (h * w)) := hvinit.trans hinit
      by_cases hclosed : ∃ i, ∃ hi : i < c.closed.length, (c.closed.get ⟨i, hi⟩).1.flat = v
      · obtain ⟨i, hi, hieq⟩ := hclosed
        have hmv : applyMove w h (c.closed.get ⟨i, hi⟩).1.flat mc = some u := by
          rw [hieq]
          exact happ
        rcases ha.succ i hi mc u hmv with ⟨j, hj, hjeq⟩ | ⟨e, hemem, heflat, heg⟩
        · exact absurd hjeq (hnc j hj)
        · refine ⟨e, hemem, ?_⟩
          obtain ⟨j2, hj2, _, _, _, hef⟩ := ha.openLink e hemem
          rw [hef, heflat]
          have hmin := (ha.minWord i hi).1
          have hle : (chainWord c.closed i).length ≤ l.length := hmin.2 l (by
            rw [hieq]
            exact hv)
          have hlec : ((chainWord c.closed i).length : ℤ) ≤ (l.length : ℤ) := by
            exact_mod_cast hle
          have hlen2 : ((l ++ [mc]).length : ℤ) = (l.length : ℤ) + 1 := by simp
          omega
      · push_neg at hclosed
        obtain ⟨e, hemem, hebound⟩ := ih v hv hclosed
        refine ⟨e, hemem, ?_⟩
        have hcons := (applyMove_facts hw hh hvperm happ).2
        have hlen2 : ((l ++ [mc]).length : ℤ) = (l.length : ℤ) + 1 := by simp
        omega

theorem popMin_f_le {l : List Entry} {e : Entry} {rest : List Entry}
    (hpop : popMin l = some (e, rest)) {x : Entry} (hx : x ∈ l) : e.f ≤ x.f := by
  have hk := (popMin_spec l e rest hpop).2.2 x hx
  rw [keyLt_false_iff] at hk
  omega

/-- Optimality at a pop: when the popped state is not yet closed, its
recorded distance is at most the length of any word reaching it. -/
theorem popped_g_min {w h : ℕ} (hw : 0 < w) (hh : 0 < h) {init : List ℤ}
    (hinit : init.Perm (intRange (h * w))) {c : SearchCfg} (ha : AInv w h init c)
    {e : Entry} {rest : List Entry} (hpop : popMin c.opn = some (e, rest))
    (hnotclosed : ∀ i, (hi : i < c.closed.length) → (c.closed.get ⟨i, hi⟩).1.flat ≠ e.st.flat) :
    ∀ ws, applyWord w h init ws = some e.st.flat → e.g ≤ (ws.length : ℤ) := by
  intro ws hws
  obtain ⟨e2, he2mem, he2f⟩ := ainv_cover hw hh hinit ha ws e.st.flat hws hnotclosed
  have hef : e.f ≤ e2.f := popMin_f_le hpop he2mem
  obtain ⟨j2, hj2, _, _, _, heq⟩ := ha.openLink e (popMin_spec _ _ _ hpop).1
  omega

/-! ### Preservation of the search invariant: stale skip and goal pop -/

theorem ainv_skip {w h : ℕ} (hw : 0 < w) (hh : 0 < h) {init : List ℤ}
    (hinit : init.Perm (intRange (h * w))) (hinj : HashInjective (h * w))
    {c : SearchCfg} (ha : AInv w h init c) {e : Entry} {rest : List Entry}
    (hpop : popMin c.opn = some (e, rest))
    (hcont : pyContains c.closed (some e.st) = true) :
    AInv w h init ⟨rest, c.closed, c.ctr⟩ := by
  have hperm := (popMin_spec _ _ _ hpop).2.1
  have hrest_sub : ∀ x ∈ rest, x ∈ c.opn :=
    fun x hx => hperm.mem_iff.mpr (List.mem_cons_of_mem _ hx)
  have hewf := ha.openWF e (popMin_spec _ _ _ hpop).1
  obtain ⟨kv0, hkv0mem, hkv0flat⟩ :=
    (contains_iff_flat hinj hinit ha.closedWF hewf.1 hewf.2.2).mp hcont
  obtain ⟨⟨i0, hi0⟩, hgeti0⟩ := List.mem_iff_get.mp hkv0mem
  refine ⟨ha.closedWF, fun x hx => ha.openWF x (hrest_sub x hx), ha.closedInit, ha.hashNodup,
    ha.notGoal, ha.chain, ha.minWord, fun x hx => ha.openLink x (hrest_sub x hx), ?_⟩
  intro i hi mc t hmv
  rcases ha.succ i hi mc t hmv with hcl | ⟨e2, he2mem, he2flat, he2g⟩
  · exact Or.inl hcl
  · rcases List.mem_cons.mp (hperm.mem_iff.mp he2mem) with he2e | he2rest
    · subst he2e
      refine Or.inl ⟨i0, hi0, ?_⟩
      rw [hgeti0, hkv0flat, ← he2flat]
    · exact Or.inr ⟨e2, he2rest, he2flat, he2g⟩

/-- A zero-scoring pop returns a reconstructed path that reaches the
goal configuration in the minimum possible number of moves. -/
theorem ainv_goal {w h : ℕ} (hw : 0 < w) (hh : 0 < h) {init : List ℤ}
    (hinit : init.Perm (intRange (h * w))) (hinj : HashInjective (h * w))
    (hnone : NoNoneHash (h * w))
    {c : SearchCfg} (ha : AInv w h init c) {e : Entry} {rest : List Entry}
    (hpop : popMin c.opn = some (e, rest))
    (hsc : (scoreAndCache e.st w).1 = 0) :
    ∃ ws, goalResult w c.closed e = some (some ws) ∧
      applyWord w h init ws = some (goalFlat (h * w)) ∧
      (∀ ws2, applyWord w h init ws2 = some (goalFlat (h * w)) → ws.length ≤ ws2.length) := by
  have hemem := (popMin_spec _ _ _ hpop).1
  have hewf := ha.openWF e hemem
  have hsac := scoreAndCache_of_cached w hewf.2.1
  have hfs0 : fullScore e.st.flat w = 0 := by
    rw [hsac] at hsc
    exact hsc
  have hperm_e : e.st.flat.Perm (intRange (h * w)) := hewf.1.trans hinit
  have hgoal : e.st.flat = goalFlat (h * w) :=
    (fullScore_eq_zero_iff hw (Nat.mul_pos hh hw) hperm_e).mp hfs0
  obtain ⟨j, hj, hprev, hmv, hg, hf⟩ := ha.openLink e hemem
  have hnd := ha.hashNodup
  have hdesc := desc_of_chain hnd ha.chain
  have hlooknone := lookup_none hnone hinit ha.closedWF
  have hmp := make_path_eq hnd hdesc (chainEq_of_chain ha.chain) (chainNone_of_chain ha.chain)
    hlooknone e.st hj (show j + 2 ≤ c.closed.length + 2 by omega)
  refine ⟨chainWord c.closed j ++ [e.st.moveChar], ?_, ?_, ?_⟩
  · unfold goalResult
    rw [hsac]
    dsimp only
    rw [hprev, hmp]
  · rw [applyWord_append]
    have hreach := (ha.minWord j hj).1.1
    rw [hreach]
    show applyWord w h (c.closed.get ⟨j, hj⟩).1.flat [e.st.moveChar] = some (goalFlat (h * w))
    rw [applyWord_singleton, hmv, hgoal]
  · intro ws2 hws2
    have hlen : init.length = h * w := (perm_intRange_facts hinit).1
    have hnotclosed : ∀ i, (hi : i < c.closed.length) →
        (c.closed.get ⟨i, hi⟩).1.flat ≠ e.st.flat := by
      intro i hi heq
      exact ha.notGoal _ (List.get_mem c.closed i hi) (by rw [heq, hgoal, hlen])
    have hgmin := popped_g_min hw hh hinit ha hpop hnotclosed ws2 (by
      rw [hgoal]
      exact hws2)
    have hlen3 : ((chainWord c.closed j ++ [e.st.moveChar]).length : ℤ) = e.g := by
      simp only [List.length_append, List.length_singleton]
      push_cast
      omega
    have hle2 : ((chainWord c.closed j ++ [e.st.moveChar]).length : ℤ) ≤ (ws2.length : ℤ) := by
      rw [hlen3]
      exact hgmin
    exact_mod_cast hle2

/-! ### Expansion helpers -/

theorem get_append_left {α : Type} {l1 l2 : List α} {i : ℕ} (hi : i < l1.length)
    (hi2 : i < (l1 ++ l2).length) : (l1 ++ l2).get ⟨i, hi2⟩ = l1.get ⟨i, hi⟩ :=
  List.getElem_append_left hi

theorem get_concat {α : Type} {l : List α} {a : α} (h : l.length < (l ++ [a]).length) :
    (l ++ [a]).get ⟨l.length, h⟩ = a :=
  List.getElem_concat_length l a l.length rfl h

theorem expandCfg_closed (w h : ℕ) (closed : List (State × Option State)) (ctr : ℤ)
    (e : Entry) (rest : List Entry) :
    (expandCfg w h closed ctr e rest).closed
      = closed ++ [((scoreAndCache e.st w).2, e.prev)] := rfl

theorem tryMove_mono {closed : List (State × Option State)} {active : State} {char : String}
    {x y dx dy : ℤ} {w : ℕ} {dist : ℤ} {acc : List Entry × ℤ} {en : Entry}
    (h : en ∈ acc.1) : en ∈ (tryMove closed active char x y dx dy w dist acc).1 := by
  unfold tryMove
  by_cases hc : pyContains closed (some (State.move (clone active) char x y dx dy w)) = true
  · rw [if_pos hc]
    exact h
  · rw [if_neg hc]
    exact List.mem_append_left _ h

theorem guard_mono {g : Prop} [Decidable g] {closed : List (State × Option State)}
    {active : State} {char : String} {x y dx dy : ℤ} {w : ℕ} {dist : ℤ}
    {acc : List Entry × ℤ} {en : Entry} (h : en ∈ acc.1) :
    en ∈ ((if g then tryMove closed active char x y dx dy w dist acc else acc)).1 := by
  by_cases hg : g
  · rw [if_pos hg]
    exact tryMove_mono h
  · rw [if_neg hg]
    exact h

theorem tryMove_push {closed : List (State × Option State)} {active : State} {char : String}
    {x y dx dy : ℤ} {w : ℕ} {dist : ℤ} {acc : List Entry × ℤ}
    (hcf : pyContains closed (some (State.move (clone active) char x y dx dy w)) = false) :
    info_for (State.move (clone active) char x y dx dy w) (some active) w dist (acc.2 + 1)
      ∈ (tryMove closed active char x y dx dy w dist acc).1 := by
  unfold tryMove
  have hnc : ¬ pyContains closed (some (State.move (clone active) char x y dx dy w)) = true := by
    rw [hcf]
    simp
  rw [if_neg hnc]
  exact List.mem_append_right _ (List.mem_singleton_self _)

theorem expand_rest_mem {w h : ℕ} {closed : List (State × Option State)} {ctr : ℤ}
    {e : Entry} {rest : List Entry} {en : Entry} (hmem : en ∈ rest) :
    en ∈ (expandCfg w h closed ctr e rest).opn := by
  unfold expandCfg
  dsimp only
  exact guard_mono (guard_mono (guard_mono (guard_mono hmem)))

/-- Every guarded, not-yet-closed child of the popped state is pushed by
the expansion (with some sequence number). -/
theorem expand_covers {w h : ℕ} {closed : List (State × Option State)} {ctr : ℤ}
    {e : Entry} {rest : List Entry} (char : String) (dx dy : ℤ)
    (harm :
      (char = "U" ∧ dx = 0 ∧ dy = 1 ∧
          (from_index (((scoreAndCache e.st w).2.flat.indexOf 0 : ℕ) : ℤ) w).2 < (h : ℤ) - 1) ∨
      (char = "D" ∧ dx = 0 ∧ dy = -1 ∧
          (from_index (((scoreAndCache e.st w).2.flat.indexOf 0 : ℕ) : ℤ) w).2 > 0) ∨
      (char = "L" ∧ dx = 1 ∧ dy = 0 ∧
          (from_index (((scoreAndCache e.st w).2.flat.indexOf 0 : ℕ) : ℤ) w).1 < (w : ℤ) - 1) ∨
      (char = "R" ∧ dx = -1 ∧ dy = 0 ∧
          (from_index (((scoreAndCache e.st w).2.flat.indexOf 0 : ℕ) : ℤ) w).1 > 0))
    (hcf : pyContains closed (some (State.move (clone (scoreAndCache e.st w).2) char
      (from_index (((scoreAndCache e.st w).2.flat.indexOf 0 : ℕ) : ℤ) w).1
      (from_index (((scoreAndCache e.st w).2.flat.indexOf 0 : ℕ) : ℤ) w).2 dx dy w)) = false) :
    ∃ i2, info_for (State.move (clone (scoreAndCache e.st w).2) char
      (from_index (((scoreAndCache e.st w).2.flat.indexOf 0 : ℕ) : ℤ) w).1
      (from_index (((scoreAndCache e.st w).2.flat.indexOf 0 : ℕ) : ℤ) w).2 dx dy w)
      (some (scoreAndCache e.st w).2) w e.g i2 ∈ (expandCfg w h closed ctr e rest).opn := by
  unfold expandCfg
  dsimp only
  rcases harm with ⟨hc, hdx, hdy, hg⟩ | ⟨hc, hdx, hdy, hg⟩ | ⟨hc, hdx, hdy, hg⟩ |
    ⟨hc, hdx, hdy, hg⟩ <;> subst hc <;> subst hdx <;> subst hdy
  · exact ⟨_, guard_mono (guard_mono (guard_mono (by
      rw [if_pos hg]
      exact tryMove_push hcf)))⟩
  · exact ⟨_, guard_mono (guard_mono (by
      rw [if_pos hg]
      exact tryMove_push hcf))⟩
  · exact ⟨_, guard_mono (by
      rw [if_pos hg]
      exact tryMove_push hcf)⟩
  · exact ⟨_, by
      rw [if_pos hg]
      exact tryMove_push hcf⟩

/-- A legal specification move from a well-formed state determines the
code arm: its character is one of the four and the code guard holds. -/
theorem applyMove_arm {w h : ℕ} (hw : 0 < w) (hh : 0 < h) {init : List ℤ}
    (hinit : init.Perm (intRange (h * w))) {A : State} (hA : WFState w init A)
    {mc : String} {t : List ℤ} (hv : applyMove w h A.flat mc = some t) :
    (mc = "U" ∧ (from_index ((A.flat.indexOf 0 : ℕ) : ℤ) w).2 < (h : ℤ) - 1) ∨
    (mc = "D" ∧ (from_index ((A.flat.indexOf 0 : ℕ) : ℤ) w).2 > 0) ∨
    (mc = "L" ∧ (from_index ((A.flat.indexOf 0 : ℕ) : ℤ) w).1 < (w : ℤ) - 1) ∨
    (mc = "R" ∧ (from_index ((A.flat.indexOf 0 : ℕ) : ℤ) w).1 > 0) := by
  have hAperm : A.flat.Perm (intRange (h * w)) := hA.1.trans hinit
  obtain ⟨hblt, hbget, hfi, hxw, hyh, hidx⟩ := blank_coords hw hh hAperm
  set b := A.flat.indexOf 0 with hbdef
  have hx1 : (from_index ((b : ℕ) : ℤ) w).1 = ((b % w : ℕ) : ℤ) := by rw [hfi]
  have hy1 : (from_index ((b : ℕ) : ℤ) w).2 = ((b / w : ℕ) : ℤ) := by rw [hfi]
  rw [hx1, hy1]
  rcases applyMove_some_char hv with hc | hc | hc | hc <;> subst hc
  · rw [applyMove_U, ← hbdef] at hv
    split at hv
    · next hcond =>
      exact Or.inl ⟨rfl, by omega⟩
    · cases hv
  · rw [applyMove_D, ← hbdef] at hv
    split at hv
    · next hcond =>
      exact Or.inr (Or.inl ⟨rfl, by omega⟩)
    · cases hv
  · rw [applyMove_L, ← hbdef] at hv
    split at hv
    · next hcond =>
      exact Or.inr (Or.inr (Or.inl ⟨rfl, by omega⟩))
    · cases hv
  · rw [applyMove_R, ← hbdef] at hv
    split at hv
    · next hcond =>
      exact Or.inr (Or.inr (Or.inr ⟨rfl, by omega⟩))
    · cases hv

/-- The guarded child of each code arm is exactly the specification
move applied to the popped configuration. -/
theorem child_apply {w h : ℕ} (hw : 0 < w) (hh : 0 < h) {init : List ℤ}
    (hinit : init.Perm (intRange (h * w))) {A : State} (hA : WFState w init A)
    (char : String) (dx dy : ℤ)
    (harm :
      (char = "U" ∧ dx = 0 ∧ dy = 1 ∧
        (from_index ((A.flat.indexOf 0 : ℕ) : ℤ) w).2 < (h : ℤ) - 1) ∨
      (char = "D" ∧ dx = 0 ∧ dy = -1 ∧ (from_index ((A.flat.indexOf 0 : ℕ) : ℤ) w).2 > 0) ∨
      (char = "L" ∧ dx = 1 ∧ dy = 0 ∧
        (from_index ((A.flat.indexOf 0 : ℕ) : ℤ) w).1 < (w : ℤ) - 1) ∨
      (char = "R" ∧ dx = -1 ∧ dy = 0 ∧ (from_index ((A.flat.indexOf 0 : ℕ) : ℤ) w).1 > 0)) :
    applyMove w h A.flat char = some (State.move (clone A) char
      (from_index ((A.flat.indexOf 0 : ℕ) : ℤ) w).1
      (from_index ((A.flat.indexOf 0 : ℕ) : ℤ) w).2 dx dy w).flat := by
  have hAperm : A.flat.Perm (intRange (h * w)) := hA.1.trans hinit
  obtain ⟨hblt, hbget, hfi, hxw, hyh, hidx⟩ := blank_coords hw hh hAperm
  obtain ⟨hlenA, hndA, _⟩ := perm_intRange_facts hAperm
  set b := A.flat.indexOf 0 with hbdef
  have hx1 : (from_index ((b : ℕ) : ℤ) w).1 = ((b % w : ℕ) : ℤ) := by rw [hfi]
  have hy1 : (from_index ((b : ℕ) : ℤ) w).2 = ((b / w : ℕ) : ℤ) := by rw [hfi]
  rw [hx1, hy1] at harm ⊢
  have hbnd : (0 : ℤ) ≤ ((b % w : ℕ) : ℤ) ∧ ((b % w : ℕ) : ℤ) < w ∧
      (0 : ℤ) ≤ ((b / w : ℕ) : ℤ) ∧ ((b / w : ℕ) : ℤ) < h := by
    refine ⟨by positivity, by exact_mod_cast hxw, by positivity, by exact_mod_cast hyh⟩
  have hclone : (clone A).flat = A.flat := rfl
  have hcwf : (clone A).scoreCache = fullScore (clone A).flat w := hA.2.1
  have hblank2 : (clone A).flat.getD (index ((b % w : ℕ) : ℤ) ((b / w : ℕ) : ℤ) w).toNat 0
      = 0 := by
    rw [hclone, hidx]
    simpa using hbget
  have hlen2 : (clone A).flat.length = w * h := by
    rw [hclone, hlenA]
    ring
  have harm2 :
      (dx = 0 ∧ dy = 1 ∧ ((b / w : ℕ) : ℤ) < (h : ℤ) - 1) ∨
      (dx = 0 ∧ dy = -1 ∧ ((b / w : ℕ) : ℤ) > 0) ∨
      (dx = 1 ∧ dy = 0 ∧ ((b % w : ℕ) : ℤ) < (w : ℤ) - 1) ∨
      (dx = -1 ∧ dy = 0 ∧ ((b % w : ℕ) : ℤ) > 0) := by
    rcases harm with ⟨_, hd1, hd2, hg⟩ | ⟨_, hd1, hd2, hg⟩ | ⟨_, hd1, hd2, hg⟩ |
      ⟨_, hd1, hd2, hg⟩
    · exact Or.inl ⟨hd1, hd2, hg⟩
    · exact Or.inr (Or.inl ⟨hd1, hd2, hg⟩)
    · exact Or.inr (Or.inr (Or.inl ⟨hd1, hd2, hg⟩))
    · exact Or.inr (Or.inr (Or.inr ⟨hd1, hd2, hg⟩))
  have hmove : ¬(dx = 0 ∧ dy = 0) := by
    rcases harm2 with ⟨h1, h2, _⟩ | ⟨h1, h2, _⟩ | ⟨h1, h2, _⟩ | ⟨h1, h2, _⟩ <;> omega
  have hbounds : (0 : ℤ) ≤ ((b % w : ℕ) : ℤ) + dx ∧ ((b % w : ℕ) : ℤ) + dx < w ∧
      (0 : ℤ) ≤ ((b / w : ℕ) : ℤ) + dy ∧ ((b / w : ℕ) : ℤ) + dy < h := by
    rcases harm2 with ⟨h1, h2, h3⟩ | ⟨h1, h2, h3⟩ | ⟨h1, h2, h3⟩ | ⟨h1, h2, h3⟩ <;>
      (subst h1; subst h2) <;> omega
  obtain ⟨hflat, _, _, _, _⟩ :=
    move_spec (clone A) char w h ((b % w : ℕ) : ℤ) ((b / w : ℕ) : ℤ) dx dy
      hbnd.1 hbnd.2.1 hbnd.2.2.1 hbnd.2.2.2 hbounds.1 hbounds.2.1 hbounds.2.2.1 hbounds.2.2.2
      hmove hlen2 (by rw [hclone]; exact hndA) hblank2 hcwf
  rw [hflat, hclone]
  have hdm := Nat.div_add_mod b w
  have hbN : (index ((b % w : ℕ) : ℤ) ((b / w : ℕ) : ℤ) w).toNat = b := by
    rw [hidx]
    omega
  rcases harm with ⟨hc, hd1, hd2, hg⟩ | ⟨hc, hd1, hd2, hg⟩ | ⟨hc, hd1, hd2, hg⟩ |
    ⟨hc, hd1, hd2, hg⟩ <;> subst hc <;> subst hd1 <;> subst hd2
  · have hiN : (index (((b % w : ℕ) : ℤ) + 0) (((b / w : ℕ) : ℤ) + 1) w).toNat = b + w := by
      unfold index at hidx ⊢
      have hr : ((((b / w : ℕ) : ℤ) + 1)) * w = ((b / w : ℕ) : ℤ) * w + w := by ring
      rw [hr]
      omega
    have hguardN : b / w + 1 < h := by omega
    rw [applyMove_U, ← hbdef, if_pos hguardN, hbN, hiN]
  · have hwb : 0 < b / w := by omega
    have hble : w ≤ b := by
      by_contra hlt
      push_neg at hlt
      rw [Nat.div_eq_of_lt hlt] at hwb
      omega
    have hiN : (index (((b % w : ℕ) : ℤ) + 0) (((b / w : ℕ) : ℤ) + -1) w).toNat = b - w := by
      unfold index at hidx ⊢
      have hr : ((((b / w : ℕ) : ℤ) + -1)) * w = ((b / w : ℕ) : ℤ) * w - w := by ring
      rw [hr]
      omega
    rw [applyMove_D, ← hbdef, if_pos hwb, hbN, hiN]
  · have hiN : (index (((b % w : ℕ) : ℤ) + 1) (((b / w : ℕ) : ℤ) + 0) w).toNat = b + 1 := by
      unfold index at hidx ⊢
      have hr : ((((b / w : ℕ) : ℤ) + 0)) * w = ((b / w : ℕ) : ℤ) * w := by ring
      rw [hr]
      omega
    have hguardN : b % w + 1 < w := by omega
    rw [applyMove_L, ← hbdef, if_pos hguardN, hbN, hiN]
  · have hguardN : 0 < b % w := by omega
    have hiN : (index (((b % w : ℕ) : ℤ) + -1) (((b / w : ℕ) : ℤ) + 0) w).toNat = b - 1 := by
      unfold index at hidx ⊢
      have hr : ((((b / w : ℕ) : ℤ) + 0)) * w = ((b / w : ℕ) : ℤ) * w := by ring
      rw [hr]
      omega
    rw [applyMove_R, ← hbdef, if_pos hguardN, hbN, hiN]

/-- Expansion preserves the search invariant. -/
theorem ainv_expand {w h : ℕ} (hw : 0 < w) (hh : 0 < h) {init : List ℤ}
    (hinit : init.Perm (intRange (h * w))) (hinj : HashInjective (h * w))
    {c : SearchCfg} (ha : AInv w h init c) {e : Entry} {rest : List Entry}
    (hpop : popMin c.opn = some (e, rest))
    (hcont : pyContains c.closed (some e.st) = false)
    (hsc : (scoreAndCache e.st w).1 ≠ 0) :
    AInv w h init (expandCfg w h c.closed c.ctr e rest) := by
  have hemem := (popMin_spec _ _ _ hpop).1
  have hoperm := (popMin_spec _ _ _ hpop).2.1
  have hrest_sub : ∀ x ∈ rest, x ∈ c.opn :=
    fun x hx => hoperm.mem_iff.mpr (List.mem_cons_of_mem _ hx)
  have hewf : WFState w init e.st := ha.openWF e hemem
  have hsac : scoreAndCache e.st w = (fullScore e.st.flat w, e.st) :=
    scoreAndCache_of_cached w hewf.2.1
  have hA2 : (scoreAndCache e.st w).2 = e.st := by rw [hsac]
  have hlen : init.length = h * w := (perm_intRange_facts hinit).1
  set closed2 := c.closed ++ [(e.st, e.prev)] with hcl2def
  set L := c.closed.length with hLdef
  have hclosed2 : (expandCfg w h c.closed c.ctr e rest).closed = closed2 := by
    rw [expandCfg_closed, hA2]
  have hlen2 : closed2.length = L + 1 := by
    rw [hcl2def]
    simp
  have hLlt : L < closed2.length := by omega
  have hanyf : ∀ kv ∈ c.closed, ¬(hashValue kv.1 == optHash (some e.st)) = true := by
    have hc := hcont
    unfold pyContains at hc
    rw [List.any_eq_false] at hc
    exact hc
  have hndC2 : (closed2.map (fun kv => hashValue kv.1)).Nodup := by
    rw [hcl2def, List.map_append]
    refine List.Nodup.append ha.hashNodup (by simp) ?_
    intro a ha1 ha2
    simp only [List.map_cons, List.map_nil, List.mem_singleton] at ha2
    subst ha2
    obtain ⟨kv, hkv, hae⟩ := List.mem_map.mp ha1
    have hne := hanyf kv hkv
    rw [show optHash (some e.st) = hashValue e.st from rfl] at hne
    exact hne (by rw [hae]; exact beq_self_eq_true _)
  have hgetL : ∀ {i : ℕ} (hi : i < L) (hi2 : i < closed2.length),
      closed2.get ⟨i, hi2⟩ = c.closed.get ⟨i, hi⟩ := by
    intro i hi hi2
    exact get_append_left hi _
  have hgetL2 : ∀ (hi2 : L < closed2.length), closed2.get ⟨L, hi2⟩ = (e.st, e.prev) := by
    intro hi2
    exact get_concat _
  obtain ⟨j0, hj0, hprev0, hmv0, hg0, hf0⟩ := ha.openLink e hemem
  have hj0L : j0 < L := hj0
  have hchain2 : ∀ i, (hi : i < closed2.length) → ChainLink w h closed2 i hi := by
    intro i hi
    by_cases hiL : i < L
    · have hold := ha.chain i hiL
      unfold ChainLink at hold ⊢
      rcases hold with ⟨h1, h2⟩ | ⟨j, hj, h1, h2⟩
      · exact Or.inl ⟨by rw [hgetL hiL hi]; exact h1, h2⟩
      · refine Or.inr ⟨j, hj, ?_, ?_⟩
        · rw [hgetL hiL hi, hgetL (hj.trans hiL) _]
          exact h1
        · rw [hgetL hiL hi, hgetL (hj.trans hiL) _]
          exact h2
    · have hiL2 : i = L := by omega
      subst hiL2
      refine Or.inr ⟨j0, hj0L, ?_, ?_⟩
      · rw [hgetL2 hi, hgetL hj0L _]
        exact hprev0
      · rw [hgetL2 hi, hgetL hj0L _]
        exact hmv0
  have hdescOld : Desc c.closed := desc_of_chain ha.hashNodup ha.chain
  have hdesc2 : Desc closed2 := desc_of_chain hndC2 hchain2
  have hcwOld : ∀ {i : ℕ}, i < L → chainWord closed2 i = chainWord c.closed i := by
    intro i hi
    rw [hcl2def]
    exact chainWord_append hdescOld hi
  have hget2L : (closed2.get ⟨L, hLlt⟩).2 = some (closed2.get ⟨j0, hj0L.trans hLlt⟩).1 := by
    rw [hgetL2 hLlt, hgetL hj0L _]
    exact hprev0
  have hcwL : chainWord closed2 L = chainWord c.closed j0 ++ [e.st.moveChar] := by
    have hlink := chainWord_link hndC2 hdesc2 hLlt hj0L hget2L
    rw [hgetL2 hLlt] at hlink
    rw [hlink, hcwOld hj0L]
  have hreachL : applyWord w h init (chainWord closed2 L) = some e.st.flat := by
    rw [hcwL, applyWord_append, (ha.minWord j0 hj0).1.1]
    show applyWord w h (c.closed.get ⟨j0, hj0⟩).1.flat [e.st.moveChar] = some e.st.flat
    rw [applyWord_singleton, hmv0]
  have hnotclosed : ∀ i, (hi : i < L) → (c.closed.get ⟨i, hi⟩).1.flat ≠ e.st.flat := by
    have hcf := (contains_false_flat hinj hinit ha.closedWF hewf.1 hewf.2.2).mp hcont
    intro i hi heq
    exact hcf _ (List.get_mem c.closed i hi) heq
  have hminL : ∀ ws, applyWord w h init ws = some e.st.flat → e.g ≤ (ws.length : ℤ) :=
    popped_g_min hw hh hinit ha hpop hnotclosed
  have hcwLlen : ((chainWord closed2 L).length : ℤ) = e.g := by
    rw [hcwL]
    simp only [List.length_append, List.length_singleton]
    push_cast
    omega
  have hcfg : expandCfg w h c.closed c.ctr e rest
      = ⟨(expandCfg w h c.closed c.ctr e rest).opn, closed2,
          (expandCfg w h c.closed c.ctr e rest).ctr⟩ := by
    rw [← hclosed2]
  set opn2 := (expandCfg w h c.closed c.ctr e rest).opn with hopn2def
  have hmembers : ∀ {en : Entry}, en ∈ opn2 → en ∈ rest ∨
      ∃ (char : String) (dx dy : ℤ) (i2 : ℤ),
      ((char = "U" ∧ dx = 0 ∧ dy = 1 ∧
          (from_index ((e.st.flat.indexOf 0 : ℕ) : ℤ) w).2 < (h : ℤ) - 1) ∨
       (char = "D" ∧ dx = 0 ∧ dy = -1 ∧
          (from_index ((e.st.flat.indexOf 0 : ℕ) : ℤ) w).2 > 0) ∨
       (char = "L" ∧ dx = 1 ∧ dy = 0 ∧
          (from_index ((e.st.flat.indexOf 0 : ℕ) : ℤ) w).1 < (w : ℤ) - 1) ∨
       (char = "R" ∧ dx = -1 ∧ dy = 0 ∧
          (from_index ((e.st.flat.indexOf 0 : ℕ) : ℤ) w).1 > 0)) ∧
      pyContains c.closed (some (State.move (clone e.st) char
        (from_index ((e.st.flat.indexOf 0 : ℕ) : ℤ) w).1
        (from_index ((e.st.flat.indexOf 0 : ℕ) : ℤ) w).2 dx dy w)) = false ∧
      en = info_for (State.move (clone e.st) char
        (from_index ((e.st.flat.indexOf 0 : ℕ) : ℤ) w).1
        (from_index ((e.st.flat.indexOf 0 : ℕ) : ℤ) w).2 dx dy w)
        (some e.st) w e.g i2 := by
    intro en hmem
    have hm := expand_members hmem
    rw [hA2] at hm
    exact hm
  have hchild_arm : ∀ (char : String) (dx dy : ℤ),
      ((char = "U" ∧ dx = 0 ∧ dy = 1 ∧
          (from_index ((e.st.flat.indexOf 0 : ℕ) : ℤ) w).2 < (h : ℤ) - 1) ∨
       (char = "D" ∧ dx = 0 ∧ dy = -1 ∧
          (from_index ((e.st.flat.indexOf 0 : ℕ) : ℤ) w).2 > 0) ∨
       (char = "L" ∧ dx = 1 ∧ dy = 0 ∧
          (from_index ((e.st.flat.indexOf 0 : ℕ) : ℤ) w).1 < (w : ℤ) - 1) ∨
       (char = "R" ∧ dx = -1 ∧ dy = 0 ∧
          (from_index ((e.st.flat.indexOf 0 : ℕ) : ℤ) w).1 > 0)) →
      ((dx = 0 ∧ dy = 1 ∧ (from_index ((e.st.flat.indexOf 0 : ℕ) : ℤ) w).2 < (h : ℤ) - 1) ∨
       (dx = 0 ∧ dy = -1 ∧ (from_index ((e.st.flat.indexOf 0 : ℕ) : ℤ) w).2 > 0) ∨
       (dx = 1 ∧ dy = 0 ∧ (from_index ((e.st.flat.indexOf 0 : ℕ) : ℤ) w).1 < (w : ℤ) - 1) ∨
       (dx = -1 ∧ dy = 0 ∧ (from_index ((e.st.flat.indexOf 0 : ℕ) : ℤ) w).1 > 0)) := by
    intro char dx dy harm
    rcases harm with ⟨_, h1, h2, h3⟩ | ⟨_, h1, h2, h3⟩ | ⟨_, h1, h2, h3⟩ | ⟨_, h1, h2, h3⟩
    · exact Or.inl ⟨h1, h2, h3⟩
    · exact Or.inr (Or.inl ⟨h1, h2, h3⟩)
    · exact Or.inr (Or.inr (Or.inl ⟨h1, h2, h3⟩))
    · exact Or.inr (Or.inr (Or.inr ⟨h1, h2, h3⟩))
  rw [hcfg]
  refine ⟨?_, ?_, ?_, ?_, ?_, ?_, ?_, ?_, ?_⟩
  · -- closedWF
    intro kv hkv
    rcases List.mem_append.mp hkv with hold | hnew
    · exact ha.closedWF kv hold
    · rw [List.mem_singleton] at hnew
      subst hnew
      exact hewf
  · -- openWF
    intro en hen
    rcases hmembers hen with hr | ⟨char, dx, dy, i2, harm, hcf, heq⟩
    · exact ha.openWF en (hrest_sub en hr)
    · subst heq
      have hcwf := child_wf hw hh hinit hewf char dx dy (hchild_arm char dx dy harm)
      rw [info_for_of_wf hcwf]
      exact hcwf
  · -- closedInit
    obtain ⟨k, hk, hkf⟩ := ha.closedInit
    refine ⟨k, ?_, hkf⟩
    show closed2.head? = some (k, none)
    rw [hcl2def]
    cases hc : c.closed with
    | nil =>
      rw [hc] at hk
      cases hk
    | cons a t =>
      rw [hc] at hk
      injection hk with hk2
      subst hk2
      rfl
  · -- hashNodup
    exact hndC2
  · -- notGoal
    intro kv hkv
    rcases List.mem_append.mp hkv with hold | hnew
    · exact ha.notGoal kv hold
    · rw [List.mem_singleton] at hnew
      subst hnew
      intro hg
      rw [hsac] at hsc
      have hz : fullScore e.st.flat w = 0 := by
        rw [hg, hlen]
        exact fullScore_goalFlat (h * w) w hw (Nat.mul_pos hh hw)
      exact hsc hz
  · -- chain
    exact hchain2
  · -- minWord
    intro i hi
    have hi2 : i < L + 1 := by
      rw [← hlen2]
      exact hi
    by_cases hiL : i < L
    · have hold := ha.minWord i hiL
      rw [hgetL hiL hi, hcwOld hiL]
      exact hold
    · have hiL2 : i = L := by omega
      subst hiL2
      rw [hgetL2 hi]
      refine ⟨⟨hreachL, ?_⟩, ?_⟩
      · intro ws hws
        have hle := hminL ws hws
        have : ((chainWord closed2 L).length : ℤ) ≤ (ws.length : ℤ) := by omega
        exact_mod_cast this
      · have hj0len := (ha.minWord j0 hj0).2
        have hcl : (chainWord closed2 L).length = (chainWord c.closed j0).length + 1 := by
          rw [hcwL]
          simp
        show (chainWord closed2 L).length <= L
        omega
  · -- openLink
    intro en hen
    rcases hmembers hen with hr | ⟨char, dx, dy, i2, harm, hcf, heq⟩
    · obtain ⟨j, hj, hp1, hp2, hp3, hp4⟩ := ha.openLink en (hrest_sub en hr)
      have hjL : j < L := hj
      refine ⟨j, hjL.trans hLlt, ?_, ?_, ?_, hp4⟩
      · rw [hgetL hjL _]
        exact hp1
      · rw [hgetL hjL _]
        exact hp2
      · rw [hcwOld hjL]
        exact hp3
    · have hcwf := child_wf hw hh hinit hewf char dx dy (hchild_arm char dx dy harm)
      have happly := child_apply hw hh hinit hewf char dx dy harm
      rw [info_for_of_wf hcwf] at heq
      subst heq
      refine ⟨L, hLlt, ?_, ?_, ?_, ?_⟩
      · rw [hgetL2 hLlt]
      · rw [hgetL2 hLlt]
        exact happly
      · have hc2 : ((chainWord closed2 L).length : ℤ) = e.g := hcwLlen
        show e.g + 1 = ((chainWord closed2 L).length : ℤ) + 1
        omega
      · rfl
  · -- succ
    intro i hi mc t hmvt
    have hi2 : i < L + 1 := by
      rw [← hlen2]
      exact hi
    by_cases hiL : i < L
    · rw [hgetL hiL hi] at hmvt
      rcases ha.succ i hiL mc t hmvt with ⟨j, hj, hjeq⟩ | ⟨e2, he2mem, he2flat, he2g⟩
      · refine Or.inl ⟨j, (show j < closed2.length by omega), ?_⟩
        rw [hgetL hj _]
        exact hjeq
      · rcases List.mem_cons.mp (hoperm.mem_iff.mp he2mem) with he2e | he2rest
        · subst he2e
          refine Or.inl ⟨L, hLlt, ?_⟩
          rw [hgetL2 hLlt]
          exact he2flat
        · refine Or.inr ⟨e2, expand_rest_mem he2rest, he2flat, ?_⟩
          rw [hcwOld hiL]
          exact he2g
    · have hiL2 : i = L := by omega
      subst hiL2
      rw [hgetL2 hi] at hmvt
      have hmvt2 : applyMove w h e.st.flat mc = some t := hmvt
      have hfinish : ∀ (char : String) (dx dy : ℤ),
          ((char = "U" ∧ dx = 0 ∧ dy = 1 ∧
              (from_index ((e.st.flat.indexOf 0 : ℕ) : ℤ) w).2 < (h : ℤ) - 1) ∨
           (char = "D" ∧ dx = 0 ∧ dy = -1 ∧
              (from_index ((e.st.flat.indexOf 0 : ℕ) : ℤ) w).2 > 0) ∨
           (char = "L" ∧ dx = 1 ∧ dy = 0 ∧
              (from_index ((e.st.flat.indexOf 0 : ℕ) : ℤ) w).1 < (w : ℤ) - 1) ∨
           (char = "R" ∧ dx = -1 ∧ dy = 0 ∧
              (from_index ((e.st.flat.indexOf 0 : ℕ) : ℤ) w).1 > 0)) →
          mc = char →
          (∃ j, ∃ hj : j < closed2.length, (closed2.get ⟨j, hj⟩).1.flat = t) ∨
          (∃ en ∈ opn2, en.st.flat = t ∧ en.g ≤ ((chainWord closed2 L).length : ℤ) + 1) := by
        intro char dx dy harm hmcc
        subst hmcc
        have hcwf := child_wf hw hh hinit hewf mc dx dy (hchild_arm mc dx dy harm)
        have happly := child_apply hw hh hinit hewf mc dx dy harm
        have hteq : (State.move (clone e.st) mc
            (from_index ((e.st.flat.indexOf 0 : ℕ) : ℤ) w).1
            (from_index ((e.st.flat.indexOf 0 : ℕ) : ℤ) w).2 dx dy w).flat = t := by
          rw [hmvt2] at happly
          injection happly with h2
          exact h2.symm
        by_cases hcc : pyContains c.closed (some (State.move (clone e.st) mc
            (from_index ((e.st.flat.indexOf 0 : ℕ) : ℤ) w).1
            (from_index ((e.st.flat.indexOf 0 : ℕ) : ℤ) w).2 dx dy w)) = true
        · obtain ⟨kv, hkv, hkvf⟩ :=
            (contains_iff_flat hinj hinit ha.closedWF hcwf.1 hcwf.2.2).mp hcc
          obtain ⟨⟨i0, hi0⟩, hgeti0⟩ := List.mem_iff_get.mp hkv
          refine Or.inl ⟨i0, (show i0 < closed2.length by omega), ?_⟩
          rw [hgetL (show i0 < L from hi0) _, hgeti0, hkvf, hteq]
        · have hccf : pyContains c.closed (some (State.move (clone e.st) mc
              (from_index ((e.st.flat.indexOf 0 : ℕ) : ℤ) w).1
              (from_index ((e.st.flat.indexOf 0 : ℕ) : ℤ) w).2 dx dy w)) = false := by
            cases hk : pyContains c.closed (some (State.move (clone e.st) mc
              (from_index ((e.st.flat.indexOf 0 : ℕ) : ℤ) w).1
              (from_index ((e.st.flat.indexOf 0 : ℕ) : ℤ) w).2 dx dy w))
            · rfl
            · exact absurd hk hcc
          have harm_sac :
              (mc = "U" ∧ dx = 0 ∧ dy = 1 ∧
                (from_index (((scoreAndCache e.st w).2.flat.indexOf 0 : ℕ) : ℤ) w).2
                  < (h : ℤ) - 1) ∨
              (mc = "D" ∧ dx = 0 ∧ dy = -1 ∧
                (from_index (((scoreAndCache e.st w).2.flat.indexOf 0 : ℕ) : ℤ) w).2 > 0) ∨
              (mc = "L" ∧ dx = 1 ∧ dy = 0 ∧
                (from_index (((scoreAndCache e.st w).2.flat.indexOf 0 : ℕ) : ℤ) w).1
                  < (w : ℤ) - 1) ∨
              (mc = "R" ∧ dx = -1 ∧ dy = 0 ∧
                (from_index (((scoreAndCache e.st w).2.flat.indexOf 0 : ℕ) : ℤ) w).1 > 0) := by
            rw [hA2]
            exact harm
          have hcf_sac : pyContains c.closed (some (State.move
              (clone (scoreAndCache e.st w).2) mc
              (from_index (((scoreAndCache e.st w).2.flat.indexOf 0 : ℕ) : ℤ) w).1
              (from_index (((scoreAndCache e.st w).2.flat.indexOf 0 : ℕ) : ℤ) w).2 dx dy w))
              = false := by
            rw [hA2]
            exact hccf
          obtain ⟨i2, hpush⟩ := expand_covers mc dx dy harm_sac hcf_sac
          rw [hA2] at hpush
          refine Or.inr ⟨_, hpush, ?_, ?_⟩
          · rw [info_for_of_wf hcwf]
            exact hteq
          · rw [info_for_of_wf hcwf]
            show e.g + 1 ≤ ((chainWord closed2 L).length : ℤ) + 1
            omega
      rcases applyMove_arm hw hh hinit hewf hmvt2 with ⟨hcu, hgu⟩ | ⟨hcu, hgu⟩ |
        ⟨hcu, hgu⟩ | ⟨hcu, hgu⟩
      · exact hfinish "U" 0 1 (Or.inl ⟨rfl, rfl, rfl, hgu⟩) hcu
      · exact hfinish "D" 0 (-1) (Or.inr (Or.inl ⟨rfl, rfl, rfl, hgu⟩)) hcu
      · exact hfinish "L" 1 0 (Or.inr (Or.inr (Or.inl ⟨rfl, rfl, rfl, hgu⟩))) hcu
      · exact hfinish "R" (-1) 0 (Or.inr (Or.inr (Or.inr ⟨rfl, rfl, rfl, hgu⟩))) hcu

/-- The first loop iteration of an unsolved valid puzzle expands the
seed and establishes the search invariant. -/
theorem ainv_first (pd : List (List ℤ)) (hval : ValidPuzzle pd)
    (hs0 : fullScore pd.flatten (widthOf pd) ≠ 0) :
    stepFn (widthOf pd) pd.length (initCfg pd)
      = .cont (expandCfg (widthOf pd) pd.length [] 0
          ⟨0, 0, 0, (scoreAndCache (make_state pd) (widthOf pd)).2, none⟩ []) ∧
    AInv (widthOf pd) pd.length pd.flatten
      (expandCfg (widthOf pd) pd.length [] 0
        ⟨0, 0, 0, (scoreAndCache (make_state pd) (widthOf pd)).2, none⟩ []) := by
  obtain ⟨hne, hw, hrows, hperm⟩ := hval
  have hh : 0 < pd.length := List.length_pos_of_ne_nil hne
  set w := widthOf pd with hwdef
  set h := pd.length with hhdef
  set init := pd.flatten with hinitdef
  set S0 := (scoreAndCache (make_state pd) w).2 with hS0def
  have hS0flat : S0.flat = init := by
    rw [hS0def, scoreAndCache_make_state]
  have hS0cache : S0.scoreCache = fullScore init w := by
    rw [hS0def, scoreAndCache_make_state]
  have hS0hash : S0.hashCache = 0 := by
    rw [hS0def, scoreAndCache_make_state]
  have hS0wf : WFState w init S0 := by
    refine ⟨by rw [hS0flat], ?_, Or.inl hS0hash⟩
    rw [hS0cache, hS0flat]
  have hsacS0 : scoreAndCache S0 w = (fullScore S0.flat w, S0) :=
    scoreAndCache_of_cached w hS0wf.2.1
  have hsc1 : (scoreAndCache S0 w).1 = fullScore init w := by
    rw [hsacS0, hS0flat]
  have hscne : ¬((scoreAndCache S0 w).1 = 0) := by
    rw [hsc1]
    exact hs0
  set E0 : Entry := ⟨0, 0, 0, S0, none⟩ with hE0def
  have hstep : stepFn w h (initCfg pd) = .cont (expandCfg w h [] 0 E0 []) := by
    unfold stepFn
    rw [show popMin (initCfg pd).opn = some (E0, []) from rfl]
    dsimp only
    rw [if_neg (show ¬(pyContains (initCfg pd).closed (some E0.st) = true) by
      rw [show pyContains (initCfg pd).closed (some E0.st) = false from rfl]
      simp)]
    rw [if_neg hscne]
    rfl
  refine ⟨hstep, ?_⟩
  have hA2 : (scoreAndCache E0.st w).2 = S0 := by
    rw [hE0def]
    exact congrArg Prod.snd hsacS0
  set c1 := expandCfg w h [] 0 E0 [] with hc1def
  have hclosed2 : c1.closed = [(S0, none)] := by
    rw [hc1def, expandCfg_closed, hA2]
    rfl
  have hcfg : c1 = ⟨c1.opn, [(S0, none)], c1.ctr⟩ := by
    rw [← hclosed2]
  have hget0 : ∀ (hi : (0 : ℕ) < ([(S0, none)] : List (State × Option State)).length),
      ([(S0, none)] : List (State × Option State)).get ⟨0, hi⟩ = (S0, none) := by
    intro hi
    rfl
  have hcw0 : chainWord [(S0, none)] 0 = [] := chainWord_none (by simp) rfl
  have hmembers : ∀ {en : Entry}, en ∈ c1.opn →
      ∃ (char : String) (dx dy : ℤ) (i2 : ℤ),
      ((char = "U" ∧ dx = 0 ∧ dy = 1 ∧
          (from_index ((S0.flat.indexOf 0 : ℕ) : ℤ) w).2 < (h : ℤ) - 1) ∨
       (char = "D" ∧ dx = 0 ∧ dy = -1 ∧
          (from_index ((S0.flat.indexOf 0 : ℕ) : ℤ) w).2 > 0) ∨
       (char = "L" ∧ dx = 1 ∧ dy = 0 ∧
          (from_index ((S0.flat.indexOf 0 : ℕ) : ℤ) w).1 < (w : ℤ) - 1) ∨
       (char = "R" ∧ dx = -1 ∧ dy = 0 ∧
          (from_index ((S0.flat.indexOf 0 : ℕ) : ℤ) w).1 > 0)) ∧
      en = info_for (State.move (clone S0) char
        (from_index ((S0.flat.indexOf 0 : ℕ) : ℤ) w).1
        (from_index ((S0.flat.indexOf 0 : ℕ) : ℤ) w).2 dx dy w)
        (some S0) w E0.g i2 := by
    intro en hmem
    have hm := expand_members (hmem : en ∈ (expandCfg w h [] 0 E0 []).opn)
    rw [hA2] at hm
    rcases hm with hr | ⟨char, dx, dy, i2, harm, hcf, heq⟩
    · exact absurd hr (List.not_mem_nil en)
    · exact ⟨char, dx, dy, i2, harm, heq⟩
  have hchild_arm : ∀ (char : String) (dx dy : ℤ),
      ((char = "U" ∧ dx = 0 ∧ dy = 1 ∧
          (from_index ((S0.flat.indexOf 0 : ℕ) : ℤ) w).2 < (h : ℤ) - 1) ∨
       (char = "D" ∧ dx = 0 ∧ dy = -1 ∧
          (from_index ((S0.flat.indexOf 0 : ℕ) : ℤ) w).2 > 0) ∨
       (char = "L" ∧ dx = 1 ∧ dy = 0 ∧
          (from_index ((S0.flat.indexOf 0 : ℕ) : ℤ) w).1 < (w : ℤ) - 1) ∨
       (char = "R" ∧ dx = -1 ∧ dy = 0 ∧
          (from_index ((S0.flat.indexOf 0 : ℕ) : ℤ) w).1 > 0)) →
      ((dx = 0 ∧ dy = 1 ∧ (from_index ((S0.flat.indexOf 0 : ℕ) : ℤ) w).2 < (h : ℤ) - 1) ∨
       (dx = 0 ∧ dy = -1 ∧ (from_index ((S0.flat.indexOf 0 : ℕ) : ℤ) w).2 > 0) ∨
       (dx = 1 ∧ dy = 0 ∧ (from_index ((S0.flat.indexOf 0 : ℕ) : ℤ) w).1 < (w : ℤ) - 1) ∨
       (dx = -1 ∧ dy = 0 ∧ (from_index ((S0.flat.indexOf 0 : ℕ) : ℤ) w).1 > 0)) := by
    intro char dx dy harm
    rcases harm with ⟨_, h1, h2, h3⟩ | ⟨_, h1, h2, h3⟩ | ⟨_, h1, h2, h3⟩ | ⟨_, h1, h2, h3⟩
    · exact Or.inl ⟨h1, h2, h3⟩
    · exact Or.inr (Or.inl ⟨h1, h2, h3⟩)
    · exact Or.inr (Or.inr (Or.inl ⟨h1, h2, h3⟩))
    · exact Or.inr (Or.inr (Or.inr ⟨h1, h2, h3⟩))
  have hnotgoal : S0.flat ≠ goalFlat init.length := by
    intro hg
    have hleninit : init.length = h * w := by
      rw [(hperm.length_eq), length_intRange]
    have hz : fullScore init w = 0 := by
      rw [← hS0flat, hg, hleninit]
      exact fullScore_goalFlat (h * w) w hw (Nat.mul_pos hh hw)
    exact hs0 hz
  rw [hcfg]
  refine ⟨?_, ?_, ?_, ?_, ?_, ?_, ?_, ?_, ?_⟩
  · intro kv hkv
    rw [List.mem_singleton] at hkv
    subst hkv
    exact hS0wf
  · intro en hen
    obtain ⟨char, dx, dy, i2, harm, heq⟩ := hmembers hen
    subst heq
    have hcwf := child_wf hw hh hperm hS0wf char dx dy (hchild_arm char dx dy harm)
    rw [info_for_of_wf hcwf]
    exact hcwf
  · exact ⟨S0, rfl, hS0flat⟩
  · simp
  · intro kv hkv
    rw [List.mem_singleton] at hkv
    subst hkv
    exact hnotgoal
  · intro i hi
    have hi0 : i = 0 := by
      simp at hi
      omega
    subst hi0
    exact Or.inl ⟨rfl, rfl⟩
  · intro i hi
    have hi0 : i = 0 := by
      simp at hi
      omega
    subst hi0
    rw [hget0 hi, hcw0]
    refine ⟨⟨?_, ?_⟩, ?_⟩
    · show some init = some S0.flat
      rw [hS0flat]
    · intro ws hws
      simp
    · simp
  · intro en hen
    obtain ⟨char, dx, dy, i2, harm, heq⟩ := hmembers hen
    have hcwf := child_wf hw hh hperm hS0wf char dx dy (hchild_arm char dx dy harm)
    have happly := child_apply hw hh hperm hS0wf char dx dy harm
    rw [info_for_of_wf hcwf] at heq
    subst heq
    refine ⟨0, (by simp), ?_, ?_, ?_, ?_⟩
    · rw [hget0 _]
    · rw [hget0 _]
      exact happly
    · rw [hcw0]
      show E0.g + 1 = (0 : ℤ) + 1
      rw [hE0def]
    · rfl
  · intro i hi mc t hmvt
    have hi0 : i = 0 := by
      simp at hi
      omega
    subst hi0
    rw [hget0 hi] at hmvt
    have hmvt2 : applyMove w h S0.flat mc = some t := hmvt
    have hfinish : ∀ (char : String) (dx dy : ℤ),
        ((char = "U" ∧ dx = 0 ∧ dy = 1 ∧
            (from_index ((S0.flat.indexOf 0 : ℕ) : ℤ) w).2 < (h : ℤ) - 1) ∨
         (char = "D" ∧ dx = 0 ∧ dy = -1 ∧
            (from_index ((S0.flat.indexOf 0 : ℕ) : ℤ) w).2 > 0) ∨
         (char = "L" ∧ dx = 1 ∧ dy = 0 ∧
            (from_index ((S0.flat.indexOf 0 : ℕ) : ℤ) w).1 < (w : ℤ) - 1) ∨
         (char = "R" ∧ dx = -1 ∧ dy = 0 ∧
            (from_index ((S0.flat.indexOf 0 : ℕ) : ℤ) w).1 > 0)) →
        mc = char →
        (∃ j, ∃ hj : j < ([(S0, none)] : List (State × Option State)).length,
          (([(S0, none)] : List (State × Option State)).get ⟨j, hj⟩).1.flat = t) ∨
        (∃ en ∈ c1.opn, en.st.flat = t ∧
          en.g ≤ ((chainWord [(S0, none)] 0).length : ℤ) + 1) := by
      intro char dx dy harm hmcc
      subst hmcc
      have hcwf := child_wf hw hh hperm hS0wf mc dx dy (hchild_arm mc dx dy harm)
      have happly := child_apply hw hh hperm hS0wf mc dx dy harm
      have hteq : (State.move (clone S0) mc
          (from_index ((S0.flat.indexOf 0 : ℕ) : ℤ) w).1
          (from_index ((S0.flat.indexOf 0 : ℕ) : ℤ) w).2 dx dy w).flat = t := by
        rw [hmvt2] at happly
        injection happly with h2
        exact h2.symm
      have harm_sac :
          (mc = "U" ∧ dx = 0 ∧ dy = 1 ∧
            (from_index (((scoreAndCache E0.st w).2.flat.indexOf 0 : ℕ) : ℤ) w).2
              < (h : ℤ) - 1) ∨
          (mc = "D" ∧ dx = 0 ∧ dy = -1 ∧
            (from_index (((scoreAndCache E0.st w).2.flat.indexOf 0 : ℕ) : ℤ) w).2 > 0) ∨
          (mc = "L" ∧ dx = 1 ∧ dy = 0 ∧
            (from_index (((scoreAndCache E0.st w).2.flat.indexOf 0 : ℕ) : ℤ) w).1
              < (w : ℤ) - 1) ∨
          (mc = "R" ∧ dx = -1 ∧ dy = 0 ∧
            (from_index (((scoreAndCache E0.st w).2.flat.indexOf 0 : ℕ) : ℤ) w).1 > 0) := by
        rw [hA2]
        exact harm
      have hcf_sac : pyContains [] (some (State.move
          (clone (scoreAndCache E0.st w).2) mc
          (from_index (((scoreAndCache E0.st w).2.flat.indexOf 0 : ℕ) : ℤ) w).1
          (from_index (((scoreAndCache E0.st w).2.flat.indexOf 0 : ℕ) : ℤ) w).2 dx dy w))
          = false := rfl
      obtain ⟨i2, hpush⟩ := expand_covers mc dx dy harm_sac hcf_sac
      rw [hA2] at hpush
      refine Or.inr ⟨_, hpush, ?_, ?_⟩
      · rw [info_for_of_wf hcwf]
        exact hteq
      · rw [info_for_of_wf hcwf, hcw0]
        show E0.g + 1 ≤ (0 : ℤ) + 1
        rw [hE0def]
    rcases applyMove_arm hw hh hperm hS0wf hmvt2 with ⟨hcu, hgu⟩ | ⟨hcu, hgu⟩ |
      ⟨hcu, hgu⟩ | ⟨hcu, hgu⟩
    · exact hfinish "U" 0 1 (Or.inl ⟨rfl, rfl, rfl, hgu⟩) hcu
    · exact hfinish "D" 0 (-1) (Or.inr (Or.inl ⟨rfl, rfl, rfl, hgu⟩)) hcu
    · exact hfinish "L" 1 0 (Or.inr (Or.inr (Or.inl ⟨rfl, rfl, rfl, hgu⟩))) hcu
    · exact hfinish "R" (-1) 0 (Or.inr (Or.inr (Or.inr ⟨rfl, rfl, rfl, hgu⟩))) hcu

/-! ### Termination of the search loop -/

theorem tryMove_len {closed : List (State × Option State)} {active : State} {char : String}
    {x y dx dy : ℤ} {w : ℕ} {dist : ℤ} {acc : List Entry × ℤ} :
    (tryMove closed active char x y dx dy w dist acc).1.length ≤ acc.1.length + 1 := by
  unfold tryMove
  by_cases hc : pyContains closed (some (State.move (clone active) char x y dx dy w)) = true
  · rw [if_pos hc]
    omega
  · rw [if_neg hc]
    simp

theorem guard_len {g : Prop} [Decidable g] {closed : List (State × Option State)}
    {active : State} {char : String} {x y dx dy : ℤ} {w : ℕ} {dist : ℤ}
    {acc : List Entry × ℤ} :
    ((if g then tryMove closed active char x y dx dy w dist acc else acc)).1.length
      ≤ acc.1.length + 1 := by
  by_cases hg : g
  · rw [if_pos hg]
    exact tryMove_len
  · rw [if_neg hg]
    omega

theorem expand_opn_le {w h : ℕ} {closed : List (State × Option State)} {ctr : ℤ}
    {e : Entry} {rest : List Entry} :
    (expandCfg w h closed ctr e rest).opn.length ≤ rest.length + 4 := by
  unfold expandCfg
  dsimp only
  refine le_trans guard_len ?_
  refine le_trans (Nat.add_le_add_right guard_len 1) ?_
  refine le_trans (Nat.add_le_add_right (Nat.add_le_add_right guard_len 1) 1) ?_
  refine le_trans (Nat.add_le_add_right (Nat.add_le_add_right
    (Nat.add_le_add_right guard_len 1) 1) 1) ?_
  show rest.length + 1 + 1 + 1 + 1 ≤ rest.length + 4
  omega

/-- The closed list never exceeds the number of valid configurations. -/
theorem ainv_closed_le {w h : ℕ} {init : List ℤ} (hinit : init.Perm (intRange (h * w)))
    {c : SearchCfg} (ha : AInv w h init c) :
    c.closed.length ≤ Nat.factorial (h * w) := by
  have hmapeq : c.closed.map (fun kv => hashValue kv.1)
      = (c.closed.map (fun kv => kv.1.flat)).map pyTupleHash := by
    rw [List.map_map]
    exact List.map_congr_left (fun kv hkv => hashValue_of_cacheOK (ha.closedWF kv hkv).2.2)
  have hnd2 : ((c.closed.map (fun kv => kv.1.flat)).map pyTupleHash).Nodup := by
    rw [← hmapeq]
    exact ha.hashNodup
  have hndflat : (c.closed.map (fun kv => kv.1.flat)).Nodup := List.Nodup.of_map _ hnd2
  have hsub : c.closed.map (fun kv => kv.1.flat) ⊆ permsOf (h * w) := by
    intro x hx
    obtain ⟨kv, hkv, hxe⟩ := List.mem_map.mp hx
    rw [← hxe]
    exact List.mem_permutations'.mpr ((ha.closedWF kv hkv).1.trans hinit)
  have hle := (hndflat.subperm hsub).length_le
  rw [List.length_map] at hle
  have hplen : (permsOf (h * w)).length = Nat.factorial (h * w) := by
    unfold permsOf
    rw [← (List.permutations_perm_permutations' (intRange (h * w))).length_eq,
      List.length_permutations, length_intRange]
  rw [hplen] at hle
  exact hle

theorem loopFuel_mono {w h : ℕ} : ∀ (f f2 : ℕ) (c : SearchCfg)
    (r : Option (List String)), loopFuel w h f c = some r → f ≤ f2 →
    loopFuel w h f2 c = some r := by
  intro f
  induction f with
  | zero =>
    intro f2 c r hl
    simp [loopFuel] at hl
  | succ f ih =>
    intro f2 c r hl hle
    obtain ⟨f3, rfl⟩ : ∃ f3, f2 = f3 + 1 := ⟨f2 - 1, by omega⟩
    cases hst : stepFn w h c with
    | done r2 =>
      rw [loopFuel_succ_done f hst] at hl
      rw [loopFuel_succ_done f3 hst]
      exact hl
    | cont c2 =>
      rw [loopFuel_succ_cont f hst] at hl
      rw [loopFuel_succ_cont f3 hst]
      exact ih f3 c2 r hl (by omega)

/-- From any invariant-satisfying search state of a solvable instance,
the loop returns an optimal move word within the measure bound. -/
theorem ainv_run {w h : ℕ} (hw : 0 < w) (hh : 0 < h) {init : List ℤ}
    (hinit : init.Perm (intRange (h * w))) (hinj : HashInjective (h * w))
    (hnone : NoNoneHash (h * w))
    (hgoalword : ∃ wsg, applyWord w h init wsg = some (goalFlat (h * w))) :
    ∀ N c, AInv w h init c → measCfg (h * w) c ≤ N →
    ∃ ws, loopFuel w h (N + 1) c = some (some ws) ∧
      applyWord w h init ws = some (goalFlat (h * w)) ∧
      (∀ ws2, applyWord w h init ws2 = some (goalFlat (h * w)) → ws.length ≤ ws2.length) := by
  intro N
  induction N using Nat.strong_induction_on with
  | _ N ih =>
    intro c ha hmeas
    have hlen : init.length = h * w := (perm_intRange_facts hinit).1
    have hcl := ainv_closed_le hinit ha
    rcases stepFn_char w h c with ⟨hemp, hst⟩ | ⟨e, rest, hpop, hcont, hst⟩ |
      ⟨e, rest, hpop, hcont, hsc, hst⟩ | ⟨e, rest, hpop, hcont, hsc, hst⟩
    · obtain ⟨wsg, hwsg⟩ := hgoalword
      have hnc : ∀ i, (hi : i < c.closed.length) →
          (c.closed.get ⟨i, hi⟩).1.flat ≠ goalFlat (h * w) := by
        intro i hi heq
        exact ha.notGoal _ (List.get_mem c.closed i hi) (by rw [heq, hlen])
      obtain ⟨e2, he2, _⟩ := ainv_cover hw hh hinit ha wsg _ hwsg hnc
      rw [hemp] at he2
      exact absurd he2 (List.not_mem_nil e2)
    · have ha2 := ainv_skip hw hh hinit hinj ha hpop hcont
      have hlenopn : c.opn.length = rest.length + 1 := by
        have hpl := (popMin_spec _ _ _ hpop).2.1.length_eq
        simpa using hpl
      have hmold : measCfg (h * w) c = c.opn.length
          + 5 * (Nat.factorial (h * w) + 1 - c.closed.length) := rfl
      have hmnew : measCfg (h * w) ⟨rest, c.closed, c.ctr⟩ = rest.length
          + 5 * (Nat.factorial (h * w) + 1 - c.closed.length) := rfl
      have hlt : measCfg (h * w) ⟨rest, c.closed, c.ctr⟩ < N := by omega
      obtain ⟨ws, hloop, hreach, hmin⟩ :=
        ih (measCfg (h * w) ⟨rest, c.closed, c.ctr⟩) hlt ⟨rest, c.closed, c.ctr⟩ ha2 le_rfl
      refine ⟨ws, ?_, hreach, hmin⟩
      rw [loopFuel_succ_cont N hst]
      exact loopFuel_mono _ N _ _ hloop (by omega)
    · obtain ⟨ws, hgr, hreach, hmin⟩ := ainv_goal hw hh hinit hinj hnone ha hpop hsc
      refine ⟨ws, ?_, hreach, hmin⟩
      rw [loopFuel_succ_done N hst]
      exact hgr
    · have ha2 := ainv_expand hw hh hinit hinj ha hpop hcont hsc
      have hlenopn : c.opn.length = rest.length + 1 := by
        have hpl := (popMin_spec _ _ _ hpop).2.1.length_eq
        simpa using hpl
      have hopn2 : (expandCfg w h c.closed c.ctr e rest).opn.length ≤ rest.length + 4 :=
        expand_opn_le
      have hclnew : (expandCfg w h c.closed c.ctr e rest).closed.length
          = c.closed.length + 1 := by
        rw [expandCfg_closed]
        simp
      have hmold : measCfg (h * w) c = c.opn.length
          + 5 * (Nat.factorial (h * w) + 1 - c.closed.length) := rfl
      have hmnew : measCfg (h * w) (expandCfg w h c.closed c.ctr e rest)
          = (expandCfg w h c.closed c.ctr e rest).opn.length
          + 5 * (Nat.factorial (h * w) + 1
              - (expandCfg w h c.closed c.ctr e rest).closed.length) := rfl
      have hlt : measCfg (h * w) (expandCfg w h c.closed c.ctr e rest) < N := by omega
      obtain ⟨ws, hloop, hreach, hmin⟩ :=
        ih (measCfg (h * w) (expandCfg w h c.closed c.ctr e rest)) hlt _ ha2 le_rfl
      refine ⟨ws, ?_, hreach, hmin⟩
      rw [loopFuel_succ_cont N hst]
      exact loopFuel_mono _ N _ _ hloop (by omega)

/-- Whatever fuel it is given, when the loop returns a move word from an
invariant-satisfying search state, that word reaches the goal in the
minimum possible number of moves. -/
theorem loop_sound {w h : ℕ} (hw : 0 < w) (hh : 0 < h) {init : List ℤ}
    (hinit : init.Perm (intRange (h * w))) (hinj : HashInjective (h * w))
    (hnone : NoNoneHash (h * w)) :
    ∀ (fuel : ℕ) (c : SearchCfg) (ws : List String), AInv w h init c →
    loopFuel w h fuel c = some (some ws) →
    applyWord w h init ws = some (goalFlat (h * w)) ∧
    (∀ ws2, applyWord w h init ws2 = some (goalFlat (h * w)) → ws.length ≤ ws2.length) := by
  intro fuel
  induction fuel with
  | zero =>
    intro c ws ha hl
    simp [loopFuel] at hl
  | succ fuel ih =>
    intro c ws ha hl
    rcases stepFn_char w h c with ⟨hemp, hst⟩ | ⟨e, rest, hpop, hcont, hst⟩ |
      ⟨e, rest, hpop, hcont, hsc, hst⟩ | ⟨e, rest, hpop, hcont, hsc, hst⟩
    · rw [loopFuel_succ_done fuel hst] at hl
      simp at hl
    · rw [loopFuel_succ_cont fuel hst] at hl
      exact ih _ ws (ainv_skip hw hh hinit hinj ha hpop hcont) hl
    · rw [loopFuel_succ_done fuel hst] at hl
      obtain ⟨ws2, hgr, hreach, hmin⟩ := ainv_goal hw hh hinit hinj hnone ha hpop hsc
      rw [hgr] at hl
      injection hl with h2
      injection h2 with h3
      subst h3
      exact ⟨hreach, hmin⟩
    · rw [loopFuel_succ_cont fuel hst] at hl
      exact ih _ ws (ainv_expand hw hh hinit hinj ha hpop hcont hsc) hl

/-- C2: on a valid configuration (under hash-collision-freedom of the
instance size, see C5), any move word returned by `solve`, applied in
order to the initial configuration with the blank-swap move semantics,
produces the goal configuration `1, 2, ..., n-1, 0`. -/
theorem c2_solution_reaches_goal (pd : List (List ℤ)) (hval : ValidPuzzle pd)
    (hinj : HashInjective (pd.length * widthOf pd))
    (hnone : NoNoneHash (pd.length * widthOf pd))
    (fuel : ℕ) (ws : List String) (hret : solve pd fuel = some (some ws)) :
    applyWord (widthOf pd) pd.length pd.flatten ws
      = some (goalFlat (pd.length * widthOf pd)) := by
  obtain ⟨hne, hw, hrows, hperm⟩ := hval
  have hh : 0 < pd.length := List.length_pos_of_ne_nil hne
  unfold solve at hret
  by_cases hgate : is_solvable pd = false
  · rw [if_pos hgate] at hret
    injection hret with h2
    cases h2
  · rw [if_neg hgate] at hret
    dsimp only at hret
    rw [scoreAndCache_make_state] at hret
    dsimp only at hret
    by_cases hs0 : fullScore pd.flatten (widthOf pd) = 0
    · rw [if_pos hs0] at hret
      injection hret with h2
      injection h2 with h3
      subst h3
      show some pd.flatten = some (goalFlat (pd.length * widthOf pd))
      rw [(fullScore_eq_zero_iff hw (Nat.mul_pos hh hw) hperm).mp hs0]
    · rw [if_neg hs0] at hret
      cases fuel with
      | zero => simp [loopFuel] at hret
      | succ f =>
        obtain ⟨hstep, ha1⟩ := ainv_first pd ⟨hne, hw, hrows, hperm⟩ hs0
        rw [loopFuel_succ_cont f hstep] at hret
        exact (loop_sound hw hh hperm hinj hnone f _ ws ha1 hret).1

/-! ### Inversion counting: bridges and append laws -/

theorem cntLt_eq_sum (a : ℤ) (t : List ℤ) :
    cntLt a t = ∑ j ∈ Finset.range t.length, if t.getD j 0 < a then 1 else 0 := by
  unfold cntLt
  induction t with
  | nil => simp
  | cons b t ih =>
    rw [List.countP_cons]
    simp only [List.length_cons]
    rw [Finset.sum_range_succ' (fun j => if (b :: t).getD j 0 < a then 1 else 0) t.length]
    have hsh : ∀ j, (b :: t).getD (j + 1) 0 = t.getD j 0 := fun j => rfl
    have hsum : (∑ j ∈ Finset.range t.length, if (b :: t).getD (j + 1) 0 < a then 1 else 0)
        = ∑ j ∈ Finset.range t.length, if t.getD j 0 < a then 1 else 0 := by
      refine Finset.sum_congr rfl ?_
      intro j hj
      rw [hsh j]
    rw [hsum, ← ih]
    have hval : (b :: t).getD 0 0 = b := rfl
    rw [hval]
    by_cases hba : b < a
    · rw [if_pos hba, if_pos (by simpa using hba)]
    · rw [if_neg hba, if_neg (by simpa using hba)]

theorem inversionPairs_cons (a : ℤ) (t : List ℤ) :
    inversionPairs (a :: t) = cntLt a t + inversionPairs t := by
  unfold inversionPairs
  simp only [List.length_cons]
  rw [Finset.sum_range_succ' (fun i => ∑ j ∈ Finset.Ico (i + 1) (t.length + 1),
    if (a :: t).getD j 0 < (a :: t).getD i 0 then 1 else 0) t.length]
  have h0 : (∑ j ∈ Finset.Ico (0 + 1) (t.length + 1),
      if (a :: t).getD j 0 < (a :: t).getD 0 0 then 1 else 0) = cntLt a t := by
    rw [cntLt_eq_sum]
    rw [Finset.sum_Ico_eq_sum_range]
    simp only [Nat.add_sub_cancel]
    refine Finset.sum_congr rfl ?_
    intro j hj
    have h1 : (a :: t).getD (0 + 1 + j) 0 = t.getD j 0 := by
      rw [show 0 + 1 + j = j + 1 by omega]
      rfl
    rw [h1]
    rfl
  have hsh : (∑ i ∈ Finset.range t.length, ∑ j ∈ Finset.Ico (i + 1 + 1) (t.length + 1),
      if (a :: t).getD j 0 < (a :: t).getD (i + 1) 0 then 1 else 0)
      = ∑ i ∈ Finset.range t.length, ∑ j ∈ Finset.Ico (i + 1) t.length,
        if t.getD j 0 < t.getD i 0 then 1 else 0 := by
    refine Finset.sum_congr rfl ?_
    intro i hi
    rw [Finset.sum_Ico_eq_sum_range, Finset.sum_Ico_eq_sum_range]
    have hlen : t.length + 1 - (i + 1 + 1) = t.length - (i + 1) := by omega
    rw [hlen]
    refine Finset.sum_congr rfl ?_
    intro j hj
    have h1 : (a :: t).getD (i + 1 + 1 + j) 0 = t.getD (i + 1 + j) 0 := by
      rw [show i + 1 + 1 + j = (i + 1 + j) + 1 by omega]
      rfl
    have h2 : (a :: t).getD (i + 1) 0 = t.getD i 0 := rfl
    rw [h1, h2]
  rw [h0, hsh]
  omega

theorem inversionPairs_eq_invCount (l : List ℤ) : inversionPairs l = invCount l := by
  induction l with
  | nil => rfl
  | cons a t ih =>
    rw [inversionPairs_cons, ih]
    rfl

theorem crossInv_cons_left (a : ℤ) (p q : List ℤ) :
    crossInv (a :: p) q = cntLt a q + crossInv p q := by
  unfold crossInv
  simp

theorem crossInv_nil_left (q : List ℤ) : crossInv [] q = 0 := rfl

theorem cntLt_append (a : ℤ) (q1 q2 : List ℤ) :
    cntLt a (q1 ++ q2) = cntLt a q1 + cntLt a q2 := by
  unfold cntLt
  rw [List.countP_append]

theorem cntLt_cons (a b : ℤ) (q : List ℤ) :
    cntLt a (b :: q) = cntLt a q + (if b < a then 1 else 0) := by
  unfold cntLt
  rw [List.countP_cons]
  by_cases hb : b < a
  · rw [if_pos hb, if_pos (by simpa using hb)]
  · rw [if_neg hb, if_neg (by simpa using hb)]

theorem crossInv_append_right (p q1 q2 : List ℤ) :
    crossInv p (q1 ++ q2) = crossInv p q1 + crossInv p q2 := by
  induction p with
  | nil => rfl
  | cons a p ih =>
    rw [crossInv_cons_left, crossInv_cons_left, crossInv_cons_left, cntLt_append, ih]
    omega

theorem crossInv_cons_right (p : List ℤ) (b : ℤ) (q : List ℤ) :
    crossInv p (b :: q) = p.countP (fun m => decide (b < m)) + crossInv p q := by
  induction p with
  | nil => rfl
  | cons a p ih =>
    rw [crossInv_cons_left, crossInv_cons_left, cntLt_cons, ih, List.countP_cons]
    by_cases hb : b < a
    · rw [if_pos hb, if_pos (by simpa using hb)]
      omega
    · rw [if_neg hb, if_neg (by simpa using hb)]
      omega

theorem invCount_append (p q : List ℤ) :
    invCount (p ++ q) = invCount p + crossInv p q + invCount q := by
  induction p with
  | nil =>
    rw [crossInv_nil_left]
    show invCount q = invCount [] + 0 + invCount q
    have h0 : invCount [] = 0 := rfl
    omega
  | cons a p ih =>
    show cntLt a (p ++ q) + invCount (p ++ q) = (cntLt a p + invCount p) + _ + _
    rw [cntLt_append, ih, crossInv_cons_left]
    omega

theorem crossInv_perm_right {p q q2 : List ℤ} (hq : q.Perm q2) :
    crossInv p q = crossInv p q2 := by
  induction p with
  | nil => rfl
  | cons a p ih =>
    rw [crossInv_cons_left, crossInv_cons_left, ih]
    unfold cntLt
    rw [hq.countP_eq]

theorem count_trichotomy {M : List ℤ} {x : ℤ} (hx : ∀ m ∈ M, m ≠ x) :
    cntLt x M + M.countP (fun m => decide (x < m)) = M.length := by
  induction M with
  | nil => rfl
  | cons m M ih =>
    have hmx : m ≠ x := hx m (List.mem_cons_self _ _)
    have hih := ih (fun m2 hm2 => hx m2 (List.mem_cons_of_mem _ hm2))
    rw [cntLt_cons, List.countP_cons, List.length_cons]
    simp only [decide_eq_true_eq]
    rcases lt_trichotomy m x with h1 | h1 | h1
    · rw [if_pos h1, if_neg (by omega)]
      omega
    · exact absurd h1 hmx
    · rw [if_neg (by omega), if_pos h1]
      omega

theorem inversions_eq_invCount (l : List ℤ) : inversions l = invCount l := by
  rw [inversions_eq_inversionPairs, inversionPairs_eq_invCount]

/-- Moving one tile across a block of `M.length` tiles changes the
inversion count by `M.length` modulo 2. -/
theorem inv_across (A M B : List ℤ) (x : ℤ) (hx : ∀ m ∈ M, m ≠ x) :
    ∃ K, invCount (A ++ ((x :: M) ++ B)) + invCount (A ++ (M ++ (x :: B)))
      = 2 * K + M.length := by
  have e1 := invCount_append A ((x :: M) ++ B)
  have e2 := invCount_append A (M ++ (x :: B))
  have hperm : (M ++ (x :: B)).Perm ((x :: M) ++ B) := List.perm_middle
  have ecross : crossInv A (M ++ (x :: B)) = crossInv A ((x :: M) ++ B) :=
    crossInv_perm_right hperm
  have ec1 : invCount ((x :: M) ++ B) = cntLt x (M ++ B) + invCount (M ++ B) := rfl
  have ec1b : cntLt x (M ++ B) = cntLt x M + cntLt x B := cntLt_append x M B
  have ec1c : invCount (M ++ B) = invCount M + crossInv M B + invCount B :=
    invCount_append M B
  have ec2 : invCount (M ++ (x :: B)) = invCount M + crossInv M (x :: B) + invCount (x :: B) :=
    invCount_append M (x :: B)
  have ec2b : crossInv M (x :: B) = M.countP (fun m => decide (x < m)) + crossInv M B :=
    crossInv_cons_right M x B
  have ec2c : invCount (x :: B) = cntLt x B + invCount B := rfl
  have etr : cntLt x M + M.countP (fun m => decide (x < m)) = M.length := count_trichotomy hx
  refine ⟨invCount A + crossInv A ((x :: M) ++ B) + invCount M + invCount B + crossInv M B
    + cntLt x B, ?_⟩
  omega

theorem set_append_right {α : Type} (p q : List α) (k : ℕ) (v : α) :
    (p ++ q).set (p.length + k) v = p ++ q.set k v := by
  induction p with
  | nil => simp
  | cons a p ih =>
    show (a :: (p ++ q)).set (p.length + 1 + k) v = a :: (p ++ q.set k v)
    rw [show p.length + 1 + k = (p.length + k) + 1 from by omega, List.set_cons_succ, ih]

theorem getD_append_right {α : Type} [Inhabited α] (p q : List α) (k : ℕ) :
    (p ++ q).getD (p.length + k) default = q.getD k default := by
  induction p with
  | nil => simp
  | cons a p ih =>
    show (a :: (p ++ q)).getD (p.length + 1 + k) default = q.getD k default
    rw [show p.length + 1 + k = (p.length + k) + 1 from by omega]
    rw [show (a :: (p ++ q)).getD ((p.length + k) + 1) default
      = (p ++ q).getD (p.length + k) default from rfl, ih]

/-- List surgery: the blank-tile swap on a decomposed configuration. -/
theorem swap_form_up (A M B : List ℤ) (x : ℤ) :
    ((A ++ 0 :: (M ++ x :: B)).set A.length x).set (A.length + (M.length + 1)) 0
      = A ++ x :: (M ++ 0 :: B) := by
  have h1 : (A ++ 0 :: (M ++ x :: B)).set A.length x = A ++ x :: (M ++ x :: B) := by
    have := set_append_right A (0 :: (M ++ x :: B)) 0 x
    rw [Nat.add_zero] at this
    rw [this]
    rfl
  rw [h1]
  have h2 := set_append_right A (x :: (M ++ x :: B)) (M.length + 1) 0
  rw [h2]
  congr 1
  rw [List.set_cons_succ]
  congr 1
  have h3 := set_append_right M (x :: B) 0 (0 : ℤ)
  rw [Nat.add_zero] at h3
  rw [h3]
  rfl

theorem swap_form_down (A M B : List ℤ) (x : ℤ) :
    ((A ++ x :: (M ++ 0 :: B)).set (A.length + (M.length + 1)) x).set A.length 0
      = A ++ 0 :: (M ++ x :: B) := by
  have h1 : (A ++ x :: (M ++ 0 :: B)).set (A.length + (M.length + 1)) x
      = A ++ x :: (M ++ x :: B) := by
    have h2 := set_append_right A (x :: (M ++ 0 :: B)) (M.length + 1) x
    rw [h2]
    congr 1
    rw [List.set_cons_succ]
    congr 1
    have h3 := set_append_right M (0 :: B) 0 x
    rw [Nat.add_zero] at h3
    rw [h3]
    rfl
  rw [h1]
  have h4 := set_append_right A (x :: (M ++ x :: B)) 0 (0 : ℤ)
  rw [Nat.add_zero] at h4
  rw [h4]
  rfl

theorem erase_up (A M B : List ℤ) {x : ℤ} (hA : (0:ℤ) ∉ A) (hM : (0:ℤ) ∉ M) (hx : x ≠ 0) :
    (A ++ x :: (M ++ 0 :: B)).erase 0 = A ++ ((x :: M) ++ B) := by
  rw [List.erase_append_right _ hA]
  congr 1
  rw [List.erase_cons_tail (by simp [hx])]
  show x :: ((M ++ 0 :: B).erase 0) = x :: (M ++ B)
  congr 1
  rw [List.erase_append_right _ hM]
  simp

theorem erase_down (A M B : List ℤ) {x : ℤ} (hA : (0:ℤ) ∉ A) :
    (A ++ 0 :: (M ++ x :: B)).erase 0 = A ++ (M ++ (x :: B)) := by
  rw [List.erase_append_right _ hA]
  simp

theorem indexOf_up (A M B : List ℤ) {x : ℤ} (hA : (0:ℤ) ∉ A) (hM : (0:ℤ) ∉ M) (hx : x ≠ 0) :
    (A ++ x :: (M ++ 0 :: B)).indexOf 0 = A.length + (M.length + 1) := by
  rw [List.indexOf_append_of_not_mem hA]
  congr 1
  rw [show (x :: (M ++ 0 :: B)).indexOf 0 = (M ++ 0 :: B).indexOf 0 + 1 from by
    have := List.indexOf_cons_ne (M ++ 0 :: B) hx
    simpa using this]
  rw [List.indexOf_append_of_not_mem hM, List.indexOf_cons_self]

theorem indexOf_down (A M B : List ℤ) {x : ℤ} (hA : (0:ℤ) ∉ A) :
    (A ++ 0 :: (M ++ x :: B)).indexOf 0 = A.length := by
  rw [List.indexOf_append_of_not_mem hA, List.indexOf_cons_self]
  omega

/-- The solvability rule is invariant under swapping the blank with a
tile separated by a block `M`, when the blank moves by zero rows (`M`
empty) or exactly one row (`M` spans the rest of a row). -/
theorem flatSolvable_AB {w hgt : ℕ} {A M B : List ℤ} {x : ℤ}
    (hA : (0:ℤ) ∉ A) (hM : (0:ℤ) ∉ M) (hB : (0:ℤ) ∉ B) (hx : x ≠ 0)
    (hMx : ∀ m ∈ M, m ≠ x)
    (hcase : (M.length = 0 ∧ (A.length + (M.length + 1)) / w = A.length / w) ∨
             (M.length = w - 1 ∧ 0 < w ∧
               (A.length + (M.length + 1)) / w = A.length / w + 1)) :
    flatSolvable w hgt (A ++ x :: (M ++ 0 :: B))
      = flatSolvable w hgt (A ++ 0 :: (M ++ x :: B)) := by
  obtain ⟨K, hK⟩ := inv_across A M B x hMx
  unfold flatSolvable
  rw [erase_up A M B hA hM hx, erase_down A M B hA,
    indexOf_up A M B hA hM hx, indexOf_down A M B hA]
  by_cases hpar : w % 2 = 1
  · rw [if_pos hpar, if_pos hpar]
    have hMeven : M.length % 2 = 0 := by
      rcases hcase with ⟨h0, _⟩ | ⟨h1, hw, _⟩ <;> omega
    have heq : invCount (A ++ ((x :: M) ++ B)) % 2
        = invCount (A ++ (M ++ (x :: B))) % 2 := by
      omega
    rw [heq]
  · rw [if_neg hpar, if_neg hpar]
    rcases hcase with ⟨h0, hdiv⟩ | ⟨h1, hwpos, hdiv⟩
    · rw [hdiv]
      have heqz : ((invCount (A ++ ((x :: M) ++ B)) : ℤ)
            + ((hgt : ℤ) - ((A.length / w : ℕ) : ℤ) - 1)) % 2
          = ((invCount (A ++ (M ++ (x :: B))) : ℤ)
            + ((hgt : ℤ) - ((A.length / w : ℕ) : ℤ) - 1)) % 2 := by
        omega
      rw [heqz]
    · rw [hdiv]
      have heqz : ((invCount (A ++ ((x :: M) ++ B)) : ℤ)
            + ((hgt : ℤ) - ((A.length / w + 1 : ℕ) : ℤ) - 1)) % 2
          = ((invCount (A ++ (M ++ (x :: B))) : ℤ)
            + ((hgt : ℤ) - ((A.length / w : ℕ) : ℤ) - 1)) % 2 := by
        push_cast
        omega
      rw [heqz]

theorem two_pos_decomp {l : List ℤ} {p q : ℕ} (hpq : p < q) (hq : q < l.length) :
    ∃ A M B, l = A ++ l.getD p 0 :: (M ++ l.getD q 0 :: B) ∧ A.length = p ∧
      M.length = q - p - 1 := by
  refine ⟨l.take p, (l.drop (p + 1)).take (q - p - 1), l.drop (q + 1), ?_, ?_, ?_⟩
  · have h2 : l.drop p = l.getD p 0 :: l.drop (p + 1) := by
      rw [List.drop_eq_getElem_cons (show p < l.length by omega)]
      rw [List.getD_eq_getElem l 0 (show p < l.length by omega)]
    have h4 : l.drop q = l.getD q 0 :: l.drop (q + 1) := by
      rw [List.drop_eq_getElem_cons (show q < l.length by omega)]
      rw [List.getD_eq_getElem l 0 hq]
    have h3 : l.drop (p + 1) = (l.drop (p + 1)).take (q - p - 1) ++ l.drop q := by
      conv_lhs => rw [← List.take_append_drop (q - p - 1) (l.drop (p + 1))]
      congr 1
      rw [List.drop_drop]
      congr 1
      omega
    conv_lhs => rw [← List.take_append_drop p l, h2, h3, h4]
  · rw [List.length_take]
    omega
  · rw [List.length_take, List.length_drop]
    omega

theorem decomp_facts_up {l : List ℤ} (hnd : l.Nodup) {A M B : List ℤ} {x : ℤ}
    (hdecomp : l = A ++ 0 :: (M ++ x :: B)) :
    (0:ℤ) ∉ A ∧ (0:ℤ) ∉ M ∧ (0:ℤ) ∉ B ∧ x ≠ 0 ∧ (∀ m ∈ M, m ≠ x) := by
  rw [hdecomp] at hnd
  have hA0 : (0:ℤ) ∉ A :=
    fun h0 => (List.disjoint_of_nodup_append hnd) h0 (List.mem_cons_self _ _)
  have hrest : ((0 : ℤ) :: (M ++ x :: B)).Nodup := hnd.of_append_right
  have h0nr : (0:ℤ) ∉ M ++ x :: B := List.Nodup.not_mem hrest
  have hM0 : (0:ℤ) ∉ M := fun h0 => h0nr (List.mem_append_left _ h0)
  have hx0 : x ≠ 0 := by
    intro he
    exact h0nr (List.mem_append_right _ (by rw [← he]; exact List.mem_cons_self _ _))
  have hB0 : (0:ℤ) ∉ B := fun h0 =>
    h0nr (List.mem_append_right _ (List.mem_cons_of_mem _ h0))
  have hndMB : (M ++ x :: B).Nodup := hrest.of_cons
  have hMx : ∀ m ∈ M, m ≠ x := by
    intro m hm he
    exact (List.disjoint_of_nodup_append hndMB) hm (by rw [he]; exact List.mem_cons_self _ _)
  exact ⟨hA0, hM0, hB0, hx0, hMx⟩

theorem decomp_facts_down {l : List ℤ} (hnd : l.Nodup) {A M B : List ℤ} {x : ℤ}
    (hdecomp : l = A ++ x :: (M ++ 0 :: B)) :
    (0:ℤ) ∉ A ∧ (0:ℤ) ∉ M ∧ (0:ℤ) ∉ B ∧ x ≠ 0 ∧ (∀ m ∈ M, m ≠ x) := by
  rw [hdecomp] at hnd
  have hA0 : (0:ℤ) ∉ A := fun h0 => (List.disjoint_of_nodup_append hnd) h0
    (List.mem_cons_of_mem _ (List.mem_append_right _ (List.mem_cons_self _ _)))
  have hrest : (x :: (M ++ 0 :: B)).Nodup := hnd.of_append_right
  have hxnr : x ∉ M ++ (0 : ℤ) :: B := List.Nodup.not_mem hrest
  have hx0 : x ≠ 0 := by
    intro he
    exact hxnr (List.mem_append_right _ (by rw [he]; exact List.mem_cons_self _ _))
  have hndMB : (M ++ (0 : ℤ) :: B).Nodup := hrest.of_cons
  have hM0 : (0:ℤ) ∉ M :=
    fun h0 => (List.disjoint_of_nodup_append hndMB) h0 (List.mem_cons_self _ _)
  have hB0 : (0:ℤ) ∉ B := List.Nodup.not_mem (List.Nodup.of_append_right hndMB)
  have hMx : ∀ m ∈ M, m ≠ x := by
    intro m hm he
    exact hxnr (by rw [← he]; exact List.mem_append_left _ hm)
  exact ⟨hA0, hM0, hB0, hx0, hMx⟩

/-- Every legal specification move preserves the solvability rule. -/
theorem applyMove_flatSolvable {w hgt : ℕ} (hw : 0 < w) (hh : 0 < hgt) {l v : List ℤ}
    (hperm : l.Perm (intRange (hgt * w))) {mc : String}
    (hv : applyMove w hgt l mc = some v) :
    flatSolvable w hgt v = flatSolvable w hgt l := by
  obtain ⟨hlen, hnd, _⟩ := perm_intRange_facts hperm
  have hmem : (0:ℤ) ∈ l := zero_mem_of_perm hperm (Nat.mul_pos hh hw)
  have hblt : l.indexOf 0 < l.length := List.indexOf_lt_length.mpr hmem
  have hbget : l.getD (l.indexOf 0) 0 = 0 := blank_getD hmem
  set b := l.indexOf 0 with hbdef
  clear_value b
  have hdm := Nat.div_add_mod b w
  have hmw : b % w < w := Nat.mod_lt _ hw
  have hdh : b / w < hgt := by
    rw [Nat.div_lt_iff_lt_mul hw]
    omega
  rcases applyMove_some_char hv with hc | hc | hc | hc <;> subst hc
  · rw [applyMove_U, ← hbdef] at hv
    split at hv
    · next hcond =>
      injection hv with hveq
      have hmul : w * (b / w + 2) = w * (b / w) + 2 * w := by ring
      have hmul2 : w * (b / w + 2) ≤ w * hgt := Nat.mul_le_mul_left w (by omega)
      have hc1 : w * hgt = hgt * w := Nat.mul_comm w hgt
      have htl : b + w < l.length := by omega
      obtain ⟨A, M, B, hdecomp, hAlen, hMlen⟩ := two_pos_decomp (show b < b + w by omega) htl
      rw [hbget] at hdecomp
      set x := l.getD (b + w) 0 with hxdef
      clear_value x
      obtain ⟨hA0, hM0, hB0, hx0, hMx⟩ := decomp_facts_up hnd hdecomp
      have hMlen2 : M.length = w - 1 := by omega
      have hveq2 : v = A ++ x :: (M ++ 0 :: B) := by
        rw [← hveq, hdecomp]
        rw [show b + w = A.length + (M.length + 1) from by omega]
        rw [show b = A.length from hAlen.symm]
        exact swap_form_up A M B x
      have hdivc : (A.length + (M.length + 1)) / w = A.length / w + 1 := by
        rw [show A.length + (M.length + 1) = A.length + w from by omega]
        exact Nat.add_div_right A.length hw
      rw [hveq2, hdecomp]
      exact flatSolvable_AB hA0 hM0 hB0 hx0 hMx (Or.inr ⟨hMlen2, hw, hdivc⟩)
    · cases hv
  · rw [applyMove_D, ← hbdef] at hv
    split at hv
    · next hcond =>
      injection hv with hveq
      have hwb : w ≤ b := by
        by_contra hlt
        push_neg at hlt
        rw [Nat.div_eq_of_lt hlt] at hcond
        omega
      obtain ⟨A, M, B, hdecomp, hAlen, hMlen⟩ :=
        two_pos_decomp (show b - w < b by omega) hblt
      rw [hbget] at hdecomp
      set x := l.getD (b - w) 0 with hxdef
      clear_value x
      obtain ⟨hA0, hM0, hB0, hx0, hMx⟩ := decomp_facts_down hnd hdecomp
      have hMlen2 : M.length = w - 1 := by omega
      have hveq2 : v = A ++ 0 :: (M ++ x :: B) := by
        rw [← hveq, hdecomp]
        rw [show b - w = A.length from hAlen.symm]
        rw [show b = A.length + (M.length + 1) from by omega]
        exact swap_form_down A M B x
      have hdivc : (A.length + (M.length + 1)) / w = A.length / w + 1 := by
        rw [show A.length + (M.length + 1) = A.length + w from by omega]
        exact Nat.add_div_right A.length hw
      rw [hveq2, hdecomp]
      exact (flatSolvable_AB hA0 hM0 hB0 hx0 hMx (Or.inr ⟨hMlen2, hw, hdivc⟩)).symm
    · cases hv
  · rw [applyMove_L, ← hbdef] at hv
    split at hv
    · next hcond =>
      injection hv with hveq
      have hmul : w * (b / w) ≤ w * (hgt - 1) := Nat.mul_le_mul_left w (by omega)
      have hmul2 : w * (hgt - 1) + w = w * hgt := by
        rw [← Nat.mul_succ]
        congr 1
        omega
      have hc1 : w * hgt = hgt * w := Nat.mul_comm w hgt
      have htl : b + 1 < l.length := by omega
      obtain ⟨A, M, B, hdecomp, hAlen, hMlen⟩ := two_pos_decomp (show b < b + 1 by omega) htl
      rw [hbget] at hdecomp
      set x := l.getD (b + 1) 0 with hxdef
      clear_value x
      obtain ⟨hA0, hM0, hB0, hx0, hMx⟩ := decomp_facts_up hnd hdecomp
      have hMlen2 : M.length = 0 := by omega
      have hveq2 : v = A ++ x :: (M ++ 0 :: B) := by
        rw [← hveq, hdecomp]
        rw [show b + 1 = A.length + (M.length + 1) from by omega]
        rw [show b = A.length from hAlen.symm]
        exact swap_form_up A M B x
      have hdivc : (A.length + (M.length + 1)) / w = A.length / w := by
        rw [show A.length + (M.length + 1) = A.length + 1 from by omega, hAlen]
        exact (div_mod_succ b w hcond).1
      rw [hveq2, hdecomp]
      exact flatSolvable_AB hA0 hM0 hB0 hx0 hMx (Or.inl ⟨hMlen2, hdivc⟩)
    · cases hv
  · rw [applyMove_R, ← hbdef] at hv
    split at hv
    · next hcond =>
      injection hv with hveq
      have hb1 : 1 ≤ b := by omega
      obtain ⟨A, M, B, hdecomp, hAlen, hMlen⟩ :=
        two_pos_decomp (show b - 1 < b by omega) hblt
      rw [hbget] at hdecomp
      set x := l.getD (b - 1) 0 with hxdef
      clear_value x
      obtain ⟨hA0, hM0, hB0, hx0, hMx⟩ := decomp_facts_down hnd hdecomp
      have hMlen2 : M.length = 0 := by omega
      have hveq2 : v = A ++ 0 :: (M ++ x :: B) := by
        rw [← hveq, hdecomp]
        rw [show b - 1 = A.length from hAlen.symm]
        rw [show b = A.length + (M.length + 1) from by omega]
        exact swap_form_down A M B x
      have hmod : (b - 1) % w = b % w - 1 := by
        have hcomm : (b / w) * w = w * (b / w) := Nat.mul_comm _ _
        have he : b - 1 = (b % w - 1) + (b / w) * w := by omega
        rw [he, Nat.add_mul_mod_self_right, Nat.mod_eq_of_lt (by omega)]
      have hpm : (b - 1) % w + 1 < w := by omega
      have hdivc : (A.length + (M.length + 1)) / w = A.length / w := by
        rw [show A.length + (M.length + 1) = A.length + 1 from by omega, hAlen]
        rw [show b - 1 + 1 = b from by omega]
        exact ((div_mod_succ (b - 1) w hpm).1.symm.trans
          (by rw [show b - 1 + 1 = b from by omega])).symm
      rw [hveq2, hdecomp]
      exact (flatSolvable_AB hA0 hM0 hB0 hx0 hMx (Or.inl ⟨hMlen2, hdivc⟩)).symm
    · cases hv

theorem invCount_range' : ∀ (m s : ℕ),
    invCount ((List.range' s m).map (fun k : ℕ => (k : ℤ))) = 0 := by
  intro m
  induction m with
  | zero =>
    intro s
    rfl
  | succ m ih =>
    intro s
    rw [List.range'_succ, List.map_cons]
    show cntLt (s : ℤ) ((List.range' (s + 1) m).map (fun k : ℕ => (k : ℤ)))
      + invCount ((List.range' (s + 1) m).map (fun k : ℕ => (k : ℤ))) = 0
    rw [ih (s + 1)]
    have hc : cntLt (s : ℤ) ((List.range' (s + 1) m).map (fun k : ℕ => (k : ℤ))) = 0 := by
      unfold cntLt
      rw [List.countP_eq_zero]
      intro a hamem
      obtain ⟨k, hk, rfl⟩ := List.mem_map.mp hamem
      have hkr := List.mem_range'_1.mp hk
      simp only [decide_eq_true_eq]
      omega
    omega

theorem flatSolvable_goal (w hgt : ℕ) (hw : 0 < w) (hh : 0 < hgt) :
    flatSolvable w hgt (goalFlat (hgt * w)) = true := by
  have hn : 0 < hgt * w := Nat.mul_pos hh hw
  unfold flatSolvable
  rw [goalFlat_erase, indexOf_goalFlat _ hn]
  have hdiv : (hgt * w - 1) / w = hgt - 1 := by
    obtain ⟨h2, hph⟩ : ∃ h2, hgt = h2 + 1 := ⟨hgt - 1, by omega⟩
    subst hph
    have hgem : (h2 + 1) * w = h2 * w + w := by ring
    have hsplit : (h2 + 1) * w - 1 = (w - 1) + h2 * w := by omega
    rw [hsplit, Nat.add_mul_div_right _ _ hw, Nat.div_eq_of_lt (by omega)]
    omega
  rw [hdiv, invCount_range']
  by_cases hpar : w % 2 = 1
  · rw [if_pos hpar]
    rfl
  · rw [if_neg hpar]
    simp only [beq_iff_eq]
    push_cast
    omega

theorem is_solvable_eq_flatSolvable (pd : List (List ℤ)) (hval : ValidPuzzle pd) :
    is_solvable pd = flatSolvable (widthOf pd) pd.length pd.flatten := by
  obtain ⟨hne, hw, hrows, hperm⟩ := hval
  have hh : 0 < pd.length := List.length_pos_of_ne_nil hne
  have hmem : (0:ℤ) ∈ pd.flatten := zero_mem_of_perm hperm (Nat.mul_pos hh hw)
  simp only [is_solvable, flatSolvable]
  rw [inversions_eq_invCount, blankRow_eq (widthOf pd) pd hrows hmem]

theorem applyWord_flatSolvable {w hgt : ℕ} (hw : 0 < w) (hh : 0 < hgt) :
    ∀ (ws : List String) (l v : List ℤ), l.Perm (intRange (hgt * w)) →
    applyWord w hgt l ws = some v → flatSolvable w hgt v = flatSolvable w hgt l := by
  intro ws
  induction ws with
  | nil =>
    intro l v _ hv
    injection hv with h2
    rw [← h2]
  | cons mc t ih =>
    intro l v hp hv
    rw [applyWord_cons] at hv
    cases hm : applyMove w hgt l mc with
    | none =>
      rw [hm] at hv
      cases hv
    | some l2 =>
      rw [hm] at hv
      have h2 := applyMove_flatSolvable hw hh hp hm
      have hperm2 := (applyMove_facts hw hh hp hm).1
      rw [ih l2 v (hperm2.trans hp) hv, h2]

/-- A configuration from which some move word reaches the goal passes
the `is_solvable` gate. -/
theorem solvable_gate (pd : List (List ℤ)) (hval : ValidPuzzle pd) (hsolv : Solvable pd) :
    is_solvable pd = true := by
  obtain ⟨hne, hw, hrows, hperm⟩ := hval
  have hh : 0 < pd.length := List.length_pos_of_ne_nil hne
  obtain ⟨ws, hws⟩ := hsolv
  rw [is_solvable_eq_flatSolvable pd ⟨hne, hw, hrows, hperm⟩]
  have hinv : flatSolvable (widthOf pd) pd.length (goalFlat (pd.length * widthOf pd))
      = flatSolvable (widthOf pd) pd.length pd.flatten :=
    applyWord_flatSolvable hw hh ws pd.flatten _ hperm hws
  rw [← hinv]
  exact flatSolvable_goal (widthOf pd) pd.length hw hh

/-- C1: on a valid solvable configuration (under hash-collision-freedom
of the instance size, see C5), `solve` with sufficient fuel returns a
move word reaching the goal whose length equals the true shortest-path
distance from the initial configuration to the goal. -/
theorem c1_solve_optimal (pd : List (List ℤ)) (hval : ValidPuzzle pd)
    (hsolv : Solvable pd)
    (hinj : HashInjective (pd.length * widthOf pd))
    (hnone : NoNoneHash (pd.length * widthOf pd)) :
    ∃ ws, solveFull pd = some (some ws) ∧
      applyWord (widthOf pd) pd.length pd.flatten ws
        = some (goalFlat (pd.length * widthOf pd)) ∧
      ∀ ws2, applyWord (widthOf pd) pd.length pd.flatten ws2
        = some (goalFlat (pd.length * widthOf pd)) → ws.length ≤ ws2.length := by
  obtain ⟨hne, hw, hrows, hperm⟩ := hval
  have hh : 0 < pd.length := List.length_pos_of_ne_nil hne
  have hgate := solvable_gate pd ⟨hne, hw, hrows, hperm⟩ hsolv
  have hflen : pd.flatten.length = pd.length * widthOf pd := (perm_intRange_facts hperm).1
  unfold solveFull solve
  rw [if_neg (show ¬(is_solvable pd = false) by rw [hgate]; simp)]
  dsimp only
  rw [scoreAndCache_make_state]
  dsimp only
  by_cases hs0 : fullScore pd.flatten (widthOf pd) = 0
  · rw [if_pos hs0]
    refine ⟨[], rfl, ?_, ?_⟩
    · show some pd.flatten = _
      rw [(fullScore_eq_zero_iff hw (Nat.mul_pos hh hw) hperm).mp hs0]
    · intro ws2 _
      exact Nat.zero_le _
  · rw [if_neg hs0]
    obtain ⟨hstep, ha1⟩ := ainv_first pd ⟨hne, hw, hrows, hperm⟩ hs0
    set c1 := expandCfg (widthOf pd) pd.length [] 0
      ⟨0, 0, 0, (scoreAndCache (make_state pd) (widthOf pd)).2, none⟩ [] with hc1def
    have hc1closed : c1.closed.length = 1 := by
      rw [hc1def, expandCfg_closed]
      simp
    have hc1opn : c1.opn.length ≤ ([] : List Entry).length + 4 := expand_opn_le
    simp only [List.length_nil] at hc1opn
    have hmeas : measCfg (pd.length * widthOf pd) c1
        ≤ 4 + 5 * Nat.factorial (pd.length * widthOf pd) := by
      unfold measCfg
      omega
    obtain ⟨ws, hloop, hreach, hmin⟩ := ainv_run hw hh hperm hinj hnone hsolv
      (4 + 5 * Nat.factorial (pd.length * widthOf pd)) c1 ha1 hmeas
    refine ⟨ws, ?_, hreach, hmin⟩
    have hbig : bigFuel pd = 5 * Nat.factorial (pd.length * widthOf pd) + 7 := by
      unfold bigFuel
      rw [hflen]
    rw [hbig]
    rw [show 5 * Nat.factorial (pd.length * widthOf pd) + 7
      = (5 * Nat.factorial (pd.length * widthOf pd) + 6) + 1 from by omega]
    rw [loopFuel_succ_cont _ hstep]
    exact loopFuel_mono _ _ _ _ hloop (by omega)

theorem c1_solve_optimal_witness :
    (ValidPuzzle [[1, 2], [0, 3]] ∧ Solvable [[1, 2], [0, 3]] ∧
      HashInjective ([[1, 2], [0, 3]].length * widthOf [[1, 2], [0, 3]]) ∧
      NoNoneHash ([[1, 2], [0, 3]].length * widthOf [[1, 2], [0, 3]])) ∧
    ∃ ws, solveFull [[1, 2], [0, 3]] = some (some ws) ∧
      applyWord (widthOf [[1, 2], [0, 3]]) [[1, 2], [0, 3]].length
        [[1, 2], [0, 3]].flatten ws
        = some (goalFlat ([[1, 2], [0, 3]].length * widthOf [[1, 2], [0, 3]])) ∧
      ∀ ws2, applyWord (widthOf [[1, 2], [0, 3]]) [[1, 2], [0, 3]].length
        [[1, 2], [0, 3]].flatten ws2
        = some (goalFlat ([[1, 2], [0, 3]].length * widthOf [[1, 2], [0, 3]]))
        → ws.length ≤ ws2.length :=
  ⟨⟨by decide, ⟨["L"], by decide⟩, by decide, by decide⟩,
    c1_solve_optimal [[1, 2], [0, 3]] (by decide) ⟨["L"], by decide⟩ (by decide) (by decide)⟩

theorem c2_solution_reaches_goal_witness :
    (ValidPuzzle [[1, 2], [0, 3]] ∧
      HashInjective ([[1, 2], [0, 3]].length * widthOf [[1, 2], [0, 3]]) ∧
      NoNoneHash ([[1, 2], [0, 3]].length * widthOf [[1, 2], [0, 3]]) ∧
      solve [[1, 2], [0, 3]] 3 = some (some ["L"])) ∧
    applyWord (widthOf [[1, 2], [0, 3]]) [[1, 2], [0, 3]].length
      [[1, 2], [0, 3]].flatten ["L"]
      = some (goalFlat ([[1, 2], [0, 3]].length * widthOf [[1, 2], [0, 3]])) :=
  ⟨⟨by decide, by decide, by decide, by decide⟩,
    c2_solution_reaches_goal [[1, 2], [0, 3]] (by decide) (by decide) (by decide)
      3 ["L"] (by decide)⟩

end NPuzzle
